import Mathlib

/-!
Verification development for the ride-pooling batch-assignment core
(insertion feasibility search, RTV trip generation, ILP assembly).

The Python source is shallowly embedded: machine integers are `Int`
(Python integers are unbounded, so no wrap-around modelling is needed),
wall-clock readings of `time.time()` are an oracle stream `Nat → Int`
consumed one value per call, exceptions are `Option.none`, and the
depth of the recursive route search is driven by an explicit fuel that
the wrappers instantiate with the stop count of the forest plus one,
which strictly exceeds the recursion depth, so it never runs out.
-/

set_option linter.unusedVariables false

namespace RP

/-- Embeds `Request` (src/env/struct/Request.py): deadlines are stored
fields; ordering, hashing and equality in the source are by `id`. -/
structure Request where
  id : Nat
  origin : Int
  destination : Int
  entry_time : Int
  ideal_traveltime : Int
  latest_boarding : Int
  latest_alighting : Int
  assigned : Bool
deriving DecidableEq, Repr

/-- Embeds `NodeStop` (src/env/struct/Trip.py): a visit atom. -/
structure NodeStop where
  r : Request
  is_pickup : Bool
  node : Int
deriving DecidableEq, Repr

/-- Embeds `Vehicle` (src/env/struct/Vehicle.py), restricted to the
fields the assignment core reads. -/
structure Vehicle where
  id : Nat
  node : Int
  offset : Int
  capacity : Int
  passengers : List Request
  pending_requests : List Request
  order_record : List NodeStop
deriving DecidableEq, Repr

/-- Embeds the travel-time side of `Network` (src/env/struct/Network.py):
`tm` is the dense time matrix as a total function on node codes. -/
structure Network where
  tm : Int → Int → Int
  dwell_pickup : Int
  dwell_alight : Int

/-- Embeds `Network.get_time`: the sentinels `-10` / `-20` return the
dwell constants, every other code is a matrix lookup. -/
def Network.get_time (net : Network) (a b : Int) : Int :=
  if a = -10 then net.dwell_pickup
  else if a = -20 then net.dwell_alight
  else net.tm a b

/-- Embeds `Network.get_vehicle_time`. -/
def Network.get_vehicle_time (net : Network) (veh : Vehicle) (node : Int) : Int :=
  veh.offset + net.get_time veh.node node

/-- Embeds the global configuration module `src/utils/global_var.py`
(the knobs read by the assignment core).  The string-valued knobs keep
their string comparisons from the source. -/
structure Config where
  CTSP : String
  CTSP_OBJECTIVE : String
  DWELL_ALIGHT : Int
  DWELL_PICKUP : Int
  CARSIZE : Int
  LP_LIMITVALUE : Int
  MAX_NEW : Int
  RTV_TIMELIMIT : Int
  ALGORITHM : String
deriving DecidableEq, Repr

/-- Embeds the `Action` constants of src/algo/insersion.py. -/
inductive Action : Type where
  | pickup
  | dropoff
  | no_action
deriving DecidableEq, Repr

/-- Embeds `get_alight_deadline` (insersion.py line 59). -/
def get_alight_deadline (r : Request) : Int := r.latest_alighting

/-- A `MetaNodeStop` (insersion.py line 12): a stop together with the
stops it unlocks.  The mutable Python object graph built by
`new_travel` / `memory` is a forest, embedded as finite trees. -/
inductive MetaNS : Type where
  | mk : NodeStop → List MetaNS → MetaNS
deriving Repr

def MetaNS.stop : MetaNS → NodeStop
  | .mk s _ => s

def MetaNS.unlocks : MetaNS → List MetaNS
  | .mk _ us => us

/-- All stops of a forest, root before its unlock subtrees. -/
def flatL : List MetaNS → List NodeStop
  | [] => []
  | .mk s us :: ms => s :: (flatL us ++ flatL ms)

/-- Number of stops in a forest (the recursion depth bound of the search). -/
def sizeT (F : List MetaNS) : Nat := (flatL F).length

/-- The sort key used by `MetaNodeStop.__lt__` (insersion.py line 25):
node, then pickup flag (`False < True`), then request id (via
`NodeStop.__lt__`, which orders by request id then pickup flag).  On
the forests built by the source all keys are distinct, so this total
key order determines `sorted` uniquely. -/
def stopKeyLt (x y : NodeStop) : Bool :=
  decide (x.node < y.node) ||
    (x.node == y.node &&
      ((!x.is_pickup && y.is_pickup) ||
        (x.is_pickup == y.is_pickup && decide (x.r.id < y.r.id))))

def insertMeta (m : MetaNS) : List MetaNS → List MetaNS
  | [] => [m]
  | x :: xs => if stopKeyLt x.stop m.stop then x :: insertMeta m xs else m :: x :: xs

/-- Embeds `sorted(initially_available)` (insersion.py line 105). -/
def sortMeta : List MetaNS → List MetaNS
  | [] => []
  | m :: ms => insertMeta m (sortMeta ms)

/-- The action performed at a stop. -/
def actOf (s : NodeStop) : Action := if s.is_pickup then .pickup else .dropoff

/-- The dwell time charged on the leg into `s` (insersion.py lines
125-128): alight dwell after a dropoff unless the next stop is a
dropoff at the same node, pickup dwell after a pickup unless the next
stop is a pickup at the same node. -/
def dwellVal (cfg : Config) (act : Action) (loc : Int) (s : NodeStop) : Int :=
  if act = .dropoff ∧ (s.is_pickup ∨ loc ≠ s.node) then cfg.DWELL_ALIGHT
  else if act = .pickup ∧ (s.is_pickup = false ∨ loc ≠ s.node) then cfg.DWELL_PICKUP
  else 0

/-- Arrival (service-start) time at stop `s` from location `loc` at
clock `now` after action `act` (insersion.py lines 120-131): travel
time plus dwell, raised to the request's entry time at a pickup. -/
def arrivalAt (net : Network) (cfg : Config) (act : Action) (loc : Int) (now : Int)
    (s : NodeStop) : Int :=
  let a := now + net.get_time loc s.node + dwellVal cfg act loc s
  if s.is_pickup ∧ a < s.r.entry_time then s.r.entry_time else a

/-- Deadline used by the forward-reachability prune (insersion.py line 160). -/
def deadlineOf (s : NodeStop) : Int :=
  if s.is_pickup then s.r.latest_boarding else s.r.latest_alighting

/-- Embeds `basic_reachability` (insersion.py lines 158-162): every
remaining root must be directly reachable before its deadline. -/
def reachOK (net : Network) (arrival : Int) (fromNode : Int) (rem : List MetaNS) : Bool :=
  rem.all fun x => decide (arrival + net.get_time fromNode x.stop.node ≤ deadlineOf x.stop)

/-- Embeds the same-node duplicate-dropoff skip (insersion.py line 114). -/
def skipDup (previous : Option NodeStop) (m : MetaNS) : Bool :=
  match previous with
  | none => false
  | some p => !m.stop.is_pickup && p.node == m.stop.node

/-- One candidate step of `recursive_search` (insersion.py lines
118-177): bound check, capacity update, time windows, reachability
prune, recursive tail, adoption test.  Returns the improved
(best\_time, best\_tail) when the candidate improves, else `none`. -/
def stepCand (net : Network) (cfg : Config) (loc cap now : Int)
    (rec : Int → Int → List MetaNS → Int → Int → Action → Int × List NodeStop)
    (prev_act : Action) (pre rest2 : List MetaNS) (m : MetaNS) (bt : Int) :
    Option (Int × List NodeStop) :=
  let arrival := arrivalAt net cfg prev_act loc now m.stop
  if bt ≠ -1 ∧ bt ≤ arrival then none
  else
    let cap2 := if m.stop.is_pickup then cap - 1 else cap + 1
    if cap2 < 0 then none
    else if m.stop.is_pickup ∧ m.stop.r.latest_boarding < arrival then none
    else if get_alight_deadline m.stop.r < arrival then none
    else
      let remaining := pre.reverse ++ rest2 ++ m.unlocks
      if ¬ reachOK net arrival m.stop.node remaining then none
      else
        match rec m.stop.node cap2 remaining arrival bt (actOf m.stop) with
        | (tt, ts) =>
          if tt = -1 then none
          else if bt = -1 ∨ tt < bt then some (tt, ts ++ [m.stop]) else none

/-- The candidate loop of `recursive_search` (insersion.py lines
110-177), iterating the sorted available list while tracking the best
time, best tail and the `previous` iterated stop.  `pre` holds the
already-iterated elements (they stay in the available set of deeper
calls). -/
def searchLoop (net : Network) (cfg : Config) (loc cap now : Int)
    (rec : Int → Int → List MetaNS → Int → Int → Action → Int × List NodeStop)
    (prev_act : Action) :
    List MetaNS → List MetaNS → Int → List NodeStop → Option NodeStop → Int × List NodeStop
  | _, [], bt, btail, _ => (bt, btail)
  | pre, m :: rest2, bt, btail, previous =>
    if skipDup previous m then
      searchLoop net cfg loc cap now rec prev_act (m :: pre) rest2 bt btail previous
    else
      match stepCand net cfg loc cap now rec prev_act pre rest2 m bt with
      | some (t2, tl2) =>
        searchLoop net cfg loc cap now rec prev_act (m :: pre) rest2 t2 tl2 (some m.stop)
      | none =>
        searchLoop net cfg loc cap now rec prev_act (m :: pre) rest2 bt btail (some m.stop)

/-- Embeds `recursive_search` (insersion.py lines 84-179).  The fuel
only bounds the recursion depth; the wrappers pass the stop count of
the forest plus one, which strictly exceeds the depth (each level
removes one stop), so the `fuel = 0` case is never reached from them;
it returns the incoming best pair, as an empty loop would. -/
def recursive_search (net : Network) (cfg : Config) :
    Nat → Int → Int → List MetaNS → Int → Int → Action → Int × List NodeStop
  | 0, _, _, _, _, bt, _ => (bt, [])
  | fuel + 1, loc, cap, avail, now, bt, prev_act =>
    match sortMeta avail with
    | [] => (now, [])
    | s => searchLoop net cfg loc cap now (recursive_search net cfg fuel) prev_act [] s bt [] none

/-- Embeds `format_path` (insersion.py lines 42-57): reverse the tail,
and under `CTSP_VTT` subtract the current time from non-negative costs. -/
def format_path (cfg : Config) (reverse_path : Int × List NodeStop) (current_time : Int) :
    Int × List NodeStop :=
  ((if cfg.CTSP_OBJECTIVE = "CTSP_VTT" ∧ 0 ≤ reverse_path.1 then reverse_path.1 - current_time
    else reverse_path.1),
   reverse_path.2.reverse)

/-- The onboard-stop scan of `new_travel` (insersion.py lines 207-212):
walk `order_record`, keeping the first stop of each onboard passenger
(membership and removal are by request id, as in the source's
`set(vehicle.passengers)`). -/
def onboardScan (onboard : List Nat) : List NodeStop → List NodeStop
  | [] => []
  | ns :: rest =>
    if onboard.contains ns.r.id then
      ns :: onboardScan (onboard.filter fun i => i ≠ ns.r.id) rest
    else onboardScan onboard rest

def onboardStops (passengers : List Request) (record : List NodeStop) : List NodeStop :=
  onboardScan (passengers.map fun p => p.id) record

/-- The meta tree of a new request (insersion.py lines 199-204): the
pickup unlocks the dropoff, only the pickup is initially available. -/
def pickupTree (r : Request) : MetaNS :=
  .mk ⟨r, true, r.origin⟩ [.mk ⟨r, false, r.destination⟩ []]

/-- A fully chained unlock sequence: each stop unlocks the next, only
the head is initially available (insersion.py lines 216-218 for the
onboard suffix, lines 278-284 for `memory`). -/
def chainMeta : List NodeStop → List MetaNS
  | [] => []
  | s :: rest => [MetaNS.mk s (chainMeta rest)]

/-- The `FIX_ONBOARD` lock gate (insersion.py line 215).  Note the
comparison is against the global `CARSIZE`, not `vehicle.capacity`. -/
def fixOnboardLock (cfg : Config) (veh : Vehicle) (requests : List Request) : Bool :=
  cfg.CTSP == "FIX_ONBOARD" &&
    decide ((requests.length : Int) + (veh.passengers.length : Int) > cfg.CARSIZE) &&
    veh.passengers.length != 0

/-- The initially-available forest built by `new_travel` (insersion.py
lines 194-221): pickup trees for the new requests plus the onboard
dropoffs, the latter chained in `order_record` order when the
`FIX_ONBOARD` lock is engaged and all free otherwise.  The source
indexes the onboard metas as the last `len(passengers)` entries of
`meta_nodes`; this coincides with the scanned onboard stops whenever
every passenger has a stop in `order_record` (the data-model
invariant), which the well-formedness hypotheses of the theorems
below guarantee. -/
def buildAvail (cfg : Config) (veh : Vehicle) (requests : List Request) : List MetaNS :=
  let pickups := requests.map pickupTree
  let obs := onboardStops veh.passengers veh.order_record
  if fixOnboardLock cfg veh requests then pickups ++ chainMeta obs
  else pickups ++ obs.map fun s => MetaNS.mk s []

/-- `len(meta_nodes)` in `new_travel`. -/
def metaCount (veh : Vehicle) (requests : List Request) : Nat :=
  2 * requests.length + (onboardStops veh.passengers veh.order_record).length

/-- Embeds `new_travel` (insersion.py lines 181-261).  In the
`FIX_PREFIX` branch with more than `LP_LIMITVALUE` metas, the source
first returns `(-1, [])` when the distinct new requests exceed
`LP_LIMITVALUE / 2`, and otherwise builds `node_to_meta`, a dict keyed
by `NodeStop` objects; `NodeStop` defines `__eq__` without `__hash__`,
so that class is unhashable in Python 3 and the construction raises
`TypeError` — embedded as `none`.  An unknown objective raises
`RuntimeError` — also `none`. -/
def new_travel (cfg : Config) (veh : Vehicle) (requests : List Request) (net : Network)
    (current_time : Int) : Option (Int × List NodeStop) :=
  if cfg.CTSP = "FIX_PREFIX" ∧ (metaCount veh requests : Int) > cfg.LP_LIMITVALUE then
    let newIds :=
      ((requests.filter fun r => ¬ veh.pending_requests.any fun p => p.id = r.id).map
        fun r => r.id).dedup
    if 2 * (newIds.length : Int) > cfg.LP_LIMITVALUE then some (-1, [])
    else none
  else if cfg.CTSP_OBJECTIVE = "CTSP_VTT" ∨ cfg.CTSP_OBJECTIVE = "CTSP_DELAY" then
    some (format_path cfg
      (recursive_search net cfg (metaCount veh requests + 1) veh.node
        ((veh.capacity : Int) - (veh.passengers.length : Int))
        (buildAvail cfg veh requests) (current_time + veh.offset) (-1) Action.no_action)
      current_time)
  else none

/-- Embeds `memory` (insersion.py lines 263-288): replay the stored
order as one fully chained sequence. -/
def memory (cfg : Config) (veh : Vehicle) (net : Network) (current_time : Int) :
    Int × List NodeStop :=
  format_path cfg
    (recursive_search net cfg (veh.order_record.length + 1) veh.node
      ((veh.capacity : Int) - (veh.passengers.length : Int))
      (chainMeta veh.order_record) (current_time + veh.offset) (-1) Action.no_action)
    current_time

/-- Embeds `travel` (insersion.py lines 290-309).  The `REBALANCING`
trigger raises `NameError` — embedded as `none`. -/
def travel (cfg : Config) (veh : Vehicle) (requests : List Request) (net : Network)
    (current_time : Int) (trigger : String) : Option (Int × List NodeStop) :=
  if trigger = "MEMORY" then some (memory cfg veh net current_time)
  else if trigger = "REBALANCING" then none
  else new_travel cfg veh requests net current_time

/-- The literal trigger string of the standard call sites. -/
def trigSTANDARD : String := "STANDARD"

/-- The literal trigger string of memory replay. -/
def trigMEMORY : String := "MEMORY"

/-! ## Specification-side route validity

`checkSeq` replays a stop sequence under the arrival-time model of the
search (travel times, dwell times, entry-time raising) and checks the
capacity and deadline gates exactly as `recursive_search` does;
`seqEnd` is the completion clock of the replay. -/

def capAfter (s : NodeStop) (cap : Int) : Int := if s.is_pickup then cap - 1 else cap + 1

def checkSeq (net : Network) (cfg : Config) : Int → Int → Int → Action → List NodeStop → Bool
  | _, _, _, _, [] => true
  | loc, cap, now, act, s :: rest =>
    decide (0 ≤ capAfter s cap) &&
      (!s.is_pickup || decide (arrivalAt net cfg act loc now s ≤ s.r.latest_boarding)) &&
      decide (arrivalAt net cfg act loc now s ≤ s.r.latest_alighting) &&
      checkSeq net cfg s.node (capAfter s cap) (arrivalAt net cfg act loc now s) (actOf s) rest

def seqEnd (net : Network) (cfg : Config) : Int → Int → Action → List NodeStop → Int
  | _, now, _, [] => now
  | loc, now, act, s :: rest =>
    seqEnd net cfg s.node (arrivalAt net cfg act loc now s) (actOf s) rest

/-- A complete feasible execution of a stop forest from a vehicle
state: each step serves an available root (its unlock subtrees become
available), passes the capacity and time-window gates of the search,
and the run consumes the entire forest, ending at clock `T`. -/
inductive ExecOk (net : Network) (cfg : Config) :
    Int → Int → Int → Action → List MetaNS → List NodeStop → Int → Prop where
  | done : ∀ loc cap now act, ExecOk net cfg loc cap now act [] [] now
  | step : ∀ loc cap now act pre post m σ T,
      0 ≤ capAfter m.stop cap →
      (m.stop.is_pickup = true → arrivalAt net cfg act loc now m.stop ≤ m.stop.r.latest_boarding) →
      arrivalAt net cfg act loc now m.stop ≤ m.stop.r.latest_alighting →
      ExecOk net cfg m.stop.node (capAfter m.stop cap) (arrivalAt net cfg act loc now m.stop)
        (actOf m.stop) (pre ++ post ++ m.unlocks) σ T →
      ExecOk net cfg loc cap now act (pre ++ m :: post) (m.stop :: σ) T

lemma flatL_nil : flatL [] = [] := by rw [flatL]

lemma flatL_cons (s : NodeStop) (us ms : List MetaNS) :
    flatL (.mk s us :: ms) = s :: (flatL us ++ flatL ms) := by rw [flatL]

lemma flatL_cons' (m : MetaNS) (ms : List MetaNS) :
    flatL (m :: ms) = m.stop :: (flatL m.unlocks ++ flatL ms) := by
  cases m with
  | mk s us => rw [flatL_cons, MetaNS.stop, MetaNS.unlocks]

lemma flatL_append (a b : List MetaNS) : flatL (a ++ b) = flatL a ++ flatL b := by
  induction a with
  | nil => rw [flatL_nil]; rfl
  | cons m ms ih =>
    cases m with
    | mk s us =>
      rw [List.cons_append, flatL_cons, flatL_cons, ih, List.cons_append, List.append_assoc]

lemma flatL_perm {a b : List MetaNS} (h : a.Perm b) : (flatL a).Perm (flatL b) := by
  induction h with
  | nil => exact List.Perm.refl _
  | cons x _ ih => rw [flatL_cons', flatL_cons']; exact (ih.append_left _).cons _
  | swap x y l =>
    rw [flatL_cons', flatL_cons', flatL_cons', flatL_cons']
    have e1 : (flatL y.unlocks ++ x.stop :: (flatL x.unlocks ++ flatL l)).Perm
        (x.stop :: (flatL y.unlocks ++ (flatL x.unlocks ++ flatL l))) := List.perm_middle
    have e2 : (flatL x.unlocks ++ y.stop :: (flatL y.unlocks ++ flatL l)).Perm
        (y.stop :: (flatL x.unlocks ++ (flatL y.unlocks ++ flatL l))) := List.perm_middle
    refine ((e1.cons y.stop).trans ?_).trans (e2.cons x.stop).symm
    refine (List.Perm.swap x.stop y.stop _).trans ?_
    refine List.Perm.cons _ (List.Perm.cons _ ?_)
    rw [← List.append_assoc, ← List.append_assoc]
    exact List.perm_append_comm.append_right _
  | trans _ _ ih1 ih2 => exact ih1.trans ih2

lemma ExecOk.perm {net cfg loc cap now act F σ T} (h : ExecOk net cfg loc cap now act F σ T) :
    ∀ F', F.Perm F' → ExecOk net cfg loc cap now act F' σ T := by
  induction h with
  | done loc cap now act =>
    intro F' hp
    rw [List.perm_nil.mp hp.symm]
    exact ExecOk.done loc cap now act
  | step loc cap now act pre post m σ T h1 h2 h3 _ ih =>
    intro F' hp
    have hm : m ∈ F' := hp.mem_iff.mp (by simp)
    obtain ⟨pre', post', rfl⟩ := List.append_of_mem hm
    refine ExecOk.step loc cap now act pre' post' m σ T h1 h2 h3 ?_
    refine ih _ ?_
    have h4 : (pre ++ post).Perm (pre' ++ post') := by
      have k1 : (pre ++ m :: post).Perm (m :: (pre ++ post)) := List.perm_middle
      have k2 : (pre' ++ m :: post').Perm (m :: (pre' ++ post')) := List.perm_middle
      exact (k1.symm.trans (hp.trans k2)).cons_inv
    exact h4.append_right m.unlocks

lemma exec_stops {net cfg loc cap now act F σ T}
    (h : ExecOk net cfg loc cap now act F σ T) : σ.Perm (flatL F) := by
  induction h with
  | done _ _ _ _ => rw [flatL_nil]
  | step loc cap now act pre post m σ T _ _ _ _ ih =>
    rw [flatL_append, flatL_cons']
    have h1 : σ.Perm (flatL pre ++ flatL post ++ flatL m.unlocks) := by
      have := ih
      rwa [flatL_append, flatL_append] at this
    refine (h1.cons m.stop).trans ?_
    have h2 : (flatL pre ++ flatL post ++ flatL m.unlocks).Perm
        (flatL pre ++ (flatL m.unlocks ++ flatL post)) := by
      rw [List.append_assoc]
      exact List.Perm.append_left _ List.perm_append_comm
    refine (h2.cons m.stop).trans ?_
    exact List.perm_middle.symm

lemma exec_check {net cfg loc cap now act F σ T}
    (h : ExecOk net cfg loc cap now act F σ T) :
    checkSeq net cfg loc cap now act σ = true := by
  induction h with
  | done _ _ _ _ => rw [checkSeq]
  | step loc cap now act pre post m σ T h1 h2 h3 _ ih =>
    rw [checkSeq]
    simp only [Bool.and_eq_true, decide_eq_true_eq]
    refine ⟨⟨⟨h1, ?_⟩, h3⟩, ih⟩
    cases hb : m.stop.is_pickup with
    | false => simp
    | true => simp [h2 hb]

lemma exec_end {net cfg loc cap now act F σ T}
    (h : ExecOk net cfg loc cap now act F σ T) :
    seqEnd net cfg loc now act σ = T := by
  induction h with
  | done _ _ _ _ => rw [seqEnd]
  | step loc cap now act pre post m σ T _ _ _ _ ih => rw [seqEnd]; exact ih
lemma insertMeta_perm (m : MetaNS) (l : List MetaNS) : (insertMeta m l).Perm (m :: l) := by
  induction l with
  | nil => rw [insertMeta]
  | cons x xs ih =>
    rw [insertMeta]
    by_cases h : stopKeyLt x.stop m.stop = true
    · rw [if_pos h]
      exact (ih.cons x).trans (List.Perm.swap m x xs)
    · rw [if_neg h]

lemma sortMeta_perm (l : List MetaNS) : (sortMeta l).Perm l := by
  induction l with
  | nil => rw [sortMeta]
  | cons m ms ih => rw [sortMeta]; exact (insertMeta_perm m (sortMeta ms)).trans (ih.cons m)

/-- Soundness shape of a search result relative to the incoming best
pair: either nothing was adopted (the incoming best time comes back
with an empty tail), or the tail is a reversed complete feasible
execution of the available forest ending at the returned time. -/
def SoundTo (net : Network) (cfg : Config) (loc cap now : Int) (act : Action)
    (F : List MetaNS) (bt0 : Int) (res : Int × List NodeStop) : Prop :=
  res = (bt0, []) ∨
    ∃ σ, ExecOk net cfg loc cap now act F σ res.1 ∧ res.2 = σ.reverse

lemma SoundTo.perm_avail {net cfg loc cap now act F F' bt0 res} (hp : F.Perm F')
    (h : SoundTo net cfg loc cap now act F bt0 res) :
    SoundTo net cfg loc cap now act F' bt0 res := by
  cases h with
  | inl h => exact Or.inl h
  | inr h => exact Or.inr ⟨h.choose, (h.choose_spec.1).perm F' hp, h.choose_spec.2⟩

lemma stepCand_sound {net cfg loc cap now rec prev_act pre rest2 m bt t2 tl2}
    (Hrec : ∀ loc' cap' avail' now' bt' act',
      SoundTo net cfg loc' cap' now' act' avail' bt' (rec loc' cap' avail' now' bt' act'))
    (h : stepCand net cfg loc cap now rec prev_act pre rest2 m bt = some (t2, tl2)) :
    ∃ σ, ExecOk net cfg loc cap now prev_act (pre ++ m :: rest2) σ t2 ∧ tl2 = σ.reverse ∧
      (bt = -1 ∨ t2 < bt) := by
  rw [stepCand] at h
  by_cases c1 : bt ≠ -1 ∧ bt ≤ arrivalAt net cfg prev_act loc now m.stop
  · rw [if_pos c1] at h; exact absurd h (by simp)
  rw [if_neg c1] at h
  by_cases c2 : (if m.stop.is_pickup then cap - 1 else cap + 1) < 0
  · rw [if_pos c2] at h; exact absurd h (by simp)
  rw [if_neg c2] at h
  by_cases c3 : m.stop.is_pickup ∧ m.stop.r.latest_boarding < arrivalAt net cfg prev_act loc now m.stop
  · rw [if_pos c3] at h; exact absurd h (by simp)
  rw [if_neg c3] at h
  by_cases c4 : get_alight_deadline m.stop.r < arrivalAt net cfg prev_act loc now m.stop
  · rw [if_pos c4] at h; exact absurd h (by simp)
  rw [if_neg c4] at h
  by_cases c5 : ¬ reachOK net (arrivalAt net cfg prev_act loc now m.stop) m.stop.node
      (pre.reverse ++ rest2 ++ m.unlocks) = true
  · rw [if_pos c5] at h; exact absurd h (by simp)
  rw [if_neg c5] at h
  rcases hrec : rec m.stop.node (if m.stop.is_pickup then cap - 1 else cap + 1)
      (pre.reverse ++ rest2 ++ m.unlocks) (arrivalAt net cfg prev_act loc now m.stop) bt
      (actOf m.stop) with ⟨tt, ts⟩
  rw [hrec] at h
  replace h : (if tt = -1 then (none : Option (Int × List NodeStop))
      else if bt = -1 ∨ tt < bt then some (tt, ts ++ [m.stop]) else none) = some (t2, tl2) := h
  by_cases c6 : tt = -1
  · rw [if_pos c6] at h; exact absurd h (by simp)
  rw [if_neg c6] at h
  by_cases c7 : bt = -1 ∨ tt < bt
  · rw [if_pos c7] at h
    have hinj : tt = t2 ∧ ts ++ [m.stop] = tl2 := by
      constructor <;> [exact congrArg Prod.fst (Option.some.inj h);
        exact congrArg Prod.snd (Option.some.inj h)]
    obtain ⟨rfl, rfl⟩ := hinj
    have hs := Hrec m.stop.node (if m.stop.is_pickup then cap - 1 else cap + 1)
      (pre.reverse ++ rest2 ++ m.unlocks) (arrivalAt net cfg prev_act loc now m.stop) bt
      (actOf m.stop)
    rw [hrec] at hs
    cases hs with
    | inl hs =>
      exfalso
      have : tt = bt := congrArg Prod.fst hs
      rcases c7 with c7 | c7
      · exact c6 (this.trans c7)
      · omega
    | inr hs =>
      obtain ⟨σ', hex, hts⟩ := hs
      refine ⟨m.stop :: σ', ?_, ?_, c7⟩
      · refine ExecOk.step loc cap now prev_act pre rest2 m σ' tt ?_ ?_ ?_ ?_
        · simp only [capAfter]; omega
        · intro hb
          by_contra hlt
          exact c3 ⟨hb, by omega⟩
        · rw [get_alight_deadline] at c4
          omega
        · refine (hex.perm _ ?_)
          refine List.Perm.append_right m.unlocks ?_
          exact List.Perm.append_right rest2 (List.reverse_perm pre)
      · rw [List.reverse_cons, show ts = σ'.reverse from hts]
  · rw [if_neg c7] at h; exact absurd h (by simp)

lemma searchLoop_sound {net cfg loc cap now rec prev_act}
    (Hrec : ∀ loc' cap' avail' now' bt' act',
      SoundTo net cfg loc' cap' now' act' avail' bt' (rec loc' cap' avail' now' bt' act'))
    (bt0 : Int) :
    ∀ rest pre bt btail previous,
      SoundTo net cfg loc cap now prev_act (pre ++ rest) bt0 (bt, btail) →
      SoundTo net cfg loc cap now prev_act (pre ++ rest) bt0
        (searchLoop net cfg loc cap now rec prev_act pre rest bt btail previous) := by
  intro rest
  induction rest with
  | nil => intro pre bt btail previous hst; rw [searchLoop]; exact hst
  | cons m rest2 ih =>
    intro pre bt btail previous hst
    rw [searchLoop]
    have hperm : ((m :: pre) ++ rest2).Perm (pre ++ m :: rest2) := by
      simpa using List.perm_middle.symm
    by_cases hskip : skipDup previous m = true
    · rw [if_pos hskip]
      have h1 := ih (m :: pre) bt btail previous (SoundTo.perm_avail hperm.symm hst)
      exact SoundTo.perm_avail hperm h1
    · rw [if_neg hskip]
      rcases hsc : stepCand net cfg loc cap now rec prev_act pre rest2 m bt with _ | ⟨t2, tl2⟩
      · have := ih (m :: pre) bt btail (some m.stop) (SoundTo.perm_avail hperm.symm hst)
        exact SoundTo.perm_avail hperm this
      · obtain ⟨σ, hex, htl, _⟩ := stepCand_sound Hrec hsc
        have hst2 : SoundTo net cfg loc cap now prev_act ((m :: pre) ++ rest2) bt0 (t2, tl2) :=
          Or.inr ⟨σ, hex.perm _ hperm.symm, htl⟩
        have := ih (m :: pre) t2 tl2 (some m.stop) hst2
        exact SoundTo.perm_avail hperm this

lemma recursive_search_sound (net : Network) (cfg : Config) :
    ∀ (fuel : Nat) (loc cap : Int) (avail : List MetaNS) (now bt : Int) (act : Action),
      SoundTo net cfg loc cap now act avail bt
        (recursive_search net cfg fuel loc cap avail now bt act) := by
  intro fuel
  induction fuel with
  | zero => intro loc cap avail now bt act; rw [recursive_search]; exact Or.inl rfl
  | succ fuel ih =>
    intro loc cap avail now bt act
    rw [recursive_search]
    rcases hs : sortMeta avail with _ | ⟨m, ms⟩
    · have : avail = [] := by
        have := sortMeta_perm avail
        rw [hs] at this
        exact (List.perm_nil.mp this.symm)
      subst this
      exact Or.inr ⟨[], ExecOk.done loc cap now act, rfl⟩
    · have hsp : ((m :: ms) : List MetaNS).Perm avail := hs ▸ sortMeta_perm avail
      have h0 : SoundTo net cfg loc cap now act ([] ++ (m :: ms)) bt (bt, []) := Or.inl rfl
      have := searchLoop_sound ih bt (m :: ms) [] bt [] none h0
      exact SoundTo.perm_avail (by simpa using hsp) this
/-! ## Nonnegative-time facts and claim C10 -/

/-- Nonnegative travel times and dwell times (both the network dwell
constants and the global dwell knobs the search reads). -/
def NetNonneg (net : Network) (cfg : Config) : Prop :=
  (∀ a b, 0 ≤ net.tm a b) ∧ 0 ≤ net.dwell_pickup ∧ 0 ≤ net.dwell_alight ∧
    0 ≤ cfg.DWELL_PICKUP ∧ 0 ≤ cfg.DWELL_ALIGHT

lemma get_time_nonneg {net cfg} (H : NetNonneg net cfg) (a b : Int) :
    0 ≤ net.get_time a b := by
  rw [Network.get_time]
  obtain ⟨h1, h2, h3, _, _⟩ := H
  by_cases e1 : a = -10
  · rw [if_pos e1]; exact h2
  rw [if_neg e1]
  by_cases e2 : a = -20
  · rw [if_pos e2]; exact h3
  rw [if_neg e2]; exact h1 a b

lemma dwellVal_nonneg {net cfg} (H : NetNonneg net cfg) (act : Action) (loc : Int)
    (s : NodeStop) : 0 ≤ dwellVal cfg act loc s := by
  obtain ⟨_, _, _, h4, h5⟩ := H
  rw [dwellVal]
  by_cases e1 : act = .dropoff ∧ (s.is_pickup = true ∨ loc ≠ s.node)
  · rw [if_pos e1]; exact h5
  rw [if_neg e1]
  by_cases e2 : act = .pickup ∧ (s.is_pickup = false ∨ loc ≠ s.node)
  · rw [if_pos e2]; exact h4
  rw [if_neg e2]

lemma arrival_ge_now {net cfg} (H : NetNonneg net cfg) (act : Action) (loc now : Int)
    (s : NodeStop) : now ≤ arrivalAt net cfg act loc now s := by
  rw [arrivalAt]
  have h1 := get_time_nonneg H loc s.node
  have h2 := dwellVal_nonneg H act loc s
  by_cases e : s.is_pickup = true ∧ now + net.get_time loc s.node + dwellVal cfg act loc s <
      s.r.entry_time
  · rw [if_pos e]; omega
  · rw [if_neg e]; omega

lemma exec_ge_now {net cfg loc cap now act F σ T} (H : NetNonneg net cfg)
    (h : ExecOk net cfg loc cap now act F σ T) : now ≤ T := by
  induction h with
  | done _ _ _ _ => omega
  | step loc cap now act pre post m σ T _ _ _ _ ih =>
    have := arrival_ge_now H act loc now m.stop
    omega

/-- Claim C10: the untimed feasibility search signals infeasibility
exactly by the pair `(-1, [])`: for every trigger, `travel` returns
either cost `-1` with an empty order, or a nonnegative cost; the
`CTSP_VTT` adjustment in `format_path` fires only on nonnegative raw
costs, so the `-1` sentinel always survives for callers testing
`path_cost < 0`. -/
theorem travel_infeasible_sentinel (net : Network) (cfg : Config) (veh : Vehicle)
    (requests : List Request) (current_time : Int) (trigger : String) (c : Int)
    (order : List NodeStop)
    (Hn : NetNonneg net cfg) (ht : 0 ≤ current_time) (ho : 0 ≤ veh.offset)
    (h : travel cfg veh requests net current_time trigger = some (c, order)) :
    (c = -1 ∧ order = []) ∨ 0 ≤ c := by
  have searchCase : ∀ fuel loc cap avail bt res,
      recursive_search net cfg fuel loc cap avail (current_time + veh.offset) bt Action.no_action
        = res → bt = -1 →
      (format_path cfg res current_time = (c, order)) → (c = -1 ∧ order = []) ∨ 0 ≤ c := by
    intro fuel loc cap avail bt res hres hbt hfmt
    have hs := recursive_search_sound net cfg fuel loc cap avail (current_time + veh.offset) bt
      Action.no_action
    rw [hres] at hs
    rw [format_path] at hfmt
    cases hs with
    | inl hs =>
      subst hs
      left
      constructor
      · have : ¬ (cfg.CTSP_OBJECTIVE = "CTSP_VTT" ∧ 0 ≤ (bt, ([] : List NodeStop)).1) := by
          intro hcon
          omega
        rw [if_neg this] at hfmt
        have := congrArg Prod.fst hfmt
        simp at this
        omega
      · have := congrArg Prod.snd hfmt
        simp at this
        exact this
    | inr hs =>
      obtain ⟨σ, hex, _⟩ := hs
      have hge : current_time + veh.offset ≤ res.1 := exec_ge_now Hn hex
      right
      by_cases e : cfg.CTSP_OBJECTIVE = "CTSP_VTT" ∧ 0 ≤ res.1
      · rw [if_pos e] at hfmt
        have := congrArg Prod.fst hfmt
        simp at this
        omega
      · rw [if_neg e] at hfmt
        have := congrArg Prod.fst hfmt
        simp at this
        omega
  rw [travel] at h
  by_cases e1 : trigger = "MEMORY"
  · rw [if_pos e1] at h
    have h2 : memory cfg veh net current_time = (c, order) := Option.some.inj h
    rw [memory] at h2
    exact searchCase _ _ _ _ _ _ rfl rfl h2
  rw [if_neg e1] at h
  by_cases e2 : trigger = "REBALANCING"
  · rw [if_pos e2] at h; exact absurd h (by simp)
  rw [if_neg e2] at h
  rw [new_travel] at h
  by_cases e3 : cfg.CTSP = "FIX_PREFIX" ∧ (metaCount veh requests : Int) > cfg.LP_LIMITVALUE
  · rw [if_pos e3] at h
    by_cases e4 : 2 * ((((requests.filter fun r =>
        ¬ veh.pending_requests.any fun p => p.id = r.id).map fun r => r.id).dedup.length : Int))
        > cfg.LP_LIMITVALUE
    · rw [if_pos e4] at h
      have h2 := Option.some.inj h
      left
      exact ⟨(congrArg Prod.fst h2).symm, (congrArg Prod.snd h2).symm⟩
    · rw [if_neg e4] at h; exact absurd h (by simp)
  rw [if_neg e3] at h
  by_cases e5 : cfg.CTSP_OBJECTIVE = "CTSP_VTT" ∨ cfg.CTSP_OBJECTIVE = "CTSP_DELAY"
  · rw [if_pos e5] at h
    exact searchCase _ _ _ _ _ _ rfl rfl (Option.some.inj h)
  · rw [if_neg e5] at h; exact absurd h (by simp)

/-- Witness for `travel_infeasible_sentinel`: a concrete line network,
one request, an empty vehicle. -/
def netW : Network :=
  { tm := fun a b => if a = b then 0 else 60, dwell_pickup := 0, dwell_alight := 0 }

def cfgW : Config :=
  { CTSP := "FULL", CTSP_OBJECTIVE := "CTSP_VTT", DWELL_ALIGHT := 0, DWELL_PICKUP := 0,
    CARSIZE := 4, LP_LIMITVALUE := 8, MAX_NEW := 8, RTV_TIMELIMIT := 0, ALGORITHM := "ILP_FULL" }

def reqW : Request :=
  { id := 1, origin := 0, destination := 2, entry_time := 0, ideal_traveltime := 60,
    latest_boarding := 300, latest_alighting := 660, assigned := false }

def vehW : Vehicle :=
  { id := 0, node := 0, offset := 0, capacity := 4, passengers := [], pending_requests := [],
    order_record := [] }

theorem travel_infeasible_sentinel_witness :
    (NetNonneg netW cfgW ∧ (0 : Int) ≤ 0 ∧ (0 : Int) ≤ vehW.offset) ∧
      ((60 = -1 ∧ ([⟨reqW, true, 0⟩, ⟨reqW, false, 2⟩] : List NodeStop) = []) ∨ (0 : Int) ≤ 60) :=
  ⟨⟨⟨fun a b => by dsimp [netW]; split <;> omega, by norm_num [netW], by norm_num [netW],
      by norm_num [cfgW], by norm_num [cfgW]⟩, le_refl 0, by norm_num [vehW]⟩,
    travel_infeasible_sentinel netW cfgW vehW [reqW] 0 trigSTANDARD 60
      [⟨reqW, true, 0⟩, ⟨reqW, false, 2⟩]
      ⟨fun a b => by dsimp [netW]; split <;> omega, by norm_num [netW], by norm_num [netW],
        by norm_num [cfgW], by norm_num [cfgW]⟩ (le_refl 0) (by norm_num [vehW]) (by decide)⟩
/-! ## Precedence via guardedness in the unlock forest -/

/-- Stops of a forest reachable without first consuming `x`: every
root stop, descending through unlock subtrees except below `x`. -/
def notBehindL (x : NodeStop) : List MetaNS → List NodeStop
  | [] => []
  | .mk s us :: ms => (if s = x then [s] else s :: notBehindL x us) ++ notBehindL x ms

lemma notBehindL_nil (x : NodeStop) : notBehindL x [] = [] := by rw [notBehindL]

lemma notBehindL_cons (x : NodeStop) (s : NodeStop) (us ms : List MetaNS) :
    notBehindL x (.mk s us :: ms) =
      (if s = x then [s] else s :: notBehindL x us) ++ notBehindL x ms := by
  rw [notBehindL]

lemma notBehindL_cons' (x : NodeStop) (m : MetaNS) (ms : List MetaNS) :
    notBehindL x (m :: ms) =
      (if m.stop = x then [m.stop] else m.stop :: notBehindL x m.unlocks) ++ notBehindL x ms := by
  cases m with
  | mk s us => rw [notBehindL_cons, MetaNS.stop, MetaNS.unlocks]

lemma notBehindL_append (x : NodeStop) (a b : List MetaNS) :
    notBehindL x (a ++ b) = notBehindL x a ++ notBehindL x b := by
  induction a with
  | nil => rw [notBehindL_nil]; rfl
  | cons m ms ih =>
    rw [List.cons_append, notBehindL_cons', notBehindL_cons', ih, List.append_assoc]

lemma root_mem_notBehindL (x : NodeStop) {m : MetaNS} {F : List MetaNS} (h : m ∈ F) :
    m.stop ∈ notBehindL x F := by
  induction F with
  | nil => cases h
  | cons m0 ms ih =>
    rw [notBehindL_cons']
    rcases List.mem_cons.mp h with rfl | h
    · by_cases e : m.stop = x
      · rw [if_pos e]; simp
      · rw [if_neg e]; simp
    · simp only [List.mem_append]
      exact Or.inr (ih h)

/-- In any complete execution, a stop `y` that is only reachable
behind `x` is served strictly after `x`. -/
lemma exec_precedes {net cfg} {x y : NodeStop} :
    ∀ {loc cap now act F σ T}, ExecOk net cfg loc cap now act F σ T →
      x ∈ flatL F → y ∈ flatL F → y ∉ notBehindL x F → y ≠ x →
      ∃ σa σb, σ = σa ++ x :: σb ∧ y ∈ σb := by
  intro loc cap now act F σ T h
  induction h with
  | done _ _ _ _ => intro hx _ _ _; rw [flatL_nil] at hx; cases hx
  | step loc cap now act pre post m σ T _ _ _ hrec ih =>
    intro hx hy hnb hyx
    have hflat : flatL (pre ++ m :: post) =
        flatL pre ++ (m.stop :: (flatL m.unlocks ++ flatL post)) := by
      rw [flatL_append, flatL_cons']
    have hflat' : flatL (pre ++ post ++ m.unlocks) =
        flatL pre ++ flatL post ++ flatL m.unlocks := by
      rw [flatL_append, flatL_append]
    have hnbfull : notBehindL x (pre ++ m :: post) = notBehindL x pre ++
        ((if m.stop = x then [m.stop] else m.stop :: notBehindL x m.unlocks) ++
          notBehindL x post) := by
      rw [notBehindL_append, notBehindL_cons']
    by_cases hmx : m.stop = x
    · refine ⟨[], σ, by rw [hmx]; rfl, ?_⟩
      have hperm := exec_stops hrec
      have hy' : y ∈ flatL pre ++ flatL post ++ flatL m.unlocks := by
        rw [hflat] at hy
        simp only [List.mem_append, List.mem_cons] at hy ⊢
        rcases hy with h1 | h2 | h3
        · exact Or.inl (Or.inl h1)
        · exact absurd (h2.trans hmx) hyx
        · rcases h3 with h3 | h3
          · exact Or.inr h3
          · exact Or.inl (Or.inr h3)
      rw [← hflat'] at hy'
      exact (hperm.mem_iff).mpr hy'
    · have hym : y ≠ m.stop := by
        intro he
        refine hnb ?_
        rw [hnbfull, if_neg hmx]
        simp [he]
      have hx' : x ∈ flatL (pre ++ post ++ m.unlocks) := by
        rw [hflat']
        rw [hflat] at hx
        simp only [List.mem_append, List.mem_cons] at hx ⊢
        rcases hx with h1 | h2 | h3
        · exact Or.inl (Or.inl h1)
        · exact absurd h2.symm hmx
        · rcases h3 with h3 | h3
          · exact Or.inr h3
          · exact Or.inl (Or.inr h3)
      have hy' : y ∈ flatL (pre ++ post ++ m.unlocks) := by
        rw [hflat']
        rw [hflat] at hy
        simp only [List.mem_append, List.mem_cons] at hy ⊢
        rcases hy with h1 | h2 | h3
        · exact Or.inl (Or.inl h1)
        · exact absurd h2 hym
        · rcases h3 with h3 | h3
          · exact Or.inr h3
          · exact Or.inl (Or.inr h3)
      have hnb' : y ∉ notBehindL x (pre ++ post ++ m.unlocks) := by
        intro hin
        refine hnb ?_
        rw [notBehindL_append, notBehindL_append] at hin
        rw [hnbfull, if_neg hmx]
        simp only [List.mem_append, List.mem_cons] at hin ⊢
        rcases hin with (h1 | h2) | h3
        · exact Or.inl h1
        · exact Or.inr (Or.inr h2)
        · exact Or.inr (Or.inl (Or.inr h3))
      obtain ⟨σa, σb, he, hyb⟩ := ih hx' hy' hnb' hyx
      exact ⟨m.stop :: σa, σb, by rw [he]; rfl, hyb⟩
/-! ## The stop content of the forests built by `new_travel`, and claim C1 -/

def puStop (r : Request) : NodeStop := ⟨r, true, r.origin⟩

def doStop (r : Request) : NodeStop := ⟨r, false, r.destination⟩

def pIds (l : List Request) : List Nat := l.map fun r => r.id

lemma flatL_pickupTrees (R : List Request) :
    flatL (R.map pickupTree) = R.flatMap fun r => [puStop r, doStop r] := by
  induction R with
  | nil => simp [flatL_nil]
  | cons r R ih =>
    simp only [List.map_cons, pickupTree, flatL_cons, flatL_nil, List.flatMap_cons, ih]
    simp [puStop, doStop]

lemma flatL_chainMeta (l : List NodeStop) : flatL (chainMeta l) = l := by
  induction l with
  | nil => rw [chainMeta, flatL_nil]
  | cons s rest ih => rw [chainMeta, flatL_cons, flatL_nil, ih, List.append_nil]

lemma flatL_leaves (l : List NodeStop) : flatL (l.map fun s => MetaNS.mk s []) = l := by
  induction l with
  | nil => simp [flatL_nil]
  | cons s rest ih => rw [List.map_cons, flatL_cons, flatL_nil, ih]; rfl

lemma flatL_buildAvail (cfg : Config) (veh : Vehicle) (R : List Request) :
    flatL (buildAvail cfg veh R) =
      (R.flatMap fun r => [puStop r, doStop r]) ++
        onboardStops veh.passengers veh.order_record := by
  rw [buildAvail]
  by_cases e : fixOnboardLock cfg veh R = true
  · rw [if_pos e, flatL_append, flatL_pickupTrees, flatL_chainMeta]
  · rw [if_neg e, flatL_append, flatL_pickupTrees, flatL_leaves]

lemma notBehindL_chain_sub (x : NodeStop) : ∀ (l : List NodeStop) {s},
    s ∈ notBehindL x (chainMeta l) → s ∈ l := by
  intro l
  induction l with
  | nil => intro s h; rw [chainMeta, notBehindL_nil] at h; cases h
  | cons a rest ih =>
    intro s h
    rw [chainMeta, notBehindL_cons, notBehindL_nil, List.append_nil] at h
    by_cases e : a = x
    · rw [if_pos e] at h
      simp only [List.mem_singleton] at h
      simp [h]
    · rw [if_neg e] at h
      rcases List.mem_cons.mp h with h | h
      · simp [h]
      · exact List.mem_cons.mpr (Or.inr (ih h))

lemma notBehindL_leaves_sub (x : NodeStop) : ∀ (l : List NodeStop) {s},
    s ∈ notBehindL x (l.map fun s0 => MetaNS.mk s0 []) → s ∈ l := by
  intro l
  induction l with
  | nil => intro s h; rw [List.map_nil, notBehindL_nil] at h; cases h
  | cons a rest ih =>
    intro s h
    simp only [List.map_cons, notBehindL_cons, notBehindL_nil, List.append_nil] at h
    rcases List.mem_append.mp h with h | h
    · have hs : s = a := by
        split_ifs at h <;> simpa using h
      simp [hs]
    · exact List.mem_cons.mpr (Or.inr (ih h))

lemma notBehindL_pickupTrees_mem (x : NodeStop) : ∀ (R : List Request) {s},
    s ∈ notBehindL x (R.map pickupTree) →
    ∃ r ∈ R, s = puStop r ∨ (puStop r ≠ x ∧ s = doStop r) := by
  intro R
  induction R with
  | nil => intro s h; rw [List.map_nil, notBehindL_nil] at h; cases h
  | cons a rest ih =>
    intro s h
    simp only [List.map_cons, pickupTree, notBehindL_cons, notBehindL_nil,
      List.append_nil] at h
    rcases List.mem_append.mp h with h | h
    · have hs : s = puStop a ∨ (puStop a ≠ x ∧ s = doStop a) := by
        rw [puStop, doStop]
        split_ifs at h with e1 e2
        · simp only [List.mem_singleton] at h
          exact Or.inl h
        · simp only [List.mem_cons, List.mem_singleton, List.not_mem_nil, or_false] at h
          rcases h with h | h
          · exact Or.inl h
          · exact Or.inr ⟨e1, h⟩
        · simp only [List.mem_cons, List.mem_singleton, List.not_mem_nil, or_false] at h
          rcases h with h | h
          · exact Or.inl h
          · exact Or.inr ⟨e1, h⟩
      exact ⟨a, by simp, hs⟩
    · obtain ⟨r, hr, hor⟩ := ih h
      exact ⟨r, by simp [hr], hor⟩

/-- In the forests built by `new_travel`, a new request's dropoff is
reachable only behind its pickup (the onboard stops carry passenger
ids, disjoint from the new-request ids). -/
lemma guard_doStop (cfg : Config) (veh : Vehicle) {R : List Request} {r : Request}
    (hr : r ∈ R)
    (htail : ∀ s ∈ onboardStops veh.passengers veh.order_record, s.r.id ∉ pIds R) :
    doStop r ∉ notBehindL (puStop r) (buildAvail cfg veh R) := by
  intro h
  have hrid : (doStop r).r.id ∈ pIds R := List.mem_map.mpr ⟨r, hr, rfl⟩
  have main : ∀ tail : List MetaNS,
      (∀ {s}, s ∈ notBehindL (puStop r) tail →
        s ∈ onboardStops veh.passengers veh.order_record) →
      doStop r ∈ notBehindL (puStop r) (R.map pickupTree ++ tail) → False := by
    intro tail htl hmem
    rw [notBehindL_append] at hmem
    rcases List.mem_append.mp hmem with hmem | hmem
    · obtain ⟨r', _, hor⟩ := notBehindL_pickupTrees_mem (puStop r) R hmem
      rcases hor with hor | ⟨hne, hor⟩
      · rw [puStop, doStop] at hor
        exact absurd (congrArg NodeStop.is_pickup hor) (by simp)
      · rw [doStop, doStop] at hor
        have : r' = r := (congrArg NodeStop.r hor).symm
        exact hne (by rw [this])
    · exact htail _ (htl hmem) hrid
  rw [buildAvail] at h
  by_cases e : fixOnboardLock cfg veh R = true
  · rw [if_pos e] at h
    exact main _ (fun hs => notBehindL_chain_sub _ _ hs) h
  · rw [if_neg e] at h
    exact main _ (fun hs => notBehindL_leaves_sub _ _ hs) h
lemma onboardScan_mem : ∀ (ob : List Nat) (rec : List NodeStop) {ns},
    ns ∈ onboardScan ob rec → ns ∈ rec ∧ ns.r.id ∈ ob := by
  intro ob rec
  induction rec generalizing ob with
  | nil => intro ns h; rw [onboardScan] at h; cases h
  | cons a rest ih =>
    intro ns h
    rw [onboardScan] at h
    by_cases e : ob.contains a.r.id = true
    · rw [if_pos e] at h
      rcases List.mem_cons.mp h with h | h
      · subst h
        exact ⟨by simp, by simpa using e⟩
      · obtain ⟨h1, h2⟩ := ih _ h
        exact ⟨by simp [h1], (List.mem_filter.mp h2).1⟩
    · rw [if_neg e] at h
      obtain ⟨h1, h2⟩ := ih _ h
      exact ⟨by simp [h1], h2⟩

lemma onboardScan_covers : ∀ (ob : List Nat) (rec : List NodeStop) {i},
    i ∈ ob → i ∈ rec.map (fun ns => ns.r.id) → ∃ ns ∈ onboardScan ob rec, ns.r.id = i := by
  intro ob rec
  induction rec generalizing ob with
  | nil => intro i _ h2; cases h2
  | cons a rest ih =>
    intro i h1 h2
    rw [onboardScan]
    by_cases e : ob.contains a.r.id = true
    · rw [if_pos e]
      by_cases ei : a.r.id = i
      · exact ⟨a, by simp, ei⟩
      · have h2' : i ∈ rest.map fun ns => ns.r.id := by
          rcases List.mem_map.mp h2 with ⟨ns, hns, hid⟩
          rcases List.mem_cons.mp hns with rfl | hns
          · exact absurd hid ei
          · exact List.mem_map.mpr ⟨ns, hns, hid⟩
        have h1' : i ∈ ob.filter fun i => i ≠ a.r.id := by
          refine List.mem_filter.mpr ⟨h1, ?_⟩
          simp only [ne_eq, decide_not, Bool.not_eq_eq_eq_not, Bool.not_true,
            decide_eq_false_iff_not]
          intro hc
          exact ei hc.symm
        obtain ⟨ns, hns, hid⟩ := ih (ob.filter fun i => i ≠ a.r.id) h1' h2'
        exact ⟨ns, List.mem_cons.mpr (Or.inr hns), hid⟩
    · rw [if_neg e]
      have hne : a.r.id ≠ i := by
        intro hc
        refine e ?_
        have : a.r.id ∈ ob := hc ▸ h1
        simpa using this
      have h2' : i ∈ rest.map fun ns => ns.r.id := by
        rcases List.mem_map.mp h2 with ⟨ns, hns, hid⟩
        rcases List.mem_cons.mp hns with rfl | hns
        · exact absurd hid hne
        · exact List.mem_map.mpr ⟨ns, hns, hid⟩
      exact ih _ h1 h2'

/-- The change in onboard count over a stop sequence. -/
def pdelta (l : List NodeStop) : Int :=
  ((l.filter fun s => s.is_pickup).length : Int) -
    ((l.filter fun s => !s.is_pickup).length : Int)

lemma pdelta_nil : pdelta [] = 0 := by rw [pdelta]; rfl

lemma pdelta_cons (s : NodeStop) (l : List NodeStop) :
    pdelta (s :: l) = (if s.is_pickup then 1 else -1) + pdelta l := by
  rw [pdelta, pdelta]
  by_cases e : s.is_pickup = true
  · simp [List.filter_cons, e]; omega
  · simp only [Bool.not_eq_true] at e
    simp [List.filter_cons, e]
    omega

lemma checkSeq_cap_prefix {net cfg} : ∀ (σ : List NodeStop) (loc cap now : Int) (act : Action),
    checkSeq net cfg loc cap now act σ = true → 0 ≤ cap →
    ∀ l1 l2, σ = l1 ++ l2 → 0 ≤ cap - pdelta l1 := by
  intro σ
  induction σ with
  | nil =>
    intro loc cap now act _ hc l1 l2 he
    have : l1 = [] := by
      cases l1 with
      | nil => rfl
      | cons a l => exact absurd he.symm (by simp)
    rw [this, pdelta_nil]
    omega
  | cons s rest ih =>
    intro loc cap now act hch hc l1 l2 he
    rw [checkSeq] at hch
    simp only [Bool.and_eq_true, decide_eq_true_eq] at hch
    obtain ⟨⟨⟨hcap, _⟩, _⟩, hrest⟩ := hch
    cases l1 with
    | nil => rw [pdelta_nil]; omega
    | cons a l1' =>
      rw [List.cons_append] at he
      injection he with hh ht
      subst hh
      rw [pdelta_cons]
      have h2 := ih s.node (capAfter s cap) (arrivalAt net cfg act loc now s) (actOf s)
        hrest hcap l1' l2 ht
      rw [capAfter] at h2 hcap
      by_cases e : s.is_pickup = true
      · rw [if_pos e] at h2 hcap ⊢; omega
      · rw [if_neg e] at h2 hcap ⊢; omega

/-- Well-formedness of a `travel` query, as the data model guarantees:
distinct request ids, new requests disjoint from onboard passengers,
onboard passengers' recorded stops are dropoffs, every onboard
passenger still has a stop in the stored order, and no more
passengers than seats. -/
def TravelWF (veh : Vehicle) (requests : List Request) : Prop :=
  (pIds requests).Nodup ∧
  (∀ i ∈ pIds requests, i ∉ pIds veh.passengers) ∧
  (∀ ns ∈ veh.order_record, ns.r.id ∈ pIds veh.passengers → ns.is_pickup = false) ∧
  (∀ p ∈ veh.passengers, p.id ∈ veh.order_record.map fun ns => ns.r.id) ∧
  (veh.passengers.length : Int) ≤ veh.capacity

instance (veh : Vehicle) (requests : List Request) : Decidable (TravelWF veh requests) := by
  rw [TravelWF]
  infer_instance
lemma travel_standard_exec {cfg : Config} {veh : Vehicle} {R : List Request} {net : Network}
    {t c : Int} {order : List NodeStop}
    (h : travel cfg veh R net t trigSTANDARD = some (c, order)) (hc : 0 ≤ c) :
    ∃ T σ, ExecOk net cfg veh.node ((veh.capacity : Int) - (veh.passengers.length : Int))
      (t + veh.offset) Action.no_action (buildAvail cfg veh R) σ T ∧ order = σ := by
  rw [travel, trigSTANDARD] at h
  rw [if_neg (by decide : ¬ ("STANDARD" : String) = "MEMORY"),
    if_neg (by decide : ¬ ("STANDARD" : String) = "REBALANCING")] at h
  rw [new_travel] at h
  by_cases e1 : cfg.CTSP = "FIX_PREFIX" ∧ (metaCount veh R : Int) > cfg.LP_LIMITVALUE
  · rw [if_pos e1] at h
    by_cases e2 : 2 * ((((R.filter fun r =>
        ¬ veh.pending_requests.any fun p => p.id = r.id).map fun r => r.id).dedup.length : Int))
        > cfg.LP_LIMITVALUE
    · rw [if_pos e2] at h
      have := congrArg Prod.fst (Option.some.inj h)
      simp at this
      omega
    · rw [if_neg e2] at h
      exact absurd h (by simp)
  rw [if_neg e1] at h
  by_cases e3 : cfg.CTSP_OBJECTIVE = "CTSP_VTT" ∨ cfg.CTSP_OBJECTIVE = "CTSP_DELAY"
  swap
  · rw [if_neg e3] at h; exact absurd h (by simp)
  rw [if_pos e3] at h
  have hfmt := Option.some.inj h
  rw [format_path] at hfmt
  have hs := recursive_search_sound net cfg (metaCount veh R + 1) veh.node
    ((veh.capacity : Int) - (veh.passengers.length : Int)) (buildAvail cfg veh R)
    (t + veh.offset) (-1) Action.no_action
  rcases hs with hs | ⟨σ, hex, htl⟩
  · exfalso
    rw [hs] at hfmt
    have h1 := congrArg Prod.fst hfmt
    have : ¬ (cfg.CTSP_OBJECTIVE = "CTSP_VTT" ∧
        (0:Int) ≤ ((-1 : Int), ([] : List NodeStop)).1) := by
      intro hcon
      have := hcon.2
      norm_num at this
    rw [if_neg this] at h1
    simp at h1
    omega
  · refine ⟨_, σ, hex, ?_⟩
    have h2 := congrArg Prod.snd hfmt
    simp only at h2
    rw [htl] at h2
    rw [← h2, List.reverse_reverse]

/-- Claim C1: whenever the untimed standard feasibility search returns
a nonnegative cost, the returned stop order is valid: it is a
permutation of the pickup and dropoff of every new request plus the
recorded stops of the onboard passengers; each new request's pickup
strictly precedes its dropoff; each onboard passenger's dropoff
appears; the replay under the arrival-time model (travel plus dwell
times, pickups raised to the entry time) passes every capacity and
deadline gate; and the onboard count never exceeds the capacity. -/
theorem travel_route_validity (cfg : Config) (veh : Vehicle) (R : List Request)
    (net : Network) (t c : Int) (order : List NodeStop)
    (HWF : TravelWF veh R)
    (h : travel cfg veh R net t trigSTANDARD = some (c, order)) (hc : 0 ≤ c) :
    order.Perm ((R.flatMap fun r => [puStop r, doStop r]) ++
        onboardStops veh.passengers veh.order_record) ∧
    (∀ r ∈ R, ∃ σa σb, order = σa ++ puStop r :: σb ∧ doStop r ∈ σb) ∧
    (∀ p ∈ veh.passengers, ∃ ns ∈ order, ns.r.id = p.id ∧ ns.is_pickup = false) ∧
    checkSeq net cfg veh.node ((veh.capacity : Int) - (veh.passengers.length : Int))
      (t + veh.offset) Action.no_action order = true ∧
    (∀ l1 l2, order = l1 ++ l2 →
      (veh.passengers.length : Int) + pdelta l1 ≤ veh.capacity) := by
  obtain ⟨hnodup, hdisj, hrecdrop, hcover, hcap⟩ := HWF
  obtain ⟨T, σ, hex, rfl⟩ := travel_standard_exec h hc
  have hperm : order.Perm ((R.flatMap fun r => [puStop r, doStop r]) ++
      onboardStops veh.passengers veh.order_record) := by
    have := exec_stops hex
    rwa [flatL_buildAvail] at this
  have hobs_ids : ∀ s ∈ onboardStops veh.passengers veh.order_record, s.r.id ∉ pIds R := by
    intro s hs hmem
    obtain ⟨_, hid⟩ := onboardScan_mem _ _ hs
    exact hdisj s.r.id hmem hid
  refine ⟨hperm, ?_, ?_, exec_check hex, ?_⟩
  · intro r hr
    have hx : puStop r ∈ flatL (buildAvail cfg veh R) := by
      rw [flatL_buildAvail]
      exact List.mem_append.mpr (Or.inl (List.mem_flatMap.mpr ⟨r, hr, by simp⟩))
    have hy : doStop r ∈ flatL (buildAvail cfg veh R) := by
      rw [flatL_buildAvail]
      exact List.mem_append.mpr (Or.inl (List.mem_flatMap.mpr ⟨r, hr, by simp⟩))
    have hne : doStop r ≠ puStop r := by
      intro hcon
      exact absurd (congrArg NodeStop.is_pickup hcon) (by simp [puStop, doStop])
    exact exec_precedes hex hx hy (guard_doStop cfg veh hr hobs_ids) hne
  · intro p hp
    obtain ⟨ns, hns, hid⟩ := onboardScan_covers (veh.passengers.map fun q => q.id)
      veh.order_record (List.mem_map.mpr ⟨p, hp, rfl⟩) (hcover p hp)
    have hns' : ns ∈ onboardStops veh.passengers veh.order_record := hns
    refine ⟨ns, ?_, hid, ?_⟩
    · exact hperm.mem_iff.mpr (List.mem_append.mpr (Or.inr hns'))
    · obtain ⟨hrec, hpid⟩ := onboardScan_mem _ _ hns'
      exact hrecdrop ns hrec (by rw [pIds]; rw [hid]; exact List.mem_map.mpr ⟨p, hp, rfl⟩)
  · intro l1 l2 he
    have := checkSeq_cap_prefix order veh.node
      ((veh.capacity : Int) - (veh.passengers.length : Int)) (t + veh.offset)
      Action.no_action (exec_check hex) (by omega) l1 l2 he
    omega
theorem travel_route_validity_witness :
    TravelWF vehW [reqW] ∧
      (∀ r ∈ [reqW], ∃ σa σb,
        ([⟨reqW, true, 0⟩, ⟨reqW, false, 2⟩] : List NodeStop) = σa ++ puStop r :: σb ∧
          doStop r ∈ σb) :=
  ⟨by decide,
    (travel_route_validity cfgW vehW [reqW] netW 0 60
      [⟨reqW, true, 0⟩, ⟨reqW, false, 2⟩] (by decide) (by decide) (by norm_num)).2.1⟩

/-! ## Claim C8: the `FIX_ONBOARD` prefix lock -/

/-- Consuming a fully chained tree forces its stops to appear as a
subsequence, in chain order, of every complete execution, whatever
else the forest contains (as long as the rest does not mention the
chained stops). -/
lemma exec_chain_sublist {net cfg} : ∀ {loc cap now act F σ T},
    ExecOk net cfg loc cap now act F σ T →
    ∀ (G : List MetaNS) (l : List NodeStop), F.Perm (G ++ chainMeta l) →
    (∀ s ∈ flatL G, s ∉ l) → l.Sublist σ := by
  intro loc cap now act F σ T h
  induction h with
  | done _ _ _ _ =>
    intro G l hp _
    have hnil : G ++ chainMeta l = [] := List.perm_nil.mp hp.symm
    have hl : chainMeta l = [] := (List.append_eq_nil.mp hnil).2
    cases l with
    | nil => exact List.nil_sublist _
    | cons a rest => rw [chainMeta] at hl; cases hl
  | step loc cap now act pre post m σ T _ _ _ _ ih =>
    intro G l hp hdisj
    have hm : m ∈ G ++ chainMeta l := hp.mem_iff.mp (by simp)
    rcases List.mem_append.mp hm with hG | hC
    · obtain ⟨g1, g2, rfl⟩ := List.append_of_mem hG
      have k1 : (pre ++ post).Perm ((g1 ++ g2) ++ chainMeta l) := by
        have a1 : (pre ++ m :: post).Perm (m :: (pre ++ post)) := List.perm_middle
        have a2 : ((g1 ++ m :: g2) ++ chainMeta l).Perm (m :: ((g1 ++ g2) ++ chainMeta l)) := by
          have e1 : (g1 ++ m :: g2) ++ chainMeta l = g1 ++ m :: (g2 ++ chainMeta l) := by simp
          have e2 : (g1 ++ g2) ++ chainMeta l = g1 ++ (g2 ++ chainMeta l) := by simp
          rw [e1, e2]
          exact List.perm_middle
        exact (a1.symm.trans (hp.trans a2)).cons_inv
      have hnew : (pre ++ post ++ m.unlocks).Perm ((g1 ++ g2 ++ m.unlocks) ++ chainMeta l) := by
        refine (k1.append_right m.unlocks).trans ?_
        have e3 : ((g1 ++ g2) ++ chainMeta l) ++ m.unlocks =
            (g1 ++ g2) ++ (chainMeta l ++ m.unlocks) := by simp
        have e4 : (g1 ++ g2 ++ m.unlocks) ++ chainMeta l =
            (g1 ++ g2) ++ (m.unlocks ++ chainMeta l) := by simp
        rw [e3, e4]
        exact List.Perm.append_left _ List.perm_append_comm
      refine List.Sublist.cons m.stop (ih (g1 ++ g2 ++ m.unlocks) l hnew ?_)
      intro s hs hl2
      refine hdisj s ?_ hl2
      rw [flatL_append, flatL_append] at hs
      rw [flatL_append, flatL_cons']
      simp only [List.mem_append, List.mem_cons] at hs ⊢
      rcases hs with (h1 | h2) | h3
      · exact Or.inl h1
      · exact Or.inr (Or.inr (Or.inr h2))
      · exact Or.inr (Or.inr (Or.inl h3))
    · cases l with
      | nil => rw [chainMeta] at hC; cases hC
      | cons a l2 =>
        rw [chainMeta] at hC
        simp only [List.mem_singleton] at hC
        subst hC
        have k1 : (pre ++ post).Perm G := by
          have a1 : (pre ++ MetaNS.mk a (chainMeta l2) :: post).Perm
              (MetaNS.mk a (chainMeta l2) :: (pre ++ post)) := List.perm_middle
          have a2 : (G ++ [MetaNS.mk a (chainMeta l2)]).Perm
              (MetaNS.mk a (chainMeta l2) :: G) := List.perm_append_comm
          exact (a1.symm.trans (hp.trans a2)).cons_inv
        have hnew : (pre ++ post ++ (MetaNS.mk a (chainMeta l2)).unlocks).Perm
            (G ++ chainMeta l2) := by
          rw [MetaNS.unlocks]
          exact k1.append_right (chainMeta l2)
        have hdisj2 : ∀ s ∈ flatL G, s ∉ l2 := by
          intro s hs hl2
          exact hdisj s hs (List.mem_cons.mpr (Or.inr hl2))
        have := ih G l2 hnew hdisj2
        rw [MetaNS.stop]
        exact this.cons₂ a

/-- The `FIX_ONBOARD` counterexample configuration: a negative global
`CARSIZE`, so vehicle capacities come from the fleet file and differ
from it. -/
def cfgC8 : Config :=
  { CTSP := "FIX_ONBOARD", CTSP_OBJECTIVE := "CTSP_VTT", DWELL_ALIGHT := 0, DWELL_PICKUP := 0,
    CARSIZE := -1, LP_LIMITVALUE := 8, MAX_NEW := 8, RTV_TIMELIMIT := 0,
    ALGORITHM := "ILP_FULL" }

def pas1 : Request :=
  { id := 1, origin := 0, destination := 1, entry_time := 0, ideal_traveltime := 10,
    latest_boarding := 1000, latest_alighting := 50, assigned := true }

def pas2 : Request :=
  { id := 2, origin := 0, destination := 2, entry_time := 0, ideal_traveltime := 10,
    latest_boarding := 1000, latest_alighting := 1000, assigned := true }

def d1C8 : NodeStop := ⟨pas1, false, 1⟩

def d2C8 : NodeStop := ⟨pas2, false, 2⟩

def vehC8 : Vehicle :=
  { id := 0, node := 0, offset := 0, capacity := 4, passengers := [pas1, pas2],
    pending_requests := [], order_record := [d1C8, d2C8] }

def netC8 : Network :=
  { tm := fun a b => if a = b then 0 else if a = 2 ∧ b = 1 then 10 else
      if a = 0 ∧ b = 2 then 10 else 100,
    dwell_pickup := 0, dwell_alight := 0 }

/-- Counterexample to claim C8 as stated: with `CARSIZE = -1` (per-row
capacities) and two passengers in a capacity-4 vehicle with no new
requests, `|R| + |passengers| = 2` does not exceed the vehicle's
capacity, yet the onboard dropoffs are chained (only the first is an
available root) and the search returns infeasible even though serving
them in the reversed order satisfies every gate. -/
theorem fix_onboard_capacity_counterexample :
    buildAvail cfgC8 vehC8 [] = [MetaNS.mk d1C8 [MetaNS.mk d2C8 []]] ∧
    ¬ ((0 : Int) + (vehC8.passengers.length : Int) > vehC8.capacity) ∧
    travel cfgC8 vehC8 [] netC8 0 trigSTANDARD = some (-1, []) ∧
    checkSeq netC8 cfgC8 vehC8.node
      ((vehC8.capacity : Int) - (vehC8.passengers.length : Int)) 0 Action.no_action
      [d2C8, d1C8] = true ∧
    ([d2C8, d1C8] : List NodeStop).Perm
      (onboardStops vehC8.passengers vehC8.order_record) :=
  ⟨rfl, by decide, by decide, by decide, by decide⟩

/-- Claim C8 amended: the onboard dropoffs are locked into the
recorded chain exactly when `|R| + |v.passengers|` exceeds the global
`CARSIZE` knob (not the vehicle's own capacity — the two coincide only
when `CARSIZE ≥ 0`, in which case the loader overwrites every
vehicle's capacity with `CARSIZE`) and the vehicle has at least one
passenger; the lock makes every complete route serve the onboard
dropoffs as a subsequence in `order_record` order, and in every other
case every onboard dropoff is an initially available root. -/
theorem fix_onboard_lock_characterization (cfg : Config) (veh : Vehicle)
    (R : List Request) (net : Network)
    (hpol : cfg.CTSP = "FIX_ONBOARD")
    (hdisj : ∀ r ∈ R, ∀ s ∈ onboardStops veh.passengers veh.order_record, s.r ≠ r) :
    (fixOnboardLock cfg veh R = true ↔
      ((R.length : Int) + (veh.passengers.length : Int) > cfg.CARSIZE ∧
        veh.passengers.length ≠ 0)) ∧
    (fixOnboardLock cfg veh R = true →
      buildAvail cfg veh R =
        R.map pickupTree ++ chainMeta (onboardStops veh.passengers veh.order_record) ∧
      ∀ loc cap now act σ T, ExecOk net cfg loc cap now act (buildAvail cfg veh R) σ T →
        (onboardStops veh.passengers veh.order_record).Sublist σ) ∧
    (fixOnboardLock cfg veh R = false →
      ∀ s ∈ onboardStops veh.passengers veh.order_record,
        MetaNS.mk s [] ∈ buildAvail cfg veh R) := by
  refine ⟨?_, ?_, ?_⟩
  · rw [fixOnboardLock]
    constructor
    · intro h
      simp only [Bool.and_eq_true, beq_iff_eq, decide_eq_true_eq, bne_iff_ne, ne_eq] at h
      exact ⟨h.1.2, by simpa using h.2⟩
    · intro ⟨h1, h2⟩
      simp only [Bool.and_eq_true, beq_iff_eq, decide_eq_true_eq, bne_iff_ne, ne_eq]
      exact ⟨⟨hpol, h1⟩, by simpa using h2⟩
  · intro hlock
    constructor
    · rw [buildAvail, if_pos hlock]
    · intro loc cap now act σ T hex
      refine exec_chain_sublist hex (R.map pickupTree)
        (onboardStops veh.passengers veh.order_record) ?_ ?_
      · rw [buildAvail, if_pos hlock]
      · intro s hs hmem
        rw [flatL_pickupTrees] at hs
        obtain ⟨r, hr, hsr⟩ := List.mem_flatMap.mp hs
        simp only [List.mem_cons, List.mem_singleton, List.not_mem_nil, or_false] at hsr
        rcases hsr with rfl | rfl
        · exact hdisj r hr (puStop r) hmem rfl
        · exact hdisj r hr (doStop r) hmem rfl
  · intro hnolock s hs
    rw [buildAvail, hnolock]
    simp only [Bool.false_eq_true, if_false, List.mem_append]
    exact Or.inr (List.mem_map.mpr ⟨s, hs, rfl⟩)

theorem fix_onboard_lock_characterization_witness :
    (cfgC8.CTSP = "FIX_ONBOARD" ∧
      (∀ r ∈ ([] : List Request), ∀ s ∈ onboardStops vehC8.passengers vehC8.order_record,
        s.r ≠ r)) ∧
    (fixOnboardLock cfgC8 vehC8 [] = true ↔
      (((0 : Int) + (vehC8.passengers.length : Int) > cfgC8.CARSIZE ∧
        vehC8.passengers.length ≠ 0))) :=
  ⟨⟨rfl, by decide⟩, by
    have h := (fix_onboard_lock_characterization cfgC8 vehC8 [] netC8 rfl (by decide)).1
    simpa using h⟩
/-! ## The wall-clock-budget variants (insersion.py lines 314-517)

`time.time()` is modelled as an oracle stream `clk : Nat → Int`, one
value consumed per call; every function threads the number of calls
made so far. -/

def stepCandT (net : Network) (cfg : Config) (loc cap now : Int)
    (rec : Int → Int → List MetaNS → Int → Int → Action → Nat → (Int × List NodeStop) × Nat)
    (prev_act : Action) (pre rest2 : List MetaNS) (m : MetaNS) (bt : Int) (tick : Nat) :
    Option (Int × List NodeStop) × Nat :=
  let arrival := arrivalAt net cfg prev_act loc now m.stop
  if bt ≠ -1 ∧ bt ≤ arrival then (none, tick)
  else
    let cap2 := if m.stop.is_pickup then cap - 1 else cap + 1
    if cap2 < 0 then (none, tick)
    else if m.stop.is_pickup ∧ m.stop.r.latest_boarding < arrival then (none, tick)
    else if get_alight_deadline m.stop.r < arrival then (none, tick)
    else
      let remaining := pre.reverse ++ rest2 ++ m.unlocks
      if ¬ reachOK net arrival m.stop.node remaining then (none, tick)
      else
        match rec m.stop.node cap2 remaining arrival bt (actOf m.stop) tick with
        | ((tt, ts), tick2) =>
          if tt = -1 then (none, tick2)
          else if bt = -1 ∨ tt < bt then (some (tt, ts ++ [m.stop]), tick2)
          else (none, tick2)

/-- The candidate loop of `recursive_search_timed` (lines 343-412):
identical to the untimed loop except that, when the budget parameter
is truthy, every iteration reads the wall clock and breaks out of the
loop (returning the current best pair) once the elapsed time exceeds
the budget. -/
def searchLoopT (net : Network) (cfg : Config) (loc cap now : Int)
    (rec : Int → Int → List MetaNS → Int → Int → Action → Nat → (Int × List NodeStop) × Nat)
    (prev_act : Action) (start_time time_limit : Int) (clk : Nat → Int) :
    List MetaNS → List MetaNS → Int → List NodeStop → Option NodeStop → Nat →
      (Int × List NodeStop) × Nat
  | _, [], bt, btail, _, tick => ((bt, btail), tick)
  | pre, m :: rest2, bt, btail, previous, tick =>
    let continueWith : Nat → (Int × List NodeStop) × Nat := fun tick2 =>
      if skipDup previous m then
        searchLoopT net cfg loc cap now rec prev_act start_time time_limit clk
          (m :: pre) rest2 bt btail previous tick2
      else
        match stepCandT net cfg loc cap now rec prev_act pre rest2 m bt tick2 with
        | (some (t2, tl2), tick3) =>
          searchLoopT net cfg loc cap now rec prev_act start_time time_limit clk
            (m :: pre) rest2 t2 tl2 (some m.stop) tick3
        | (none, tick3) =>
          searchLoopT net cfg loc cap now rec prev_act start_time time_limit clk
            (m :: pre) rest2 bt btail (some m.stop) tick3
    if time_limit ≠ 0 then
      if clk tick - start_time > time_limit then ((bt, btail), tick + 1)
      else continueWith (tick + 1)
    else continueWith tick

/-- Embeds `recursive_search_timed` (insersion.py lines 314-414). -/
def recursive_search_timed (net : Network) (cfg : Config) (start_time time_limit : Int)
    (clk : Nat → Int) :
    Nat → Int → Int → List MetaNS → Int → Int → Action → Nat → (Int × List NodeStop) × Nat
  | 0, _, _, _, _, bt, _, tick => ((bt, []), tick)
  | fuel + 1, loc, cap, avail, now, bt, prev_act, tick =>
    match sortMeta avail with
    | [] => ((now, []), tick)
    | s => searchLoopT net cfg loc cap now
        (recursive_search_timed net cfg start_time time_limit clk fuel) prev_act
        start_time time_limit clk [] s bt [] none tick

/-- Embeds `new_travel_timed` (insersion.py lines 416-497).  The call
on line 492 passes `(call_time, start_time, time_limit, -1)` to a
signature expecting `(current_time, best_time, start_time,
time_limit)`: the initial best time receives the wall-clock origin,
the wall-clock origin receives the budget, and the budget receives
`-1`, exactly as in the source. -/
def new_travel_timed (cfg : Config) (veh : Vehicle) (requests : List Request) (net : Network)
    (current_time start_time time_limit : Int) (clk : Nat → Int) (tick : Nat) :
    Option ((Int × List NodeStop) × Nat) :=
  if cfg.CTSP = "FIX_PREFIX" ∧ (metaCount veh requests : Int) > cfg.LP_LIMITVALUE then
    let newIds :=
      ((requests.filter fun r => ¬ veh.pending_requests.any fun p => p.id = r.id).map
        fun r => r.id).dedup
    if 2 * (newIds.length : Int) > cfg.LP_LIMITVALUE then some ((-1, []), tick)
    else none
  else if cfg.CTSP_OBJECTIVE = "CTSP_VTT" ∨ cfg.CTSP_OBJECTIVE = "CTSP_DELAY" then
    match recursive_search_timed net cfg time_limit (-1) clk (metaCount veh requests + 1)
        veh.node ((veh.capacity : Int) - (veh.passengers.length : Int))
        (buildAvail cfg veh requests) (current_time + veh.offset) start_time
        Action.no_action tick with
    | (res, tick2) => some (format_path cfg res current_time, tick2)
  else none

/-- Embeds `travel_timed` (insersion.py lines 499-517): a zero budget
falls back to the untimed `travel` (consuming no clock readings). -/
def travel_timed (cfg : Config) (veh : Vehicle) (requests : List Request) (net : Network)
    (current_time start_time time_limit : Int) (trigger : String) (clk : Nat → Int)
    (tick : Nat) : Option ((Int × List NodeStop) × Nat) :=
  if time_limit = 0 then
    (travel cfg veh requests net current_time trigger).map fun p => (p, tick)
  else new_travel_timed cfg veh requests net current_time start_time time_limit clk tick

/-- Claim C3 exhibit: one second into a five-second budget (wall clock
1001, call origin 1000), the timed search returns cost `1000` with an
empty stop order for a request set whose stops the untimed search
happily serves — the transposed arguments of the line-492 call make
the budget `-1` and the origin `5`, so the very first loop iteration
"times out" and the returned best time is the wall-clock origin. -/
theorem travel_timed_budget_swap_bug :
    travel_timed cfgW vehW [reqW] netW 0 1000 5 trigSTANDARD (fun _ => 1001) 0 =
      some ((1000, []), 1) ∧
    travel cfgW vehW [reqW] netW 0 trigSTANDARD =
      some (60, [⟨reqW, true, 0⟩, ⟨reqW, false, 2⟩]) :=
  ⟨by decide, by decide⟩
/-! ## The RTV generator (src/algo/rtvgenerator.py) -/

/-- Embeds `Trip` (src/env/struct/Trip.py) as the RTV layer uses it. -/
structure Trip where
  cost : Int
  order_record : List NodeStop
  requests : List Request
  use_memory : Bool
deriving DecidableEq, Repr

/-- The `node_type` selector of `delay_all` (rtvgenerator.py lines
71-75 and 87-91): `-20` after a dropoff that closes its same-node
dropoff batch, `-10` after a pickup that closes its batch, else the
stop's own node. -/
def nextBreaksDrop : Option NodeStop → NodeStop → Bool
  | none, _ => true
  | some n, cur => n.is_pickup || n.node != cur.node

def nextBreaksPick : Option NodeStop → NodeStop → Bool
  | none, _ => true
  | some n, cur => !n.is_pickup || n.node != cur.node

def nodeTypeOf (cur : NodeStop) (next? : Option NodeStop) : Int :=
  if !cur.is_pickup && nextBreaksDrop next? cur then -20
  else if cur.is_pickup && nextBreaksPick next? cur then -10
  else cur.node

/-- The per-stop loop of `delay_all`: accumulate the positive lateness
of each dropoff, then add the sentinel-selected dwell
(`get_time(node_type, vehicle.node)`) before travelling on.  The
trailing dwell after the last stop is computed by the source but
cannot affect the returned delay, so it is dropped here. -/
def delayLoop (net : Network) (vnode : Int) : Int → Int → NodeStop → List NodeStop → Int
  | arrival, acc, cur, [] =>
    if cur.is_pickup then acc
    else acc + max 0 (arrival - (cur.r.entry_time + cur.r.ideal_traveltime))
  | arrival, acc, cur, nxt :: rest2 =>
    let acc2 := if cur.is_pickup then acc
      else acc + max 0 (arrival - (cur.r.entry_time + cur.r.ideal_traveltime))
    let a2 := arrival + net.get_time (nodeTypeOf cur (some nxt)) vnode
    delayLoop net vnode (a2 + net.get_time cur.node nxt.node) acc2 nxt rest2

/-- Embeds `delay_all` (rtvgenerator.py lines 46-97).  Values are
integral throughout, so the Python floats are embedded as `Int`. -/
def delay_all (veh : Vehicle) (node_list : List NodeStop) (net : Network)
    (current_time : Int) : Int :=
  match node_list with
  | [] => 0
  | n :: rest =>
    delayLoop net veh.node (current_time + net.get_vehicle_time veh n.node) 0 n rest

/-- Embeds `previoustrip` (rtvgenerator.py lines 16-44): replay the
stored order through `travel_timed(..., trigger='MEMORY')` (no budget,
hence the untimed `memory`), recompute the cost as total delay under
the `CTSP_DELAY` objective, and mark the trip `use_memory`. -/
def previoustrip (cfg : Config) (veh : Vehicle) (net : Network) (current_time : Int) : Trip :=
  let pc := memory cfg veh net current_time
  { cost := if cfg.CTSP_OBJECTIVE = "CTSP_DELAY" then delay_all veh pc.2 net current_time
      else pc.1,
    order_record := pc.2, requests := veh.pending_requests, use_memory := true }

/-- Embeds `is_rr_connected` (rtvgenerator.py lines 236-246): every
cross pair of distinct requests needs an RR edge in some direction. -/
def is_rr_connected (rr : Nat → Nat → Bool) (reqs1 reqs2 : List Request) : Bool :=
  reqs1.all fun a => reqs2.all fun b => a.id == b.id || rr a.id b.id || rr b.id a.id

/-- Set equality of request lists by id (Python compares frozensets of
requests, whose hashing and equality are by id). -/
def sameReqSet (a b : List Request) : Bool :=
  (a.all fun x => b.any fun y => y.id == x.id) && (b.all fun x => a.any fun y => y.id == x.id)

def sameIdSet (a b : List Nat) : Bool :=
  (a.all fun i => b.contains i) && (b.all fun i => a.contains i)

/-- Embeds `all_subsets_exist` (rtvgenerator.py lines 248-255). -/
def all_subsets_exist (combined : List Request) (prev : List Trip) : Bool :=
  combined.all fun r =>
    prev.any fun tr => sameReqSet tr.requests (combined.filter fun x => x.id ≠ r.id)

/-- First-occurrence deduplication by request id: the canonical
enumeration of the Python set `set(trip1.requests) | set(trip2.requests)`. -/
def dedupReqAux (seen : List Nat) : List Request → List Request
  | [] => []
  | r :: rest =>
    if seen.contains r.id then dedupReqAux seen rest
    else r :: dedupReqAux (r.id :: seen) rest

def dedupReq (l : List Request) : List Request := dedupReqAux [] l

/-- The ambient data of one RTV construction: configuration, network,
tick clock, the RR edge relation (`rr_graph.has_edge` on ids), and the
wall-clock oracle. -/
structure RtvEnv where
  cfg : Config
  net : Network
  t : Int
  rr : Nat → Nat → Bool
  clk : Nat → Int

/-- The inner pair loop of `make_rtvgraph` (rtvgenerator.py lines
171-210) for a fixed `trip1`, iterating the later trips.  The state is
`(new_round, existing id-sets, timeout flag, tick)`.  A nonzero
`RTV_TIMELIMIT` makes every iteration read the wall clock; on expiry
the flag is set and the inner loop breaks. -/
def rtvInner (env : RtvEnv) (veh : Vehicle) (prev : List Trip) (k : Nat)
    (prevAssigned : List Nat) (start_time : Int) (trip1 : Trip) :
    List Trip → List Trip × List (List Nat) × Bool × Nat →
      Option (List Trip × List (List Nat) × Bool × Nat)
  | [], st => some st
  | trip2 :: rest, (acc, existing, timeout, tick) =>
    let body : Nat → Option (List Trip × List (List Nat) × Bool × Nat) := fun tick2 =>
      let combined := dedupReq (trip1.requests ++ trip2.requests)
      if combined.length ≠ k ∨ (existing.any fun e => sameIdSet e (pIds combined)) = true then
        rtvInner env veh prev k prevAssigned start_time trip1 rest
          (acc, existing, timeout, tick2)
      else if 2 * ((combined.filter fun r => ¬ prevAssigned.contains r.id).length : Int) >
          env.cfg.MAX_NEW then
        rtvInner env veh prev k prevAssigned start_time trip1 rest
          (acc, existing, timeout, tick2)
      else if ¬ is_rr_connected env.rr trip1.requests trip2.requests = true then
        rtvInner env veh prev k prevAssigned start_time trip1 rest
          (acc, existing, timeout, tick2)
      else if ¬ all_subsets_exist combined prev = true then
        rtvInner env veh prev k prevAssigned start_time trip1 rest
          (acc, existing, timeout, tick2)
      else
        match travel_timed env.cfg veh combined env.net env.t start_time
            env.cfg.RTV_TIMELIMIT trigSTANDARD env.clk tick2 with
        | none => none
        | some ((pc, po), tick3) =>
          if pc < 0 then
            rtvInner env veh prev k prevAssigned start_time trip1 rest
              (acc, existing, timeout, tick3)
          else
            let c2 := if env.cfg.CTSP_OBJECTIVE = "CTSP_DELAY" then
              delay_all veh po env.net env.t else pc
            rtvInner env veh prev k prevAssigned start_time trip1 rest
              (acc ++ [⟨c2, po, combined, false⟩], existing ++ [pIds combined], timeout, tick3)
    if env.cfg.RTV_TIMELIMIT ≠ 0 then
      if env.clk tick - start_time > env.cfg.RTV_TIMELIMIT then
        some (acc, existing, true, tick + 1)
      else body (tick + 1)
    else body tick

/-- The outer pair loop (`for idx1 ...`): each trip is paired with the
trips after it; a timeout only breaks the inner loop. -/
def rtvOuter (env : RtvEnv) (veh : Vehicle) (prev : List Trip) (k : Nat)
    (prevAssigned : List Nat) (start_time : Int) :
    List Trip → List Trip × List (List Nat) × Bool × Nat →
      Option (List Trip × List (List Nat) × Bool × Nat)
  | [], st => some st
  | trip1 :: rest, st =>
    match rtvInner env veh prev k prevAssigned start_time trip1 rest st with
    | none => none
    | some st2 => rtvOuter env veh prev k prevAssigned start_time rest st2

/-- The level-growing while loop of `make_rtvgraph` (lines 162-211):
while the last built round is nonempty and no timeout was recorded,
grow the next level from pairs of the previous one, stopping once the
level exceeds the vehicle capacity.  The fuel strictly exceeds the
number of iterations the loop can make (the level is bounded by the
capacity), so the fuel-exhaustion branch is unreachable from the
wrapper. -/
def levelLoop (env : RtvEnv) (veh : Vehicle) (prevAssigned : List Nat) (start_time : Int) :
    Nat → Nat → List (List Trip) → Bool → Nat → Option (List (List Trip) × Nat)
  | 0, _, _, _, _ => none
  | fuel + 1, k, rounds, timeout, tick =>
    if (rounds.getD k []) ≠ [] ∧ timeout = false then
      if ((k : Int) + 1) > veh.capacity then some (rounds, tick)
      else
        match rtvOuter env veh (rounds.getD k []) (k + 1) prevAssigned start_time
            (rounds.getD k [])
            ([], (rounds.getD k []).map fun tr => pIds tr.requests, timeout, tick) with
        | none => none
        | some (new_round, _, timeout2, tick2) =>
          levelLoop env veh prevAssigned start_time fuel (k + 1) (rounds ++ [new_round])
            timeout2 tick2
    else some (rounds, tick)

/-- The level-1 loop (rtvgenerator.py lines 147-159): one untimed
feasibility search per candidate request; infeasible candidates are
only logged. -/
def firstRound (env : RtvEnv) (veh : Vehicle) : List Request → Nat → Option (List Trip × Nat)
  | [], tick => some ([], tick)
  | r :: rest, tick =>
    match travel_timed env.cfg veh [r] env.net env.t 0 0 trigSTANDARD env.clk tick with
    | none => none
    | some ((pc, po), tick2) =>
      match firstRound env veh rest tick2 with
      | none => none
      | some (trips, tick3) =>
        if pc < 0 then some (trips, tick3)
        else
          let c2 := if env.cfg.CTSP_OBJECTIVE = "CTSP_DELAY" then
            delay_all veh po env.net env.t else pc
          some ((⟨c2, po, [r], false⟩ : Trip) :: trips, tick3)

/-- The per-vehicle level construction of `make_rtvgraph` (lines
120-211): wall-clock origin, baseline trip (empty request set, delay
recomputed unconditionally under `CTSP_DELAY`), level 1 from the
candidate pairing (the RV neighbours united with the pending requests,
passed here as an enumeration of that set), then the pair levels. -/
def rtvRounds (env : RtvEnv) (veh : Vehicle) (pairing : List Request) (tick0 : Nat) :
    Option (List (List Trip) × Nat) :=
  let start_time := env.clk tick0
  match travel_timed env.cfg veh [] env.net env.t start_time env.cfg.RTV_TIMELIMIT
      trigSTANDARD env.clk (tick0 + 1) with
  | none => none
  | some ((c0, p0), tick2) =>
    match firstRound env veh pairing tick2 with
    | none => none
    | some (fr, tick3) =>
      let c0b := if env.cfg.CTSP_OBJECTIVE = "CTSP_DELAY" then
        delay_all veh p0 env.net env.t else c0
      levelLoop env veh (pIds veh.pending_requests) start_time (veh.capacity.toNat + 2) 1
        [[(⟨c0b, p0, [], false⟩ : Trip)], fr] false tick3

/-- The tail of `make_rtvgraph` for one vehicle (lines 213-234): flatten
the rounds, raise on any `-1` cost, and append the memory replay of the
stored order when its id sequence is absent from the level of size
`|pending_requests|`; an infeasible (`-1`) memory trip raises.  Raised
`RuntimeError`s are `none`. -/
def make_rtv_one (env : RtvEnv) (veh : Vehicle) (pairing : List Request) (tick0 : Nat) :
    Option (List Trip × Nat) :=
  match rtvRounds env veh pairing tick0 with
  | none => none
  | some (rounds, tick) =>
    let potential := rounds.flatten
    if potential.any fun tr => tr.cost == -1 then none
    else
      let levelIds : List (List Nat) :=
        if veh.pending_requests.length < rounds.length then
          (rounds.getD veh.pending_requests.length []).map fun tr =>
            tr.order_record.map fun st => st.r.id
        else []
      if veh.order_record ≠ [] ∧
          ¬ levelIds.contains (veh.order_record.map fun st => st.r.id) = true then
        if (previoustrip env.cfg veh env.net env.t).cost = -1 then none
        else some (potential ++ [previoustrip env.cfg veh env.net env.t], tick)
      else some (potential, tick)
lemma getD_append_lt {α : Type} (l l' : List α) (d : α) (i : Nat) (h : i < l.length) :
    (l ++ l').getD i d = l.getD i d := by
  induction l generalizing i with
  | nil => cases h
  | cons a t ih =>
    cases i with
    | zero => rfl
    | succ j =>
      simp only [List.cons_append, List.getD_cons_succ]
      exact ih j (by simpa using h)

lemma getD_append_ge {α : Type} (l l' : List α) (d : α) (i : Nat) (h : l.length ≤ i) :
    (l ++ l').getD i d = l'.getD (i - l.length) d := by
  induction l generalizing i with
  | nil => simp
  | cons a t ih =>
    cases i with
    | zero => cases h
    | succ j =>
      simp only [List.cons_append, List.getD_cons_succ, List.length_cons]
      rw [ih j (by simpa using h)]
      congr 1
      omega

lemma getD_ge_length {α : Type} (l : List α) (d : α) (i : Nat) (h : l.length ≤ i) :
    l.getD i d = d := by
  induction l generalizing i with
  | nil => cases i <;> rfl
  | cons a t ih =>
    cases i with
    | zero => cases h
    | succ j => exact ih j (by simpa using h)

lemma levelLoop_prefix {env : RtvEnv} {veh : Vehicle} {pa : List Nat} {stime : Int} :
    ∀ (fuel k : Nat) (rounds : List (List Trip)) (timeout : Bool) (tick : Nat)
      (rounds' : List (List Trip)) (tick' : Nat),
      levelLoop env veh pa stime fuel k rounds timeout tick = some (rounds', tick') →
      ∃ ext, rounds' = rounds ++ ext := by
  intro fuel
  induction fuel with
  | zero => intro k rounds timeout tick rounds' tick' h; rw [levelLoop] at h; exact absurd h (by simp)
  | succ fuel ih =>
    intro k rounds timeout tick rounds' tick' h
    rw [levelLoop] at h
    by_cases e1 : (rounds.getD k []) ≠ [] ∧ timeout = false
    · rw [if_pos e1] at h
      by_cases e2 : ((k : Int) + 1) > veh.capacity
      · rw [if_pos e2] at h
        injection h with h2
        injection h2 with ha hb
        exact ⟨[], by simp [← ha]⟩
      · rw [if_neg e2] at h
        rcases ho : rtvOuter env veh (rounds.getD k []) (k + 1) pa stime (rounds.getD k [])
            ([], (rounds.getD k []).map fun tr => pIds tr.requests, timeout, tick) with
          _ | ⟨new_round, ex2, timeout2, tick2⟩
        · rw [ho] at h; exact absurd h (by simp)
        · rw [ho] at h
          obtain ⟨ext, hext⟩ := ih (k + 1) (rounds ++ [new_round]) timeout2 tick2 rounds' tick' h
          exact ⟨[new_round] ++ ext, by simp [hext]⟩
    · rw [if_neg e1] at h
      injection h with h2
      injection h2 with ha hb
      exact ⟨[], by simp [← ha]⟩

/-- Claim C6: the level-0 baseline trip — the feasibility-search result
for the vehicle with no new requests, with an empty request set — is
contained in every RTV trip list the builder returns. -/
theorem rtv_baseline_emitted (env : RtvEnv) (veh : Vehicle) (pairing : List Request)
    (tick0 : Nat) (out : List Trip) (tk : Nat)
    (h : make_rtv_one env veh pairing tick0 = some (out, tk)) :
    ∃ c0 p0 tick2,
      travel_timed env.cfg veh [] env.net env.t (env.clk tick0) env.cfg.RTV_TIMELIMIT
        trigSTANDARD env.clk (tick0 + 1) = some ((c0, p0), tick2) ∧
      ((⟨(if env.cfg.CTSP_OBJECTIVE = "CTSP_DELAY" then delay_all veh p0 env.net env.t
          else c0), p0, [], false⟩ : Trip) ∈ out) := by
  rw [make_rtv_one] at h
  rcases hr : rtvRounds env veh pairing tick0 with _ | ⟨rounds, tick⟩
  · rw [hr] at h; exact absurd h (by simp)
  rw [hr] at h
  rw [rtvRounds] at hr
  rcases htt : travel_timed env.cfg veh [] env.net env.t (env.clk tick0)
      env.cfg.RTV_TIMELIMIT trigSTANDARD env.clk (tick0 + 1) with _ | ⟨⟨c0, p0⟩, tick2⟩
  · rw [htt] at hr; exact absurd hr (by simp)
  rw [htt] at hr
  simp only at hr
  rcases hfr : firstRound env veh pairing tick2 with _ | ⟨fr, tick3⟩
  · rw [hfr] at hr; exact absurd hr (by simp)
  rw [hfr] at hr
  simp only at hr
  obtain ⟨ext, hext⟩ := levelLoop_prefix _ _ _ _ _ _ _ hr
  refine ⟨c0, p0, tick2, rfl, ?_⟩
  have hb : (⟨(if env.cfg.CTSP_OBJECTIVE = "CTSP_DELAY" then delay_all veh p0 env.net env.t
      else c0), p0, [], false⟩ : Trip) ∈ rounds.flatten := by
    rw [hext]
    simp
  simp only at h
  by_cases e1 : (rounds.flatten.any fun tr => tr.cost == -1) = true
  · rw [if_pos e1] at h; exact absurd h (by simp)
  rw [if_neg e1] at h
  by_cases e2 : veh.order_record ≠ [] ∧
      ¬ (if veh.pending_requests.length < rounds.length then
          (rounds.getD veh.pending_requests.length []).map fun tr =>
            tr.order_record.map fun st => st.r.id
        else []).contains (veh.order_record.map fun st => st.r.id) = true
  · rw [if_pos e2] at h
    by_cases e3 : (previoustrip env.cfg veh env.net env.t).cost = -1
    · rw [if_pos e3] at h; exact absurd h (by simp)
    · rw [if_neg e3] at h
      have hout := congrArg Prod.fst (Option.some.inj h)
      simp only at hout
      rw [← hout]
      exact List.mem_append.mpr (Or.inl hb)
  · rw [if_neg e2] at h
    have hout := congrArg Prod.fst (Option.some.inj h)
    simp only at hout
    rw [← hout]
    exact hb

theorem rtv_baseline_emitted_witness :
    ∃ c0 p0 tick2,
      travel_timed cfgW vehW [] netW 0 ((fun _ => (0 : Int)) 0) cfgW.RTV_TIMELIMIT
        trigSTANDARD (fun _ => (0 : Int)) 1 = some ((c0, p0), tick2) ∧
      ((⟨(if cfgW.CTSP_OBJECTIVE = "CTSP_DELAY" then
          delay_all vehW p0 ⟨fun a b => if a = b then 0 else 60, 0, 0⟩ 0 else c0), p0, [],
          false⟩ : Trip) ∈
        [(⟨0, [], [], false⟩ : Trip), ⟨60, [⟨reqW, true, 0⟩, ⟨reqW, false, 2⟩], [reqW], false⟩]) :=
  rtv_baseline_emitted ⟨cfgW, netW, 0, fun _ _ => true, fun _ => 0⟩ vehW [reqW] 0
    [⟨0, [], [], false⟩, ⟨60, [⟨reqW, true, 0⟩, ⟨reqW, false, 2⟩], [reqW], false⟩] 1 (by decide)

/-- A DELAY-objective scenario: one request from node 1 to node 2, a
vehicle at node 0, pickup dwell 5 both in the configuration and the
network sentinel. -/
def cfgD : Config :=
  { CTSP := "FULL", CTSP_OBJECTIVE := "CTSP_DELAY", DWELL_ALIGHT := 0, DWELL_PICKUP := 5,
    CARSIZE := 4, LP_LIMITVALUE := 8, MAX_NEW := 8, RTV_TIMELIMIT := 0, ALGORITHM := "ILP_FULL" }

def netD : Network :=
  { tm := fun a b => if a = b then 0 else if a = 0 ∧ b = 1 then 10 else
      if a = 1 ∧ b = 2 then 50 else 100,
    dwell_pickup := 5, dwell_alight := 0 }

def rD : Request :=
  { id := 1, origin := 1, destination := 2, entry_time := 100, ideal_traveltime := 50,
    latest_boarding := 400, latest_alighting := 1000, assigned := false }

def vehD : Vehicle :=
  { id := 0, node := 0, offset := 0, capacity := 1, passengers := [], pending_requests := [],
    order_record := [] }

def envD : RtvEnv := { cfg := cfgD, net := netD, t := 0, rr := fun _ _ => true, clk := fun _ => 0 }

/-- The spec-side delay objective of section 4.2: walk the order under
the arrival-time model of the feasibility search (`arrivalAt`, with the
entry-time raising at pickups) and sum `max 0 (arrival - (entry_time +
ideal_traveltime))` over the dropoff stops.  Stated from the
specification text, to be compared with the code-side `delay_all`. -/
def delay_spec (net : Network) (cfg : Config) : Int → Int → Action → List NodeStop → Int
  | _, _, _, [] => 0
  | loc, now, act, s :: rest =>
    let a := arrivalAt net cfg act loc now s
    (if s.is_pickup then 0 else max 0 (a - (s.r.entry_time + s.r.ideal_traveltime))) +
      delay_spec net cfg s.node a (actOf s) rest

/-- A committed request whose boarding deadline has passed: its stored
order replays as infeasible. -/
def rX : Request :=
  { id := 7, origin := 1, destination := 2, entry_time := 0, ideal_traveltime := 50,
    latest_boarding := 5, latest_alighting := 1000, assigned := true }

def vehM : Vehicle :=
  { id := 0, node := 0, offset := 0, capacity := 4, passengers := [], pending_requests := [rX],
    order_record := [⟨rX, true, 1⟩, ⟨rX, false, 2⟩] }

/-- A VTT scenario on a line graph (travel time `60 * distance`) with
two overlapping requests, used to exercise a level-2 trip. -/
def cfgS : Config :=
  { CTSP := "FULL", CTSP_OBJECTIVE := "CTSP_VTT", DWELL_ALIGHT := 0, DWELL_PICKUP := 0,
    CARSIZE := 4, LP_LIMITVALUE := 8, MAX_NEW := 8, RTV_TIMELIMIT := 0, ALGORITHM := "ILP_FULL" }

def netS : Network :=
  { tm := fun a b => 60 * max (a - b) (b - a), dwell_pickup := 0, dwell_alight := 0 }

def r1S : Request :=
  { id := 1, origin := 0, destination := 3, entry_time := 0, ideal_traveltime := 180,
    latest_boarding := 300, latest_alighting := 780, assigned := false }

def r2S : Request :=
  { id := 2, origin := 1, destination := 2, entry_time := 0, ideal_traveltime := 60,
    latest_boarding := 300, latest_alighting := 660, assigned := false }

def vehS : Vehicle :=
  { id := 0, node := 0, offset := 0, capacity := 4, passengers := [], pending_requests := [],
    order_record := [] }

def envS : RtvEnv := { cfg := cfgS, net := netS, t := 0, rr := fun _ _ => true, clk := fun _ => 0 }

/-- The admission conditions of the pair loop of `make_rtvgraph`: a trip
of level `k` is built from two parents of level `k-1`; its request set is
their id-union, has size exactly `k`, passes the `MAX_NEW` bound on
not-yet-assigned requests, the RR-connectivity check between the two
parents, and the `(k-1)`-subset closure against the previous level. -/
def LevelGates (cfg : Config) (rr : Nat → Nat → Bool) (pa : List Nat)
    (prev : List Trip) (k : Nat) (tr : Trip) : Prop :=
  ∃ t1 ∈ prev, ∃ t2 ∈ prev,
    tr.requests = dedupReq (t1.requests ++ t2.requests) ∧
    tr.requests.length = k ∧
    2 * ((tr.requests.filter fun r => ¬ pa.contains r.id).length : Int) ≤ cfg.MAX_NEW ∧
    is_rr_connected rr t1.requests t2.requests = true ∧
    all_subsets_exist tr.requests prev = true

lemma rtvInner_gates {env : RtvEnv} {veh : Vehicle} {prev : List Trip} {k : Nat}
    {pa : List Nat} {stime : Int} {trip1 : Trip} (h1 : trip1 ∈ prev) :
    ∀ (rest : List Trip) (st st' : List Trip × List (List Nat) × Bool × Nat),
      (∀ t ∈ rest, t ∈ prev) →
      rtvInner env veh prev k pa stime trip1 rest st = some st' →
      ∀ tr ∈ st'.1, tr ∈ st.1 ∨ LevelGates env.cfg env.rr pa prev k tr := by
  intro rest
  induction rest with
  | nil =>
    intro st st' _ h tr htr
    rw [rtvInner] at h
    cases h
    exact Or.inl htr
  | cons trip2 rest ih =>
    rintro ⟨acc, existing, timeout, tick⟩ st' hsub h tr htr
    have hsub' : ∀ t ∈ rest, t ∈ prev := fun t ht => hsub t (List.mem_cons_of_mem _ ht)
    have h2 : trip2 ∈ prev := hsub trip2 (List.mem_cons_self _ _)
    have bodyCase : ∀ tick2 : Nat,
        (let combined := dedupReq (trip1.requests ++ trip2.requests)
         if combined.length ≠ k ∨ (existing.any fun e => sameIdSet e (pIds combined)) = true then
           rtvInner env veh prev k pa stime trip1 rest (acc, existing, timeout, tick2)
         else if 2 * ((combined.filter fun r => ¬ pa.contains r.id).length : Int) >
             env.cfg.MAX_NEW then
           rtvInner env veh prev k pa stime trip1 rest (acc, existing, timeout, tick2)
         else if ¬ is_rr_connected env.rr trip1.requests trip2.requests = true then
           rtvInner env veh prev k pa stime trip1 rest (acc, existing, timeout, tick2)
         else if ¬ all_subsets_exist combined prev = true then
           rtvInner env veh prev k pa stime trip1 rest (acc, existing, timeout, tick2)
         else
           match travel_timed env.cfg veh combined env.net env.t stime
               env.cfg.RTV_TIMELIMIT trigSTANDARD env.clk tick2 with
           | none => none
           | some ((pc, po), tick3) =>
             if pc < 0 then
               rtvInner env veh prev k pa stime trip1 rest (acc, existing, timeout, tick3)
             else
               let c2 := if env.cfg.CTSP_OBJECTIVE = "CTSP_DELAY" then
                 delay_all veh po env.net env.t else pc
               rtvInner env veh prev k pa stime trip1 rest
                 (acc ++ [⟨c2, po, combined, false⟩], existing ++ [pIds combined], timeout,
                   tick3)) = some st' →
        tr ∈ acc ∨ LevelGates env.cfg env.rr pa prev k tr := by
      intro tick2 hb
      simp only at hb
      split at hb
      · exact ih _ _ hsub' hb tr htr
      · split at hb
        · exact ih _ _ hsub' hb tr htr
        · split at hb
          · exact ih _ _ hsub' hb tr htr
          · split at hb
            · exact ih _ _ hsub' hb tr htr
            · split at hb
              · exact absurd hb (by simp)
              · rename_i hlen hmax hrr hsubs x pc po tick3 heq
                split at hb
                · exact ih _ _ hsub' hb tr htr
                · rcases ih _ _ hsub' hb tr htr with hm | hg
                  · rcases List.mem_append.mp hm with hm2 | hm2
                    · exact Or.inl hm2
                    · right
                      have htr2 : tr = (⟨if env.cfg.CTSP_OBJECTIVE = "CTSP_DELAY" then
                          delay_all veh po env.net env.t else pc, po,
                          dedupReq (trip1.requests ++ trip2.requests), false⟩ : Trip) := by
                        simpa using hm2
                      refine ⟨trip1, h1, trip2, h2, ?_, ?_, ?_, ?_, ?_⟩
                      · rw [htr2]
                      · rw [htr2]
                        simpa using (not_or.mp hlen).1
                      · rw [htr2]
                        simpa using hmax
                      · simpa using hrr
                      · rw [htr2]
                        simpa using hsubs
                  · exact Or.inr hg
    rw [rtvInner] at h
    simp only at h
    split at h
    · split at h
      · cases h
        exact Or.inl htr
      · exact bodyCase (tick + 1) h
    · exact bodyCase tick h

lemma rtvOuter_gates {env : RtvEnv} {veh : Vehicle} {prev : List Trip} {k : Nat}
    {pa : List Nat} {stime : Int} :
    ∀ (l : List Trip) (st st' : List Trip × List (List Nat) × Bool × Nat),
      (∀ t ∈ l, t ∈ prev) →
      rtvOuter env veh prev k pa stime l st = some st' →
      ∀ tr ∈ st'.1, tr ∈ st.1 ∨ LevelGates env.cfg env.rr pa prev k tr := by
  intro l
  induction l with
  | nil =>
    intro st st' _ h tr htr
    rw [rtvOuter] at h
    cases h
    exact Or.inl htr
  | cons trip1 rest ih =>
    intro st st' hsub h tr htr
    rw [rtvOuter] at h
    rcases hi : rtvInner env veh prev k pa stime trip1 rest st with _ | st2
    · rw [hi] at h; exact absurd h (by simp)
    · rw [hi] at h
      simp only at h
      rcases ih st2 st' (fun t ht => hsub t (List.mem_cons_of_mem _ ht)) h tr htr with hm | hg
      · exact rtvInner_gates (hsub trip1 (List.mem_cons_self _ _)) rest st st2
          (fun t ht => hsub t (List.mem_cons_of_mem _ ht)) hi tr hm
      · exact Or.inr hg

lemma levelLoop_gates {env : RtvEnv} {veh : Vehicle} {pa : List Nat} {stime : Int} :
    ∀ (fuel k : Nat) (rounds : List (List Trip)) (timeout : Bool) (tick : Nat)
      (rounds' : List (List Trip)) (tick' : Nat),
      levelLoop env veh pa stime fuel k rounds timeout tick = some (rounds', tick') →
      rounds.length = k + 1 →
      (∀ j, 2 ≤ j → ∀ tr ∈ rounds.getD j [],
        LevelGates env.cfg env.rr pa (rounds.getD (j - 1) []) j tr) →
      ∀ j, 2 ≤ j → ∀ tr ∈ rounds'.getD j [],
        LevelGates env.cfg env.rr pa (rounds'.getD (j - 1) []) j tr := by
  intro fuel
  induction fuel with
  | zero =>
    intro k rounds timeout tick rounds' tick' h
    rw [levelLoop] at h
    exact absurd h (by simp)
  | succ fuel ih =>
    intro k rounds timeout tick rounds' tick' h hlen hinv
    rw [levelLoop] at h
    by_cases e1 : (rounds.getD k []) ≠ [] ∧ timeout = false
    · rw [if_pos e1] at h
      by_cases e2 : ((k : Int) + 1) > veh.capacity
      · rw [if_pos e2] at h
        injection h with h2
        injection h2 with ha hb
        subst ha
        exact hinv
      · rw [if_neg e2] at h
        rcases ho : rtvOuter env veh (rounds.getD k []) (k + 1) pa stime (rounds.getD k [])
            ([], (rounds.getD k []).map fun tr => pIds tr.requests, timeout, tick) with
          _ | ⟨new_round, ex2, timeout2, tick2⟩
        · rw [ho] at h; exact absurd h (by simp)
        · rw [ho] at h
          refine ih (k + 1) (rounds ++ [new_round]) timeout2 tick2 rounds' tick' h
            (by simp [hlen]) ?_
          intro j hj tr htr
          by_cases hjlt : j < rounds.length
          · rw [getD_append_lt _ _ _ _ hjlt] at htr
            rw [getD_append_lt _ _ _ _ (by omega)]
            exact hinv j hj tr htr
          · by_cases hjeq : j = k + 1
            · subst hjeq
              have e3 : (rounds ++ [new_round]).getD (k + 1) [] = new_round := by
                rw [getD_append_ge _ _ _ _ (by omega), hlen]
                simp
              rw [e3] at htr
              have e4 : (rounds ++ [new_round]).getD (k + 1 - 1) [] = rounds.getD k [] := by
                simp only [Nat.add_sub_cancel]
                exact getD_append_lt _ _ _ _ (by omega)
              rw [e4]
              rcases rtvOuter_gates (rounds.getD k [])
                  ([], (rounds.getD k []).map fun tr => pIds tr.requests, timeout, tick)
                  (new_round, ex2, timeout2, tick2) (fun t ht => ht) ho tr htr with hm | hg
              · exact absurd hm (List.not_mem_nil tr)
              · exact hg
            · rw [getD_ge_length _ _ _ (by simp; omega)] at htr
              exact absurd htr (List.not_mem_nil tr)
    · rw [if_neg e1] at h
      injection h with h2
      injection h2 with ha hb
      subst ha
      exact hinv

/-- Claim C5: every trip at a level `k ≥ 2` of the RTV rounds built for
a vehicle is the id-union of two trips of level `k-1`, has exactly `k`
requests, and passes the `MAX_NEW`, RR-connectivity, and subset-closure
admission gates of the pair loop. -/
theorem rtv_level_gates (env : RtvEnv) (veh : Vehicle) (pairing : List Request)
    (tick0 : Nat) (rounds : List (List Trip)) (tick : Nat)
    (h : rtvRounds env veh pairing tick0 = some (rounds, tick))
    (j : Nat) (hj : 2 ≤ j) (tr : Trip) (htr : tr ∈ rounds.getD j []) :
    LevelGates env.cfg env.rr (pIds veh.pending_requests) (rounds.getD (j - 1) []) j tr := by
  rw [rtvRounds] at h
  rcases htt : travel_timed env.cfg veh [] env.net env.t (env.clk tick0)
      env.cfg.RTV_TIMELIMIT trigSTANDARD env.clk (tick0 + 1) with _ | ⟨⟨c0, p0⟩, tick2⟩
  · rw [htt] at h; exact absurd h (by simp)
  rw [htt] at h
  simp only at h
  rcases hfr : firstRound env veh pairing tick2 with _ | ⟨fr, tick3⟩
  · rw [hfr] at h; exact absurd h (by simp)
  rw [hfr] at h
  simp only at h
  refine levelLoop_gates _ _ _ _ _ _ _ h (by simp) ?_ j hj tr htr
  intro j2 hj2 tr2 htr2
  rw [getD_ge_length _ _ _ (by simp; omega)] at htr2
  exact absurd htr2 (List.not_mem_nil tr2)

theorem rtv_level_gates_witness :
    rtvRounds envS vehS [r1S, r2S] 0 = some
      ([[⟨0, [], [], false⟩],
        [⟨180, [⟨r1S, true, 0⟩, ⟨r1S, false, 3⟩], [r1S], false⟩,
         ⟨120, [⟨r2S, true, 1⟩, ⟨r2S, false, 2⟩], [r2S], false⟩],
        [⟨180, [⟨r1S, true, 0⟩, ⟨r2S, true, 1⟩, ⟨r2S, false, 2⟩, ⟨r1S, false, 3⟩],
          [r1S, r2S], false⟩], []], 1) ∧
    LevelGates cfgS (fun _ _ => true) (pIds vehS.pending_requests)
      ([[⟨0, [], [], false⟩],
        [⟨180, [⟨r1S, true, 0⟩, ⟨r1S, false, 3⟩], [r1S], false⟩,
         ⟨120, [⟨r2S, true, 1⟩, ⟨r2S, false, 2⟩], [r2S], false⟩],
        [⟨180, [⟨r1S, true, 0⟩, ⟨r2S, true, 1⟩, ⟨r2S, false, 2⟩, ⟨r1S, false, 3⟩],
          [r1S, r2S], false⟩], []].getD (2 - 1) []) 2
      ⟨180, [⟨r1S, true, 0⟩, ⟨r2S, true, 1⟩, ⟨r2S, false, 2⟩, ⟨r1S, false, 3⟩],
        [r1S, r2S], false⟩ :=
  ⟨by decide,
   rtv_level_gates envS vehS [r1S, r2S] 0 _ 1 (by decide) 2 (by decide) _ (by decide)⟩

lemma rtvInner_cost {env : RtvEnv} {veh : Vehicle} {prev : List Trip} {k : Nat}
    {pa : List Nat} {stime : Int} {trip1 : Trip}
    (hobj : env.cfg.CTSP_OBJECTIVE = "CTSP_DELAY") :
    ∀ (rest : List Trip) (st st' : List Trip × List (List Nat) × Bool × Nat),
      rtvInner env veh prev k pa stime trip1 rest st = some st' →
      (∀ tr ∈ st.1, tr.cost = delay_all veh tr.order_record env.net env.t) →
      ∀ tr ∈ st'.1, tr.cost = delay_all veh tr.order_record env.net env.t := by
  intro rest
  induction rest with
  | nil =>
    intro st st' h hst tr htr
    rw [rtvInner] at h
    cases h
    exact hst tr htr
  | cons trip2 rest ih =>
    rintro ⟨acc, existing, timeout, tick⟩ st' h hst tr htr
    have bodyCase : ∀ tick2 : Nat,
        (let combined := dedupReq (trip1.requests ++ trip2.requests)
         if combined.length ≠ k ∨ (existing.any fun e => sameIdSet e (pIds combined)) = true then
           rtvInner env veh prev k pa stime trip1 rest (acc, existing, timeout, tick2)
         else if 2 * ((combined.filter fun r => ¬ pa.contains r.id).length : Int) >
             env.cfg.MAX_NEW then
           rtvInner env veh prev k pa stime trip1 rest (acc, existing, timeout, tick2)
         else if ¬ is_rr_connected env.rr trip1.requests trip2.requests = true then
           rtvInner env veh prev k pa stime trip1 rest (acc, existing, timeout, tick2)
         else if ¬ all_subsets_exist combined prev = true then
           rtvInner env veh prev k pa stime trip1 rest (acc, existing, timeout, tick2)
         else
           match travel_timed env.cfg veh combined env.net env.t stime
               env.cfg.RTV_TIMELIMIT trigSTANDARD env.clk tick2 with
           | none => none
           | some ((pc, po), tick3) =>
             if pc < 0 then
               rtvInner env veh prev k pa stime trip1 rest (acc, existing, timeout, tick3)
             else
               rtvInner env veh prev k pa stime trip1 rest
                 (acc ++ [⟨delay_all veh po env.net env.t, po, combined, false⟩],
                   existing ++ [pIds combined], timeout, tick3)) = some st' →
        tr.cost = delay_all veh tr.order_record env.net env.t := by
      intro tick2 hb
      simp only at hb
      split at hb
      · exact ih _ _ hb hst tr htr
      · split at hb
        · exact ih _ _ hb hst tr htr
        · split at hb
          · exact ih _ _ hb hst tr htr
          · split at hb
            · exact ih _ _ hb hst tr htr
            · split at hb
              · exact absurd hb (by simp)
              · rename_i pc po tick3 heq
                split at hb
                · exact ih _ _ hb hst tr htr
                · refine ih _ _ hb ?_ tr htr
                  intro tr2 htr2
                  rcases List.mem_append.mp htr2 with hm | hm
                  · exact hst tr2 hm
                  · have htr3 := List.mem_singleton.mp hm
                    rw [htr3]
    rw [rtvInner] at h
    simp only at h
    split at h
    · split at h
      · cases h
        exact hst tr htr
      · exact bodyCase (tick + 1) h
    · exact bodyCase tick h

lemma rtvOuter_cost {env : RtvEnv} {veh : Vehicle} {prev : List Trip} {k : Nat}
    {pa : List Nat} {stime : Int} (hobj : env.cfg.CTSP_OBJECTIVE = "CTSP_DELAY") :
    ∀ (l : List Trip) (st st' : List Trip × List (List Nat) × Bool × Nat),
      rtvOuter env veh prev k pa stime l st = some st' →
      (∀ tr ∈ st.1, tr.cost = delay_all veh tr.order_record env.net env.t) →
      ∀ tr ∈ st'.1, tr.cost = delay_all veh tr.order_record env.net env.t := by
  intro l
  induction l with
  | nil =>
    intro st st' h hst tr htr
    rw [rtvOuter] at h
    cases h
    exact hst tr htr
  | cons trip1 rest ih =>
    intro st st' hsub htr
    rw [rtvOuter] at hsub
    rcases hi : rtvInner env veh prev k pa stime trip1 rest st with _ | st2
    · rw [hi] at hsub; exact absurd hsub (by simp)
    · rw [hi] at hsub
      simp only at hsub
      exact ih st2 st' hsub (rtvInner_cost hobj rest st st2 hi htr)

lemma levelLoop_cost {env : RtvEnv} {veh : Vehicle} {pa : List Nat} {stime : Int}
    (hobj : env.cfg.CTSP_OBJECTIVE = "CTSP_DELAY") :
    ∀ (fuel k : Nat) (rounds : List (List Trip)) (timeout : Bool) (tick : Nat)
      (rounds' : List (List Trip)) (tick' : Nat),
      levelLoop env veh pa stime fuel k rounds timeout tick = some (rounds', tick') →
      (∀ tr ∈ rounds.flatten, tr.cost = delay_all veh tr.order_record env.net env.t) →
      ∀ tr ∈ rounds'.flatten, tr.cost = delay_all veh tr.order_record env.net env.t := by
  intro fuel
  induction fuel with
  | zero =>
    intro k rounds timeout tick rounds' tick' h
    rw [levelLoop] at h
    exact absurd h (by simp)
  | succ fuel ih =>
    intro k rounds timeout tick rounds' tick' h hinv
    rw [levelLoop] at h
    by_cases e1 : (rounds.getD k []) ≠ [] ∧ timeout = false
    · rw [if_pos e1] at h
      by_cases e2 : ((k : Int) + 1) > veh.capacity
      · rw [if_pos e2] at h
        injection h with h2
        injection h2 with ha hb
        subst ha
        exact hinv
      · rw [if_neg e2] at h
        rcases ho : rtvOuter env veh (rounds.getD k []) (k + 1) pa stime (rounds.getD k [])
            ([], (rounds.getD k []).map fun tr => pIds tr.requests, timeout, tick) with
          _ | ⟨new_round, ex2, timeout2, tick2⟩
        · rw [ho] at h; exact absurd h (by simp)
        · rw [ho] at h
          refine ih (k + 1) (rounds ++ [new_round]) timeout2 tick2 rounds' tick' h ?_
          intro tr htr
          rw [List.flatten_append] at htr
          rcases List.mem_append.mp htr with hm | hm
          · exact hinv tr hm
          · have hm2 : tr ∈ new_round := by simpa using hm
            rcases rtvOuter_cost hobj (rounds.getD k [])
                ([], (rounds.getD k []).map fun tr => pIds tr.requests, timeout, tick)
                (new_round, ex2, timeout2, tick2) ho
                (fun tr2 htr2 => absurd htr2 (List.not_mem_nil tr2)) tr hm2 with hc
            exact hc
    · rw [if_neg e1] at h
      injection h with h2
      injection h2 with ha hb
      subst ha
      exact hinv

lemma firstRound_cost {env : RtvEnv} {veh : Vehicle}
    (hobj : env.cfg.CTSP_OBJECTIVE = "CTSP_DELAY") :
    ∀ (l : List Request) (tick : Nat) (fr : List Trip) (tick' : Nat),
      firstRound env veh l tick = some (fr, tick') →
      ∀ tr ∈ fr, tr.cost = delay_all veh tr.order_record env.net env.t := by
  intro l
  induction l with
  | nil =>
    intro tick fr tick' h tr htr
    rw [firstRound] at h
    injection h with h2
    injection h2 with ha hb
    subst ha
    exact absurd htr (List.not_mem_nil tr)
  | cons r rest ih =>
    intro tick fr tick' h tr htr
    rw [firstRound] at h
    rcases htt : travel_timed env.cfg veh [r] env.net env.t 0 0 trigSTANDARD env.clk tick with
      _ | ⟨⟨pc, po⟩, tick2⟩
    · rw [htt] at h; exact absurd h (by simp)
    rw [htt] at h
    simp only at h
    rcases hfr : firstRound env veh rest tick2 with _ | ⟨trips, tick3⟩
    · rw [hfr] at h; exact absurd h (by simp)
    rw [hfr] at h
    simp only at h
    split at h
    · injection h with h2
      injection h2 with ha hb
      subst ha
      exact ih _ _ _ hfr tr htr
    · injection h with h2
      injection h2 with ha hb
      subst ha
      rcases List.mem_cons.mp htr with he | hm
      · rw [he]
      · exact ih _ _ _ hfr tr hm

lemma previoustrip_cost (cfg : Config) (veh : Vehicle) (net : Network) (t : Int)
    (hobj : cfg.CTSP_OBJECTIVE = "CTSP_DELAY") :
    (previoustrip cfg veh net t).cost =
      delay_all veh (previoustrip cfg veh net t).order_record net t := by
  simp [previoustrip, hobj]

/-- Claim C9 (amended): under the `CTSP_DELAY` objective, the cost
stored on every trip of the RTV output — baseline, level-1, level-k and
memory trips alike — is the value of the implementation's delay routine
`delay_all` recomputed on that trip's own stop order.  (`delay_all`
itself differs from the arrival-time model of the feasibility search:
see the counterexample theorem.) -/
theorem rtv_delay_cost (env : RtvEnv) (veh : Vehicle) (pairing : List Request)
    (tick0 : Nat) (out : List Trip) (tk : Nat)
    (hobj : env.cfg.CTSP_OBJECTIVE = "CTSP_DELAY")
    (h : make_rtv_one env veh pairing tick0 = some (out, tk)) :
    ∀ tr ∈ out, tr.cost = delay_all veh tr.order_record env.net env.t := by
  rw [make_rtv_one] at h
  rcases hr : rtvRounds env veh pairing tick0 with _ | ⟨rounds, tick⟩
  · rw [hr] at h; exact absurd h (by simp)
  rw [hr] at h
  simp only at h
  have hflat : ∀ tr ∈ rounds.flatten,
      tr.cost = delay_all veh tr.order_record env.net env.t := by
    rw [rtvRounds] at hr
    rcases htt : travel_timed env.cfg veh [] env.net env.t (env.clk tick0)
        env.cfg.RTV_TIMELIMIT trigSTANDARD env.clk (tick0 + 1) with _ | ⟨⟨c0, p0⟩, tick2⟩
    · rw [htt] at hr; exact absurd hr (by simp)
    rw [htt] at hr
    simp only at hr
    rcases hfr : firstRound env veh pairing tick2 with _ | ⟨fr, tick3⟩
    · rw [hfr] at hr; exact absurd hr (by simp)
    rw [hfr] at hr
    simp only at hr
    refine levelLoop_cost hobj _ _ _ _ _ _ _ hr ?_
    intro tr htr
    simp only [List.flatten_cons, List.flatten_nil, List.append_nil] at htr
    rcases List.mem_append.mp htr with hm | hm
    · have hm2 := List.mem_singleton.mp hm
      rw [hm2]
      simp [hobj]
    · exact firstRound_cost hobj pairing tick2 fr tick3 hfr tr hm
  by_cases e1 : (rounds.flatten.any fun tr => tr.cost == -1) = true
  · rw [if_pos e1] at h; exact absurd h (by simp)
  rw [if_neg e1] at h
  by_cases e2 : veh.order_record ≠ [] ∧
      ¬ (if veh.pending_requests.length < rounds.length then
          (rounds.getD veh.pending_requests.length []).map fun tr =>
            tr.order_record.map fun st => st.r.id
        else []).contains (veh.order_record.map fun st => st.r.id) = true
  · rw [if_pos e2] at h
    by_cases e3 : (previoustrip env.cfg veh env.net env.t).cost = -1
    · rw [if_pos e3] at h; exact absurd h (by simp)
    · rw [if_neg e3] at h
      injection h with h2
      injection h2 with ha hb
      subst ha
      intro tr htr
      rcases List.mem_append.mp htr with hm | hm
      · exact hflat tr hm
      · have hm2 := List.mem_singleton.mp hm
        rw [hm2]
        exact previoustrip_cost env.cfg veh env.net env.t hobj
  · rw [if_neg e2] at h
    injection h with h2
    injection h2 with ha hb
    subst ha
    exact hflat

theorem rtv_delay_cost_witness :
    (⟨0, [⟨rD, true, 1⟩, ⟨rD, false, 2⟩], [rD], false⟩ : Trip).cost =
      delay_all vehD [⟨rD, true, 1⟩, ⟨rD, false, 2⟩] netD 0 :=
  rtv_delay_cost envD vehD [rD] 0
    [⟨0, [], [], false⟩, ⟨0, [⟨rD, true, 1⟩, ⟨rD, false, 2⟩], [rD], false⟩] 1 rfl (by decide)
    ⟨0, [⟨rD, true, 1⟩, ⟨rD, false, 2⟩], [rD], false⟩ (by decide)

/-- Claim C9 counterexample: the delay the implementation stores is not
the delay of the arrival-time model of section 4.2.  In the `envD`
scenario the RTV output stores cost `0` on the level-1 trip, and indeed
`delay_all` yields `0` on its order, but the section-4.2 model (with
the arrival at the pickup raised to the request's `entry_time` and the
configured dwell times) gives delay `5` for the same order: `delay_all`
never raises the arrival at a pickup to `entry_time`, so the dwell-time
overrun past `entry_time + ideal_traveltime` is not charged. -/
theorem rtv_delay_model_counterexample :
    cfgD.CTSP_OBJECTIVE = "CTSP_DELAY" ∧
    make_rtv_one envD vehD [rD] 0 =
      some ([⟨0, [], [], false⟩, ⟨0, [⟨rD, true, 1⟩, ⟨rD, false, 2⟩], [rD], false⟩], 1) ∧
    delay_all vehD [⟨rD, true, 1⟩, ⟨rD, false, 2⟩] netD 0 = 0 ∧
    delay_spec netD cfgD 0 0 Action.no_action [⟨rD, true, 1⟩, ⟨rD, false, 2⟩] = 5 := by
  refine ⟨rfl, by decide, by decide, by decide⟩

/-- Claim C4 counterexample: replaying the stored order of `vehM` is
infeasible (the committed request's boarding deadline has passed, so
`memory` returns the `(-1, [])` sentinel), yet the RTV builder raises
no fatal error: under `CTSP_DELAY` the memory trip's stored cost is
overwritten by `delay_all` on the (empty) replayed order, giving `0`,
so the `cost == -1` fatal check never fires and a memory trip with an
empty order is emitted. -/
theorem rtv_memory_fatal_counterexample :
    memory cfgD vehM netD 0 = (-1, []) ∧
    make_rtv_one envD vehM [rX] 0 =
      some ([⟨0, [], [], false⟩, ⟨0, [], [rX], true⟩], 1) ∧
    (previoustrip cfgD vehM netD 0).cost = 0 := by
  refine ⟨by decide, by decide, by decide⟩

/-- Claim C4 (amended): whenever the RTV builder returns and the
vehicle has a non-empty stored order whose id sequence does not appear
among the id sequences of the trips at level `|pending_requests|`
(sequence comparison, as implemented), the memory replay trip is
appended to the output, marked `use_memory` with request set exactly
`pending_requests`, and its stored cost — the `delay_all` overwrite
under `CTSP_DELAY`, the replay cost otherwise — is not `-1`; a stored
cost of `-1` instead aborts the construction. -/
theorem rtv_memory_emission (env : RtvEnv) (veh : Vehicle) (pairing : List Request)
    (tick0 : Nat) (rounds : List (List Trip)) (tick : Nat) (out : List Trip) (tk : Nat)
    (hr : rtvRounds env veh pairing tick0 = some (rounds, tick))
    (h : make_rtv_one env veh pairing tick0 = some (out, tk))
    (hrec : veh.order_record ≠ [])
    (habs : ¬ (if veh.pending_requests.length < rounds.length then
          (rounds.getD veh.pending_requests.length []).map fun tr =>
            tr.order_record.map fun st => st.r.id
        else []).contains (veh.order_record.map fun st => st.r.id) = true) :
    out = rounds.flatten ++ [previoustrip env.cfg veh env.net env.t] ∧
    (previoustrip env.cfg veh env.net env.t).use_memory = true ∧
    (previoustrip env.cfg veh env.net env.t).requests = veh.pending_requests ∧
    (previoustrip env.cfg veh env.net env.t).cost ≠ -1 := by
  rw [make_rtv_one] at h
  rw [hr] at h
  simp only at h
  by_cases e1 : (rounds.flatten.any fun tr => tr.cost == -1) = true
  · rw [if_pos e1] at h; exact absurd h (by simp)
  rw [if_neg e1] at h
  rw [if_pos ⟨hrec, habs⟩] at h
  by_cases e3 : (previoustrip env.cfg veh env.net env.t).cost = -1
  · rw [if_pos e3] at h; exact absurd h (by simp)
  rw [if_neg e3] at h
  injection h with h2
  injection h2 with ha hb
  exact ⟨ha.symm, rfl, rfl, e3⟩

theorem rtv_memory_emission_witness :
    ([(⟨0, [], [], false⟩ : Trip), ⟨0, [], [rX], true⟩] : List Trip) =
      ([[(⟨0, [], [], false⟩ : Trip)], ([] : List Trip)]).flatten ++
        [previoustrip envD.cfg vehM envD.net envD.t] ∧
    (previoustrip envD.cfg vehM envD.net envD.t).use_memory = true ∧
    (previoustrip envD.cfg vehM envD.net envD.t).requests = vehM.pending_requests ∧
    (previoustrip envD.cfg vehM envD.net envD.t).cost ≠ -1 :=
  rtv_memory_emission envD vehM [rX] 0 [[⟨0, [], [], false⟩], []] 1
    [⟨0, [], [], false⟩, ⟨0, [], [rX], true⟩] 1 (by decide) (by decide) (by decide) (by decide)

/-- The flattened trip enumeration of `ilp_assignment` (assignment.py
lines 26-38): trips in trip-list order, vehicles' blocks concatenated. -/
def flatTrips (tl : List (Vehicle × List Trip)) : List Trip :=
  tl.flatMap fun vt => vt.2

/-- One linear constraint of the assignment ILP over the binary trip
variables `e i` and absorption variables `x k`: a vehicle block summing
to exactly/at most one, or a request cover summing to one with or
without its absorption variable. -/
inductive IlpCon where
  | vehEq (idxs : List Nat)
  | vehLe (idxs : List Nat)
  | reqEq (idxs : List Nat)
  | reqAbsorb (idxs : List Nat) (k : Nat)
deriving DecidableEq, Repr

/-- Constraint One of `ilp_assignment` (assignment.py lines 68-77): per
vehicle, the block `range(count, count + len(trips))` of trip
variables, `≤ 1` unless the algorithm is `ILP_FULL`, `= 1` then. -/
def vehicleCons (alg : String) : List (Vehicle × List Trip) → Nat → List IlpCon
  | [], _ => []
  | vt :: rest, count =>
    (if alg ≠ "ILP_FULL" then
      IlpCon.vehLe ((List.range vt.2.length).map fun m => count + m)
     else IlpCon.vehEq ((List.range vt.2.length).map fun m => count + m)) ::
      vehicleCons alg rest (count + vt.2.length)

/-- The set `rids_to_trips[rid]` of `ilp_assignment` (lines 32-36) in
its index-ordered enumeration: the flat indices of the trips whose
request set contains the id. -/
def ridIdxsFrom (rid : Nat) : List Trip → Nat → List Nat
  | [], _ => []
  | tr :: rest, i =>
    if (tr.requests.any fun r => r.id == rid) = true then i :: ridIdxsFrom rid rest (i + 1)
    else ridIdxsFrom rid rest (i + 1)

/-- Constraint Two of `ilp_assignment` (lines 79-87): per request, the
cover over `rids_to_trips[rid]`, exactly one with no absorption
variable when the request is committed, else plus `x k`. -/
def requestCons (flat : List Trip) : List Request → Nat → List IlpCon
  | [], _ => []
  | r :: rest, k =>
    (if r.assigned then IlpCon.reqEq (ridIdxsFrom r.id flat 0)
     else IlpCon.reqAbsorb (ridIdxsFrom r.id flat 0) k) :: requestCons flat rest (k + 1)

/-- The full constraint list `ilp_assignment` hands to the solver:
vehicle blocks in trip-list order, then request covers in request
order. -/
def ilp_constraints (alg : String) (tl : List (Vehicle × List Trip))
    (requests : List Request) : List IlpCon :=
  vehicleCons alg tl 0 ++ requestCons (flatTrips tl) requests 0

lemma vehicleCons_length (alg : String) :
    ∀ (tl : List (Vehicle × List Trip)) (count : Nat),
      (vehicleCons alg tl count).length = tl.length := by
  intro tl
  induction tl with
  | nil => intro count; rfl
  | cons vt rest ih =>
    intro count
    rw [vehicleCons]
    simp [ih]

lemma requestCons_length (flat : List Trip) :
    ∀ (rs : List Request) (k : Nat), (requestCons flat rs k).length = rs.length := by
  intro rs
  induction rs with
  | nil => intro k; rfl
  | cons r rest ih =>
    intro k
    rw [requestCons]
    simp [ih]

lemma mem_ridIdxsFrom (rid : Nat) :
    ∀ (l : List Trip) (i0 i : Nat),
      i ∈ ridIdxsFrom rid l i0 ↔ ∃ j, j < l.length ∧ i = i0 + j ∧
        ((l.getD j ⟨0, [], [], false⟩).requests.any fun r => r.id == rid) = true := by
  intro l
  induction l with
  | nil =>
    intro i0 i
    rw [ridIdxsFrom]
    simp
  | cons tr rest ih =>
    intro i0 i
    rw [ridIdxsFrom]
    by_cases hc : (tr.requests.any fun r => r.id == rid) = true
    · rw [if_pos hc]
      constructor
      · intro hm
        rcases List.mem_cons.mp hm with he | hm2
        · exact ⟨0, by simp, by omega, by simpa using hc⟩
        · rcases (ih (i0 + 1) i).mp hm2 with ⟨j, hj, hij, hq⟩
          exact ⟨j + 1, by simpa using hj, by omega, by simpa using hq⟩
      · rintro ⟨j, hj, hij, hq⟩
        cases j with
        | zero => subst hij; simp
        | succ m =>
          refine List.mem_cons.mpr (Or.inr ((ih (i0 + 1) i).mpr ⟨m, ?_, by omega, ?_⟩))
          · simpa using hj
          · simpa using hq
    · rw [if_neg hc]
      constructor
      · intro hm
        rcases (ih (i0 + 1) i).mp hm with ⟨j, hj, hij, hq⟩
        exact ⟨j + 1, by simpa using hj, by omega, by simpa using hq⟩
      · rintro ⟨j, hj, hij, hq⟩
        cases j with
        | zero =>
          exact absurd (by simpa using hq) hc
        | succ m =>
          refine (ih (i0 + 1) i).mpr ⟨m, ?_, by omega, ?_⟩
          · simpa using hj
          · simpa using hq

lemma ridIdxsFrom_ge (rid : Nat) :
    ∀ (l : List Trip) (i0 i : Nat), i ∈ ridIdxsFrom rid l i0 → i0 ≤ i := by
  intro l
  induction l with
  | nil => intro i0 i hm; rw [ridIdxsFrom] at hm; exact absurd hm (List.not_mem_nil i)
  | cons tr rest ih =>
    intro i0 i hm
    rw [ridIdxsFrom] at hm
    by_cases hc : (tr.requests.any fun r => r.id == rid) = true
    · rw [if_pos hc] at hm
      rcases List.mem_cons.mp hm with he | hm2
      · omega
      · have := ih (i0 + 1) i hm2
        omega
    · rw [if_neg hc] at hm
      have := ih (i0 + 1) i hm
      omega

lemma ridIdxsFrom_nodup (rid : Nat) :
    ∀ (l : List Trip) (i0 : Nat), (ridIdxsFrom rid l i0).Nodup := by
  intro l
  induction l with
  | nil => intro i0; rw [ridIdxsFrom]; exact List.nodup_nil
  | cons tr rest ih =>
    intro i0
    rw [ridIdxsFrom]
    by_cases hc : (tr.requests.any fun r => r.id == rid) = true
    · rw [if_pos hc]
      refine List.nodup_cons.mpr ⟨?_, ih (i0 + 1)⟩
      intro hm
      have := ridIdxsFrom_ge rid rest (i0 + 1) i0 hm
      omega
    · rw [if_neg hc]
      exact ih (i0 + 1)

lemma any_id_beq (rid : Nat) (l : List Request) :
    (l.any fun r => r.id == rid) = true ↔ rid ∈ pIds l := by
  simp [pIds]

lemma vehicleCons_block (alg : String) :
    ∀ (tl : List (Vehicle × List Trip)) (j : Nat), j < tl.length → ∀ (count : Nat),
      ∃ idxs : List Nat,
        (vehicleCons alg tl count).getD j (IlpCon.vehLe []) =
          (if alg = "ILP_FULL" then IlpCon.vehEq idxs else IlpCon.vehLe idxs) ∧
        idxs.Nodup ∧
        (∀ i, i ∈ idxs ↔
          count + (flatTrips (tl.take j)).length ≤ i ∧
          i < count + (flatTrips (tl.take (j + 1))).length) := by
  intro tl
  induction tl with
  | nil => intro j hj; cases hj
  | cons vt rest ih =>
    intro j hj count
    cases j with
    | zero =>
      refine ⟨(List.range vt.2.length).map fun m => count + m, ?_, ?_, ?_⟩
      · by_cases ha : alg = "ILP_FULL"
        · simp [vehicleCons, ha]
        · simp [vehicleCons, ha]
      · exact List.Nodup.map (fun a b hab => by omega) (List.nodup_range vt.2.length)
      · intro i
        constructor
        · intro hm
          rcases List.mem_map.mp hm with ⟨m, hmr, he⟩
          have hml := List.mem_range.mp hmr
          simp only [List.take_zero, List.take_succ_cons, List.take_zero]
          simp [flatTrips]
          omega
        · intro hb
          simp only [List.take_zero, List.take_succ_cons, List.take_zero] at hb
          simp [flatTrips] at hb
          refine List.mem_map.mpr ⟨i - count, List.mem_range.mpr (by omega), by omega⟩
    | succ m =>
      have hm : m < rest.length := by simpa using hj
      rcases ih m hm (count + vt.2.length) with ⟨idxs, hget, hnd, hmem⟩
      refine ⟨idxs, ?_, hnd, ?_⟩
      · rw [vehicleCons]
        simpa using hget
      · intro i
        rw [hmem i]
        simp only [List.take_succ_cons]
        simp [flatTrips]
        omega

lemma requestCons_getD (flat : List Trip) :
    ∀ (rs : List Request) (k : Nat) (hk : k < rs.length) (k0 : Nat),
      (requestCons flat rs k0).getD k (IlpCon.vehLe []) =
        (if (rs.get ⟨k, hk⟩).assigned then
          IlpCon.reqEq (ridIdxsFrom (rs.get ⟨k, hk⟩).id flat 0)
         else IlpCon.reqAbsorb (ridIdxsFrom (rs.get ⟨k, hk⟩).id flat 0) (k0 + k)) := by
  intro rs
  induction rs with
  | nil => intro k hk; cases hk
  | cons r rest ih =>
    intro k hk k0
    cases k with
    | zero => simp [requestCons]
    | succ m =>
      rw [requestCons]
      have hm : m < rest.length := by simpa using hk
      rw [List.getD_cons_succ, ih m hm (k0 + 1)]
      have e : k0 + 1 + m = k0 + (m + 1) := by omega
      simp [e]

/-- Claim C7: the assignment ILP has exactly the stated constraint
structure: one constraint per vehicle over precisely that vehicle's
segment of the global trip enumeration — an equality to one under
`ILP_FULL`, an at-most-one otherwise — followed by one cover
constraint per request over precisely the trips whose request set
contains it — an equality without absorption variable when the request
is committed, and with the absorption variable `x k` for the new
request at position `k`. -/
theorem ilp_constraint_structure (alg : String) (tl : List (Vehicle × List Trip))
    (requests : List Request) :
    (ilp_constraints alg tl requests).length = tl.length + requests.length ∧
    (∀ j, ∀ hj : j < tl.length,
      ∃ idxs : List Nat,
        (ilp_constraints alg tl requests).getD j (IlpCon.vehLe []) =
          (if alg = "ILP_FULL" then IlpCon.vehEq idxs else IlpCon.vehLe idxs) ∧
        idxs.Nodup ∧
        (∀ i, i ∈ idxs ↔
          (flatTrips (tl.take j)).length ≤ i ∧
          i < (flatTrips (tl.take (j + 1))).length)) ∧
    (∀ k, ∀ hk : k < requests.length,
      ∃ idxs : List Nat,
        (ilp_constraints alg tl requests).getD (tl.length + k) (IlpCon.vehLe []) =
          (if (requests.get ⟨k, hk⟩).assigned then IlpCon.reqEq idxs
           else IlpCon.reqAbsorb idxs k) ∧
        idxs.Nodup ∧
        (∀ i, i ∈ idxs ↔ i < (flatTrips tl).length ∧
          (requests.get ⟨k, hk⟩).id ∈
            pIds ((flatTrips tl).getD i ⟨0, [], [], false⟩).requests)) := by
  refine ⟨?_, ?_, ?_⟩
  · rw [ilp_constraints]
    simp [vehicleCons_length, requestCons_length]
  · intro j hj
    rcases vehicleCons_block alg tl j hj 0 with ⟨idxs, hget, hnd, hmem⟩
    refine ⟨idxs, ?_, hnd, ?_⟩
    · rw [ilp_constraints, getD_append_lt _ _ _ _ (by rw [vehicleCons_length]; exact hj)]
      exact hget
    · intro i
      rw [hmem i]
      omega
  · intro k hk
    have hlen : (vehicleCons alg tl 0).length = tl.length := vehicleCons_length alg tl 0
    rw [ilp_constraints, getD_append_ge _ _ _ _ (by rw [hlen]; omega)]
    have e : tl.length + k - (vehicleCons alg tl 0).length = k := by omega
    rw [e, requestCons_getD (flatTrips tl) requests k hk 0]
    refine ⟨ridIdxsFrom (requests.get ⟨k, hk⟩).id (flatTrips tl) 0, by simp,
      ridIdxsFrom_nodup _ _ _, ?_⟩
    intro i
    rw [mem_ridIdxsFrom]
    constructor
    · rintro ⟨j, hj, he, hq⟩
      have hij : i = j := by omega
      subst hij
      exact ⟨hj, (any_id_beq _ _).mp hq⟩
    · rintro ⟨hi, hmem2⟩
      exact ⟨i, hi, by omega, (any_id_beq _ _).mpr hmem2⟩

/-! ## Exactness of the untimed search (claim C2)

The completeness direction of the search needs a metric network
(nonnegative, triangle inequality), and that no dropoff share a node
with any other stop (so that the same-node duplicate-dropoff skip
never discards a live candidate; the skip never fires on pickups, so
pickups may share nodes freely).  Each of these restrictions is forced
by a concrete failure: see `search_exactness_counterexample`. -/

/-- Triangle inequality for the travel-time oracle as the search uses
it. -/
def TriangleNet (net : Network) : Prop :=
  ∀ a b c : Int, net.get_time a c ≤ net.get_time a b + net.get_time b c

/-- Node-compatibility with the duplicate-dropoff skip: two stops may
share a node only if both are pickups (the skip of insersion.py line
114 only ever discards dropoffs). -/
def NodeSafe (l : List NodeStop) : Prop :=
  l.Pairwise fun a b => a.node ≠ b.node ∨ (a.is_pickup = true ∧ b.is_pickup = true)

instance (l : List NodeStop) : Decidable (NodeSafe l) := by
  rw [NodeSafe]
  infer_instance

lemma NodeSafe.perm_nodes {l l' : List NodeStop} (hp : l.Perm l') (h : NodeSafe l) :
    NodeSafe l' :=
  (hp.pairwise_iff (by
    intro a b hab
    rcases hab with h1 | ⟨h1, h2⟩
    · exact Or.inl fun he => h1 he.symm
    · exact Or.inr ⟨h2, h1⟩)).mp h

lemma root_mem_flatL {m : MetaNS} : ∀ {F : List MetaNS}, m ∈ F → m.stop ∈ flatL F := by
  intro F
  induction F with
  | nil => intro h; cases h
  | cons x ms ih =>
    intro h
    rw [flatL_cons']
    rcases List.mem_cons.mp h with he | hm
    · subst he; exact List.mem_cons_self _ _
    · exact List.mem_cons_of_mem _ (List.mem_append.mpr (Or.inr (ih hm)))

lemma flatL_eq_nil : ∀ {F : List MetaNS}, flatL F = [] → F = [] := by
  intro F
  cases F with
  | nil => intro _; rfl
  | cons m ms => intro h; rw [flatL_cons'] at h; cases h

lemma insertMeta_ne_nil (m : MetaNS) : ∀ (l : List MetaNS), insertMeta m l ≠ [] := by
  intro l
  cases l with
  | nil => rw [insertMeta]; simp
  | cons x xs =>
    rw [insertMeta]
    by_cases h : stopKeyLt x.stop m.stop = true
    · rw [if_pos h]; simp
    · rw [if_neg h]; simp

lemma sortMeta_eq_nil : ∀ {l : List MetaNS}, sortMeta l = [] → l = [] := by
  intro l
  cases l with
  | nil => intro _; rfl
  | cons m ms => intro h; rw [sortMeta] at h; exact absurd h (insertMeta_ne_nil m (sortMeta ms))

/-- Inversion of a complete execution. -/
lemma exec_inv {net cfg loc cap now act F σ T} (h : ExecOk net cfg loc cap now act F σ T) :
    (F = [] ∧ σ = [] ∧ T = now) ∨
    ∃ pre post m σ2, F = pre ++ m :: post ∧ σ = m.stop :: σ2 ∧
      0 ≤ capAfter m.stop cap ∧
      (m.stop.is_pickup = true →
        arrivalAt net cfg act loc now m.stop ≤ m.stop.r.latest_boarding) ∧
      arrivalAt net cfg act loc now m.stop ≤ m.stop.r.latest_alighting ∧
      ExecOk net cfg m.stop.node (capAfter m.stop cap) (arrivalAt net cfg act loc now m.stop)
        (actOf m.stop) (pre ++ post ++ m.unlocks) σ2 T := by
  cases h with
  | done loc cap now act => exact Or.inl ⟨rfl, rfl, rfl⟩
  | step loc cap now act pre post m σ T h1 h2 h3 hrec =>
    exact Or.inr ⟨pre, post, m, σ, rfl, rfl, h1, h2, h3, hrec⟩

lemma arrival_ge_travel {net cfg} (Hn : NetNonneg net cfg) (act : Action) (loc now : Int)
    (s : NodeStop) : now + net.get_time loc s.node ≤ arrivalAt net cfg act loc now s := by
  rw [arrivalAt]
  have h2 := dwellVal_nonneg Hn act loc s
  by_cases e : s.is_pickup = true ∧
      now + net.get_time loc s.node + dwellVal cfg act loc s < s.r.entry_time
  · rw [if_pos e]; omega
  · rw [if_neg e]; omega

/-- In a feasible execution from `(loc, now)`, every served stop is
directly reachable within its deadline: the direct leg lower-bounds
the actual visit time (triangle inequality), and the visit meets the
deadline. -/
lemma exec_reach {net cfg} (Hn : NetNonneg net cfg) (Htri : TriangleNet net) :
    ∀ {loc cap now act F σ T}, ExecOk net cfg loc cap now act F σ T →
      ∀ s ∈ σ, now + net.get_time loc s.node ≤ deadlineOf s := by
  intro loc cap now act F σ T h
  induction h with
  | done loc cap now act => intro s hs; cases hs
  | step loc cap now act pre post m σ T h1 h2 h3 hrec ih =>
    intro s hs
    rcases List.mem_cons.mp hs with he | hmem
    · subst he
      have harr := arrival_ge_travel Hn act loc now m.stop
      rw [deadlineOf]
      by_cases hp : m.stop.is_pickup = true
      · rw [if_pos hp]; exact le_trans harr (h2 hp)
      · rw [if_neg hp]; exact le_trans harr h3
    · have hih := ih s hmem
      have harr := arrival_ge_travel Hn act loc now m.stop
      have htr := Htri loc m.stop.node s.node
      omega

lemma stepCand_val {net cfg loc cap now rec prev_act pre rest2 m bt t2 tl2}
    (h : stepCand net cfg loc cap now rec prev_act pre rest2 m bt = some (t2, tl2)) :
    t2 ≠ -1 ∧ (bt = -1 ∨ t2 < bt) := by
  rw [stepCand] at h
  by_cases c1 : bt ≠ -1 ∧ bt ≤ arrivalAt net cfg prev_act loc now m.stop
  · rw [if_pos c1] at h; exact absurd h (by simp)
  rw [if_neg c1] at h
  by_cases c2 : (if m.stop.is_pickup then cap - 1 else cap + 1) < 0
  · rw [if_pos c2] at h; exact absurd h (by simp)
  rw [if_neg c2] at h
  by_cases c3 : m.stop.is_pickup ∧
      m.stop.r.latest_boarding < arrivalAt net cfg prev_act loc now m.stop
  · rw [if_pos c3] at h; exact absurd h (by simp)
  rw [if_neg c3] at h
  by_cases c4 : get_alight_deadline m.stop.r < arrivalAt net cfg prev_act loc now m.stop
  · rw [if_pos c4] at h; exact absurd h (by simp)
  rw [if_neg c4] at h
  by_cases c5 : ¬ reachOK net (arrivalAt net cfg prev_act loc now m.stop) m.stop.node
      (pre.reverse ++ rest2 ++ m.unlocks) = true
  · rw [if_pos c5] at h; exact absurd h (by simp)
  rw [if_neg c5] at h
  rcases hrec : rec m.stop.node (if m.stop.is_pickup then cap - 1 else cap + 1)
      (pre.reverse ++ rest2 ++ m.unlocks) (arrivalAt net cfg prev_act loc now m.stop) bt
      (actOf m.stop) with ⟨tt, ts⟩
  rw [hrec] at h
  replace h : (if tt = -1 then (none : Option (Int × List NodeStop))
      else if bt = -1 ∨ tt < bt then some (tt, ts ++ [m.stop]) else none) = some (t2, tl2) := h
  by_cases d1 : tt = -1
  · rw [if_pos d1] at h; exact absurd h (by simp)
  rw [if_neg d1] at h
  by_cases d2 : bt = -1 ∨ tt < bt
  · rw [if_pos d2] at h
    injection h with h2
    have ht2 := congrArg Prod.fst h2
    simp only at ht2
    rw [← ht2]
    exact ⟨d1, d2⟩
  · rw [if_neg d2] at h; exact absurd h (by simp)

lemma searchLoop_mono {net cfg loc cap now rec prev_act} :
    ∀ (rest pre : List MetaNS) (bt : Int) (btail : List NodeStop)
      (previous : Option NodeStop),
      searchLoop net cfg loc cap now rec prev_act pre rest bt btail previous = (bt, btail) ∨
      ((searchLoop net cfg loc cap now rec prev_act pre rest bt btail previous).1 ≠ -1 ∧
        (bt = -1 ∨
          (searchLoop net cfg loc cap now rec prev_act pre rest bt btail previous).1 < bt)) := by
  intro rest
  induction rest with
  | nil =>
    intro pre bt btail previous
    rw [searchLoop]
    exact Or.inl rfl
  | cons m rest2 ih =>
    intro pre bt btail previous
    rw [searchLoop]
    by_cases hskip : skipDup previous m = true
    · rw [if_pos hskip]
      exact ih (m :: pre) bt btail previous
    · rw [if_neg hskip]
      rcases hsc : stepCand net cfg loc cap now rec prev_act pre rest2 m bt with _ | ⟨t2, tl2⟩
      · simp only
        exact ih (m :: pre) bt btail (some m.stop)
      · simp only
        obtain ⟨hne, hlt⟩ := stepCand_val hsc
        rcases ih (m :: pre) t2 tl2 (some m.stop) with he | ⟨h1, h2⟩
        · rw [he]
          exact Or.inr ⟨hne, hlt⟩
        · refine Or.inr ⟨h1, ?_⟩
          rcases hlt with hlt | hlt
          · exact Or.inl hlt
          · rcases h2 with h2 | h2
            · exact absurd h2 hne
            · exact Or.inr (by omega)

lemma searchLoop_le {net cfg loc cap now rec prev_act} (B : Int)
    (rest pre : List MetaNS) (bt : Int) (btail : List NodeStop) (previous : Option NodeStop)
    (hbt : bt ≠ -1) (hle : bt ≤ B) :
    (searchLoop net cfg loc cap now rec prev_act pre rest bt btail previous).1 ≠ -1 ∧
    (searchLoop net cfg loc cap now rec prev_act pre rest bt btail previous).1 ≤ B := by
  rcases searchLoop_mono rest pre bt btail previous with he | ⟨h1, h2⟩
  · rw [he]; exact ⟨hbt, hle⟩
  · refine ⟨h1, ?_⟩
    rcases h2 with h2 | h2
    · exact absurd h2 hbt
    · omega

/-- Shape invariant of the `FULL`-policy forests: every unlocked child
is a leaf (a pickup unlocks just its dropoff; onboard dropoffs unlock
nothing). -/
def FullForest (F : List MetaNS) : Prop := ∀ m ∈ F, ∀ c ∈ m.unlocks, c.unlocks = []

/-- The order respects the forest's unlock edges: every locked child is
served strictly after its parent. -/
def ChildAfter (F : List MetaNS) (σ : List NodeStop) : Prop :=
  ∀ m ∈ F, ∀ c ∈ m.unlocks, ∃ σa σb, σ = σa ++ m.stop :: σb ∧ c.stop ∈ σb

lemma flatL_leaf_mem : ∀ {us : List MetaNS}, (∀ c ∈ us, c.unlocks = []) →
    ∀ {s : NodeStop}, s ∈ flatL us → ∃ c ∈ us, c.stop = s := by
  intro us
  induction us with
  | nil => intro _ s hs; rw [flatL_nil] at hs; cases hs
  | cons c cs ih =>
    intro h s hs
    rw [flatL_cons'] at hs
    rcases List.mem_cons.mp hs with he | hm
    · exact ⟨c, List.mem_cons_self _ _, he.symm⟩
    · rcases List.mem_append.mp hm with hm | hm
      · rw [h c (List.mem_cons_self _ _), flatL_nil] at hm
        cases hm
      · obtain ⟨c2, hc2, he2⟩ := ih (fun x hx => h x (List.mem_cons_of_mem _ hx)) hm
        exact ⟨c2, List.mem_cons_of_mem _ hc2, he2⟩

lemma flatL_root_or_child : ∀ {F : List MetaNS}, FullForest F →
    ∀ {s : NodeStop}, s ∈ flatL F →
      (∃ m ∈ F, m.stop = s) ∨ (∃ m ∈ F, ∃ c ∈ m.unlocks, c.stop = s) := by
  intro F
  induction F with
  | nil => intro _ s hs; rw [flatL_nil] at hs; cases hs
  | cons x ms ih =>
    intro hFF s hs
    rw [flatL_cons'] at hs
    rcases List.mem_cons.mp hs with he | hm
    · exact Or.inl ⟨x, List.mem_cons_self _ _, he.symm⟩
    · rcases List.mem_append.mp hm with hm | hm
      · obtain ⟨c, hc, he⟩ := flatL_leaf_mem (hFF x (List.mem_cons_self _ _)) hm
        exact Or.inr ⟨x, List.mem_cons_self _ _, c, hc, he⟩
      · rcases ih (fun m hm2 => hFF m (List.mem_cons_of_mem _ hm2)) hm with
          ⟨m, hmm, he⟩ | ⟨m, hmm, c, hc, he⟩
        · exact Or.inl ⟨m, List.mem_cons_of_mem _ hmm, he⟩
        · exact Or.inr ⟨m, List.mem_cons_of_mem _ hmm, c, hc, he⟩

/-- Bridge from the specification-side validity checker to a complete
feasible execution of a `FULL`-shape forest. -/
lemma exec_build {net cfg} :
    ∀ (σ : List NodeStop) (F : List MetaNS) (loc cap now : Int) (act : Action),
      checkSeq net cfg loc cap now act σ = true →
      σ.Perm (flatL F) →
      σ.Nodup →
      FullForest F →
      ChildAfter F σ →
      ExecOk net cfg loc cap now act F σ (seqEnd net cfg loc now act σ) := by
  intro σ
  induction σ with
  | nil =>
    intro F loc cap now act _ hperm _ _ _
    have hF : F = [] := flatL_eq_nil (List.Perm.nil_eq hperm).symm
    subst hF
    rw [seqEnd]
    exact ExecOk.done loc cap now act
  | cons s σ2 ih =>
    intro F loc cap now act hck hperm hnd hFF hCA
    have hsmem : s ∈ flatL F := hperm.mem_iff.mp (List.mem_cons_self _ _)
    rcases flatL_root_or_child hFF hsmem with ⟨m, hmF, hms⟩ | ⟨m, hmF, c, hc, hcs⟩
    · subst hms
      obtain ⟨Fa, Fb, rfl⟩ := List.append_of_mem hmF
      rw [checkSeq] at hck
      simp only [Bool.and_eq_true, decide_eq_true_eq, Bool.or_eq_true, Bool.not_eq_true',
        decide_eq_true_eq] at hck
      obtain ⟨⟨⟨hcap, hboard⟩, halight⟩, htail⟩ := hck
      have hflatF : flatL (Fa ++ m :: Fb) =
          flatL Fa ++ m.stop :: (flatL m.unlocks ++ flatL Fb) := by
        rw [flatL_append, flatL_cons']
      have hperm2 : σ2.Perm (flatL (Fa ++ Fb ++ m.unlocks)) := by
        have h1 : (m.stop :: σ2).Perm
            (m.stop :: (flatL Fa ++ (flatL m.unlocks ++ flatL Fb))) := by
          refine hperm.trans ?_
          rw [hflatF]
          exact List.perm_middle
        have h2 := h1.cons_inv
        refine h2.trans ?_
        rw [flatL_append, flatL_append, List.append_assoc]
        exact List.Perm.append_left _ List.perm_append_comm
      have hnd2 : σ2.Nodup := (List.nodup_cons.mp hnd).2
      have hsnot : m.stop ∉ σ2 := (List.nodup_cons.mp hnd).1
      have hFF2 : FullForest (Fa ++ Fb ++ m.unlocks) := by
        intro m2 hm2 c2 hc2
        rcases List.mem_append.mp hm2 with hm2 | hm2
        · rcases List.mem_append.mp hm2 with hm2 | hm2
          · exact hFF m2 (List.mem_append.mpr (Or.inl hm2)) c2 hc2
          · exact hFF m2 (List.mem_append.mpr (Or.inr (List.mem_cons_of_mem _ hm2))) c2 hc2
        · have := hFF m (List.mem_append.mpr (Or.inr (List.mem_cons_self _ _))) m2 hm2
          rw [this] at hc2
          cases hc2
      have hCA2 : ChildAfter (Fa ++ Fb ++ m.unlocks) σ2 := by
        intro m2 hm2 c2 hc2
        rcases List.mem_append.mp hm2 with hm2 | hm2
        · have hm2F : m2 ∈ Fa ++ m :: Fb := by
            rcases List.mem_append.mp hm2 with hm2 | hm2
            · exact List.mem_append.mpr (Or.inl hm2)
            · exact List.mem_append.mpr (Or.inr (List.mem_cons_of_mem _ hm2))
          obtain ⟨σa, σb, heq, hcb⟩ := hCA m2 hm2F c2 hc2
          cases σa with
          | nil =>
            simp only [List.nil_append] at heq
            injection heq with h1 h2
            have hcount : 2 ≤ List.count m.stop (flatL (Fa ++ m :: Fb)) := by
              rw [hflatF, List.count_append, List.count_cons_self]
              have hmem2 : m.stop ∈ flatL Fa ∨ m.stop ∈ flatL Fb := by
                rcases List.mem_append.mp hm2 with hm2 | hm2
                · left; rw [h1]; exact root_mem_flatL hm2
                · right; rw [h1]; exact root_mem_flatL hm2
              rcases hmem2 with hmem2 | hmem2
              · have := List.count_pos_iff_mem.mpr hmem2
                omega
              · have h3 : 0 < List.count m.stop (flatL m.unlocks ++ flatL Fb) :=
                  List.count_pos_iff_mem.mpr (List.mem_append.mpr (Or.inr hmem2))
                omega
            have hle : List.count m.stop (m.stop :: σ2) ≤ 1 :=
              List.nodup_iff_count_le_one.mp hnd m.stop
            rw [hperm.count_eq] at hle
            omega
          | cons a σa2 =>
            injection heq with h1 h2
            exact ⟨σa2, σb, h2, hcb⟩
        · have := hFF m (List.mem_append.mpr (Or.inr (List.mem_cons_self _ _))) m2 hm2
          rw [this] at hc2
          cases hc2
      rw [seqEnd]
      refine ExecOk.step loc cap now act Fa Fb m σ2 _ hcap ?_ halight ?_
      · intro hp
        rcases hboard with hb | hb
        · rw [hp] at hb; cases hb
        · exact hb
      · exact ih (Fa ++ Fb ++ m.unlocks) m.stop.node (capAfter m.stop cap)
          (arrivalAt net cfg act loc now m.stop) (actOf m.stop) htail hperm2 hnd2 hFF2 hCA2
    · obtain ⟨σa, σb, heq, hcb⟩ := hCA m hmF c hc
      exfalso
      cases σa with
      | nil =>
        simp only [List.nil_append] at heq
        injection heq with h1 h2
        have hsin : s ∈ σ2 := by
          rw [h2, ← hcs]
          exact hcb
        exact (List.nodup_cons.mp hnd).1 hsin
      | cons a σa2 =>
        injection heq with h1 h2
        have hsin : s ∈ σ2 := by
          rw [h2, ← hcs]
          exact List.mem_append.mpr (Or.inr (List.mem_cons_of_mem _ hcb))
        exact (List.nodup_cons.mp hnd).1 hsin

lemma searchLoop_complete {net : Network} {cfg : Config} {loc cap now : Int}
    {rec : Int → Int → List MetaNS → Int → Int → Action → Int × List NodeStop}
    {prev_act : Action} {K : Nat}
    (Hn : NetNonneg net cfg) (Htri : TriangleNet net)
    (Hrec : ∀ (loc2 cap2 : Int) (avail2 : List MetaNS) (now2 bt2 : Int) (act2 : Action)
      (σ2 : List NodeStop) (T2 : Int),
      (flatL avail2).length < K → 0 ≤ now2 → NodeSafe (flatL avail2) →
      ExecOk net cfg loc2 cap2 now2 act2 avail2 σ2 T2 →
      (rec loc2 cap2 avail2 now2 bt2 act2).1 ≠ -1 ∧
        (rec loc2 cap2 avail2 now2 bt2 act2).1 ≤ T2) :
    ∀ (F1 : List MetaNS) (m : MetaNS) (F2 pre : List MetaNS) (bt : Int)
      (btail : List NodeStop) (previous : Option NodeStop) (σ : List NodeStop) (T : Int),
      0 ≤ now →
      (flatL (pre ++ (F1 ++ m :: F2))).length ≤ K →
      NodeSafe (flatL (pre ++ (F1 ++ m :: F2))) →
      (∀ p, previous = some p → ∃ x ∈ pre, x.stop = p) →
      0 ≤ capAfter m.stop cap →
      (m.stop.is_pickup = true →
        arrivalAt net cfg prev_act loc now m.stop ≤ m.stop.r.latest_boarding) →
      arrivalAt net cfg prev_act loc now m.stop ≤ m.stop.r.latest_alighting →
      ExecOk net cfg m.stop.node (capAfter m.stop cap)
        (arrivalAt net cfg prev_act loc now m.stop) (actOf m.stop)
        (pre ++ F1 ++ F2 ++ m.unlocks) σ T →
      (searchLoop net cfg loc cap now rec prev_act pre (F1 ++ m :: F2) bt btail previous).1
        ≠ -1 ∧
      (searchLoop net cfg loc cap now rec prev_act pre (F1 ++ m :: F2) bt btail previous).1
        ≤ T := by
  intro F1
  induction F1 with
  | nil =>
    intro m F2 pre bt btail previous σ T h0 hK hdn hprev hg1 hg2 hg3 hex
    rw [List.nil_append] at hK hdn ⊢
    rw [List.append_nil] at hex
    have hskip : skipDup previous m = false := by
      cases hpv : previous with
      | none => rw [skipDup]
      | some p =>
        rw [skipDup]
        by_cases hpu : m.stop.is_pickup = true
        · simp [hpu]
        · obtain ⟨x, hx, hxs⟩ := hprev p hpv
          have hd := (List.pairwise_append.mp (by rwa [flatL_append] at hdn)).2.2
          have h1 : x.stop ∈ flatL pre := root_mem_flatL hx
          have h2 : m.stop ∈ flatL (m :: F2) := root_mem_flatL (List.mem_cons_self _ _)
          have hne : p.node ≠ m.stop.node := by
            rcases hd x.stop h1 m.stop h2 with h3 | ⟨_, h3⟩
            · rw [← hxs]
              exact h3
            · exact absurd h3 hpu
          simp [hne]
    have hskip' : ¬ skipDup previous m = true := by rw [hskip]; simp
    rw [searchLoop, if_neg hskip']
    have harrT : arrivalAt net cfg prev_act loc now m.stop ≤ T := exec_ge_now Hn hex
    by_cases hbc : bt ≠ -1 ∧ bt ≤ arrivalAt net cfg prev_act loc now m.stop
    · have hsc : stepCand net cfg loc cap now rec prev_act pre F2 m bt = none := by
        rw [stepCand, if_pos hbc]
      rw [hsc]
      simp only
      exact searchLoop_le T F2 (m :: pre) bt btail (some m.stop) hbc.1
        (le_trans hbc.2 harrT)
    · have hcap' : ¬ ((if m.stop.is_pickup then cap - 1 else cap + 1) < 0) := by
        have h := hg1
        rw [capAfter] at h
        omega
      have hb' : ¬ (m.stop.is_pickup = true ∧
          m.stop.r.latest_boarding < arrivalAt net cfg prev_act loc now m.stop) := by
        rintro ⟨hp, hlt⟩
        have := hg2 hp
        omega
      have ha' : ¬ (get_alight_deadline m.stop.r <
          arrivalAt net cfg prev_act loc now m.stop) := by
        rw [get_alight_deadline]
        omega
      have hexr : ExecOk net cfg m.stop.node (capAfter m.stop cap)
          (arrivalAt net cfg prev_act loc now m.stop) (actOf m.stop)
          (pre.reverse ++ F2 ++ m.unlocks) σ T := by
        refine hex.perm _ ?_
        exact List.Perm.append_right _ (List.Perm.append_right _ (List.reverse_perm pre).symm)
      have hreach : reachOK net (arrivalAt net cfg prev_act loc now m.stop) m.stop.node
          (pre.reverse ++ F2 ++ m.unlocks) = true := by
        rw [reachOK, List.all_eq_true]
        intro x hx
        rw [decide_eq_true_eq]
        have hxσ : x.stop ∈ σ := (exec_stops hexr).mem_iff.mpr (root_mem_flatL hx)
        exact exec_reach Hn Htri hexr x.stop hxσ
      have hreach' : ¬ ¬ reachOK net (arrivalAt net cfg prev_act loc now m.stop) m.stop.node
          (pre.reverse ++ F2 ++ m.unlocks) = true := fun hcon => hcon hreach
      have e1 : flatL (pre ++ m :: F2) =
          flatL pre ++ (m.stop :: (flatL m.unlocks ++ flatL F2)) := by
        rw [flatL_append, flatL_cons']
      have hlen2 : (flatL (pre.reverse ++ F2 ++ m.unlocks)).length < K := by
        rw [e1] at hK
        simp only [List.length_append, List.length_cons] at hK
        rw [flatL_append, flatL_append]
        simp only [List.length_append]
        have hrl := (flatL_perm (List.reverse_perm pre)).length_eq
        omega
      have hp1 : (flatL (pre ++ m :: F2)).Perm
          (m.stop :: flatL (pre.reverse ++ F2 ++ m.unlocks)) := by
        rw [e1, flatL_append, flatL_append]
        refine List.Perm.trans List.perm_middle ?_
        refine List.Perm.cons _ ?_
        have hA : (flatL pre).Perm (flatL pre.reverse) :=
          flatL_perm (List.reverse_perm pre).symm
        have hBC : (flatL m.unlocks ++ flatL F2).Perm (flatL F2 ++ flatL m.unlocks) :=
          List.perm_append_comm
        exact (hA.append hBC).trans (by rw [List.append_assoc])
      have hdn2 : NodeSafe (flatL (pre.reverse ++ F2 ++ m.unlocks)) :=
        List.Pairwise.of_cons (hdn.perm_nodes hp1)
      have harr0 : 0 ≤ arrivalAt net cfg prev_act loc now m.stop :=
        le_trans h0 (arrival_ge_now Hn prev_act loc now m.stop)
      rcases hrr : rec m.stop.node (if m.stop.is_pickup then cap - 1 else cap + 1)
          (pre.reverse ++ F2 ++ m.unlocks) (arrivalAt net cfg prev_act loc now m.stop) bt
          (actOf m.stop) with ⟨tt, ts⟩
      have hrec2 := Hrec m.stop.node (if m.stop.is_pickup then cap - 1 else cap + 1)
        (pre.reverse ++ F2 ++ m.unlocks) (arrivalAt net cfg prev_act loc now m.stop) bt
        (actOf m.stop) σ T hlen2 harr0 hdn2 hexr
      rw [hrr] at hrec2
      simp only at hrec2
      obtain ⟨htt, httT⟩ := hrec2
      have hsc : stepCand net cfg loc cap now rec prev_act pre F2 m bt =
          (if bt = -1 ∨ tt < bt then some (tt, ts ++ [m.stop]) else none) := by
        rw [stepCand, if_neg hbc, if_neg hcap', if_neg hb', if_neg ha', if_neg hreach', hrr]
        simp only [if_neg htt]
      rw [hsc]
      by_cases had : bt = -1 ∨ tt < bt
      · rw [if_pos had]
        simp only
        exact searchLoop_le T F2 (m :: pre) tt (ts ++ [m.stop]) (some m.stop) htt httT
      · rw [if_neg had]
        simp only
        push_neg at had
        exact searchLoop_le T F2 (m :: pre) bt btail (some m.stop) had.1
          (le_trans had.2 httT)
  | cons x F1x ih =>
    intro m F2 pre bt btail previous σ T h0 hK hdn hprev hg1 hg2 hg3 hex
    have hpcore : (pre ++ (x :: (F1x ++ m :: F2))).Perm ((x :: pre) ++ (F1x ++ m :: F2)) :=
      List.perm_middle
    have hpfor : ((pre ++ (x :: F1x)) ++ F2 ++ m.unlocks).Perm
        (((x :: pre) ++ F1x) ++ F2 ++ m.unlocks) :=
      List.Perm.append_right _ (List.Perm.append_right _ List.perm_middle)
    have hK' : (flatL ((x :: pre) ++ (F1x ++ m :: F2))).length ≤ K := by
      rw [← (flatL_perm hpcore).length_eq]
      exact hK
    have hdn' : NodeSafe (flatL ((x :: pre) ++ (F1x ++ m :: F2))) :=
      hdn.perm_nodes (flatL_perm hpcore)
    have hex' : ExecOk net cfg m.stop.node (capAfter m.stop cap)
        (arrivalAt net cfg prev_act loc now m.stop) (actOf m.stop)
        ((x :: pre) ++ F1x ++ F2 ++ m.unlocks) σ T :=
      hex.perm _ hpfor
    rw [List.cons_append, searchLoop]
    by_cases hskip : skipDup previous x = true
    · rw [if_pos hskip]
      refine ih m F2 (x :: pre) bt btail previous σ T h0 hK' hdn' ?_ hg1 hg2 hg3 hex'
      intro p hp
      obtain ⟨y, hy, hys⟩ := hprev p hp
      exact ⟨y, List.mem_cons_of_mem _ hy, hys⟩
    · rw [if_neg hskip]
      rcases hsc : stepCand net cfg loc cap now rec prev_act pre (F1x ++ m :: F2) x bt with
        _ | ⟨t2, tl2⟩
      · simp only
        exact ih m F2 (x :: pre) bt btail (some x.stop) σ T h0 hK' hdn'
          (fun p hp => ⟨x, List.mem_cons_self _ _, Option.some.inj hp⟩)
          hg1 hg2 hg3 hex'
      · simp only
        exact ih m F2 (x :: pre) t2 tl2 (some x.stop) σ T h0 hK' hdn'
          (fun p hp => ⟨x, List.mem_cons_self _ _, Option.some.inj hp⟩)
          hg1 hg2 hg3 hex'

/-- Completeness of the bounded search: if any complete feasible
execution of the forest exists, the search (with sufficient fuel, a
metric network and node-safe stops) returns a finite best time no
worse than that execution's completion time. -/
theorem recursive_search_complete {net : Network} {cfg : Config}
    (Hn : NetNonneg net cfg) (Htri : TriangleNet net) :
    ∀ (fuel : Nat) (loc cap : Int) (avail : List MetaNS) (now bt : Int) (act : Action)
      (σ : List NodeStop) (T : Int),
      (flatL avail).length < fuel → 0 ≤ now → NodeSafe (flatL avail) →
      ExecOk net cfg loc cap now act avail σ T →
      (recursive_search net cfg fuel loc cap avail now bt act).1 ≠ -1 ∧
      (recursive_search net cfg fuel loc cap avail now bt act).1 ≤ T := by
  intro fuel
  induction fuel with
  | zero =>
    intro loc cap avail now bt act σ T hlen
    exact absurd hlen (Nat.not_lt_zero _)
  | succ fuel ihf =>
    intro loc cap avail now bt act σ T hlen h0 hdn hex
    rw [recursive_search]
    rcases hss : sortMeta avail with _ | ⟨m0, srest⟩
    · have ha : avail = [] := sortMeta_eq_nil hss
      subst ha
      rcases exec_inv hex with ⟨_, hσ, hT⟩ | ⟨pre, post, m, σ2, hF, _⟩
      · refine ⟨?_, ?_⟩
        · show now ≠ -1
          omega
        · show now ≤ T
          omega
      · exact absurd hF (by simp)
    · simp only
      have hexs : ExecOk net cfg loc cap now act (m0 :: srest) σ T := by
        refine hex.perm _ ?_
        rw [← hss]
        exact (sortMeta_perm avail).symm
      rcases exec_inv hexs with ⟨hF, _, _⟩ | ⟨pre, post, m, σ2, hF, hσ, hg1, hg2, hg3, htail⟩
      · exact absurd hF (by simp)
      · rw [hF]
        have hlext : (flatL (m0 :: srest)).length = (flatL avail).length := by
          rw [← hss]
          exact (flatL_perm (sortMeta_perm avail)).length_eq
        have hK : (flatL ([] ++ (pre ++ m :: post))).length ≤ fuel := by
          rw [List.nil_append, ← hF, hlext]
          omega
        have hdn' : NodeSafe (flatL ([] ++ (pre ++ m :: post))) := by
          rw [List.nil_append, ← hF, ← hss]
          exact hdn.perm_nodes (flatL_perm (sortMeta_perm avail).symm)
        exact searchLoop_complete Hn Htri
          (fun loc2 cap2 avail2 now2 bt2 act2 σ2b T2 ha2 hb2 hc2 hd2 =>
            ihf loc2 cap2 avail2 now2 bt2 act2 σ2b T2 ha2 hb2 hc2 hd2)
          pre m post [] bt [] none σ2 T h0 hK hdn'
          (fun p hp => Option.noConfusion hp) hg1 hg2 hg3 htail

/-- The specification-side notion of a valid plan for `(v, R, t)`: a
stop sequence over exactly the pickups and dropoffs of `R` plus the
onboard dropoffs, with every pickup preceding its dropoff, that passes
the capacity and time-window replay of section 4.2. -/
def ValidPlan (net : Network) (cfg : Config) (veh : Vehicle) (R : List Request)
    (t : Int) (σ : List NodeStop) : Prop :=
  σ.Perm ((R.flatMap fun r => [puStop r, doStop r]) ++
    onboardStops veh.passengers veh.order_record) ∧
  (∀ r ∈ R, ∃ σa σb, σ = σa ++ puStop r :: σb ∧ doStop r ∈ σb) ∧
  checkSeq net cfg veh.node ((veh.capacity : Int) - (veh.passengers.length : Int))
    (t + veh.offset) Action.no_action σ = true

lemma buildAvail_eq_full {cfg : Config} (veh : Vehicle) (R : List Request)
    (hcfg : cfg.CTSP = "FULL") :
    buildAvail cfg veh R = R.map pickupTree ++
      (onboardStops veh.passengers veh.order_record).map fun s => MetaNS.mk s [] := by
  rw [buildAvail]
  have hlock : fixOnboardLock cfg veh R = false := by
    rw [fixOnboardLock, hcfg]
    simp
  rw [if_neg (by rw [hlock]; simp)]

lemma fullForest_buildAvail {cfg : Config} (veh : Vehicle) (R : List Request)
    (hcfg : cfg.CTSP = "FULL") : FullForest (buildAvail cfg veh R) := by
  rw [buildAvail_eq_full veh R hcfg]
  intro m hm c hc
  rcases List.mem_append.mp hm with hm | hm
  · obtain ⟨r, _, he⟩ := List.mem_map.mp hm
    rw [← he, pickupTree, MetaNS.unlocks] at hc
    have hc2 : c = MetaNS.mk ⟨r, false, r.destination⟩ [] := by simpa using hc
    rw [hc2, MetaNS.unlocks]
  · obtain ⟨s, _, he⟩ := List.mem_map.mp hm
    rw [← he, MetaNS.unlocks] at hc
    cases hc

lemma childAfter_buildAvail {net : Network} {cfg : Config} {veh : Vehicle} {R : List Request}
    {t : Int} {σ : List NodeStop} (hcfg : cfg.CTSP = "FULL")
    (hvp : ValidPlan net cfg veh R t σ) : ChildAfter (buildAvail cfg veh R) σ := by
  rw [buildAvail_eq_full veh R hcfg]
  intro m hm c hc
  rcases List.mem_append.mp hm with hm | hm
  · obtain ⟨r, hr, he⟩ := List.mem_map.mp hm
    rw [← he, pickupTree, MetaNS.unlocks] at hc
    have hc2 : c = MetaNS.mk ⟨r, false, r.destination⟩ [] := by simpa using hc
    obtain ⟨σa, σb, heq, hmem⟩ := hvp.2.1 r hr
    refine ⟨σa, σb, ?_, ?_⟩
    · rw [← he, pickupTree, MetaNS.stop]
      exact heq
    · rw [hc2, MetaNS.stop]
      exact hmem
  · obtain ⟨s, _, he⟩ := List.mem_map.mp hm
    rw [← he, MetaNS.unlocks] at hc
    cases hc

lemma onboardScan_ids_nodup : ∀ (rl : List NodeStop) (ob : List Nat),
    ((onboardScan ob rl).map fun s => s.r.id).Nodup := by
  intro rl
  induction rl with
  | nil => intro ob; rw [onboardScan]; exact List.nodup_nil
  | cons ns rest ih =>
    intro ob
    rw [onboardScan]
    by_cases h : ob.contains ns.r.id = true
    · rw [if_pos h]
      simp only [List.map_cons]
      refine List.nodup_cons.mpr ⟨?_, ih _⟩
      intro hmem
      rcases List.mem_map.mp hmem with ⟨s, hs, hid⟩
      have hfil := (onboardScan_mem _ _ hs).2
      rw [hid] at hfil
      have := List.of_mem_filter hfil
      simp at this
    · rw [if_neg h]
      exact ih ob

lemma flatMap_pudo_length (R : List Request) :
    (R.flatMap fun r => [puStop r, doStop r]).length = 2 * R.length := by
  induction R with
  | nil => rfl
  | cons r rest ih =>
    rw [List.flatMap_cons]
    simp [ih]
    omega

lemma pudo_keys_nodup : ∀ (R : List Request), (pIds R).Nodup →
    ((R.flatMap fun r => [puStop r, doStop r]).map fun s => (s.r.id, s.is_pickup)).Nodup := by
  intro R
  induction R with
  | nil => intro _; exact List.nodup_nil
  | cons r rest ih =>
    intro hnd
    have hnd2 : (pIds rest).Nodup := (List.nodup_cons.mp hnd).2
    have hrid : r.id ∉ pIds rest := (List.nodup_cons.mp hnd).1
    rw [List.flatMap_cons]
    simp only [List.map_append, List.map_cons, List.map_nil]
    have hkey : ∀ k ∈ (rest.flatMap fun q => [puStop q, doStop q]).map
        fun s => (s.r.id, s.is_pickup), k.1 ∈ pIds rest := by
      intro k hk
      rcases List.mem_map.mp hk with ⟨s, hs, he⟩
      rcases List.mem_flatMap.mp hs with ⟨q, hq, hsq⟩
      have hsid : s.r.id = q.id := by
        rcases List.mem_cons.mp hsq with h1 | h1
        · rw [h1, puStop]
        · rcases List.mem_cons.mp h1 with h1 | h1
          · rw [h1, doStop]
          · exact absurd h1 (List.not_mem_nil _)
      rw [← he, hsid]
      exact List.mem_map.mpr ⟨q, hq, rfl⟩
    refine List.nodup_cons.mpr ⟨?_, List.nodup_cons.mpr ⟨?_, ih hnd2⟩⟩
    · intro hmem
      rcases List.mem_cons.mp hmem with he | hmem
      · rw [puStop, doStop] at he
        simp at he
      · have := hkey _ hmem
        rw [puStop] at this
        exact hrid this
    · intro hmem
      have := hkey _ hmem
      rw [doStop] at this
      exact hrid this

lemma travel_stops_nodup (veh : Vehicle) (R : List Request)
    (hnodup : (pIds R).Nodup)
    (hdisj : ∀ i ∈ pIds R, i ∉ pIds veh.passengers) :
    ((R.flatMap fun r => [puStop r, doStop r]) ++
      onboardStops veh.passengers veh.order_record).Nodup := by
  refine List.Nodup.of_map (fun s => (s.r.id, s.is_pickup)) ?_
  rw [List.map_append]
  refine List.Nodup.append (pudo_keys_nodup R hnodup) ?_ ?_
  · refine List.Nodup.of_map Prod.fst ?_
    rw [List.map_map]
    exact onboardScan_ids_nodup veh.order_record (veh.passengers.map fun p => p.id)
  · intro k hk hk2
    rcases List.mem_map.mp hk with ⟨s, hs, he⟩
    rcases List.mem_map.mp hk2 with ⟨s2, hs2, he2⟩
    rcases List.mem_flatMap.mp hs with ⟨q, hq, hsq⟩
    have hsid : s.r.id = q.id := by
      rcases List.mem_cons.mp hsq with h1 | h1
      · rw [h1, puStop]
      · rcases List.mem_cons.mp h1 with h1 | h1
        · rw [h1, doStop]
        · exact absurd h1 (List.not_mem_nil _)
    have hid2 : s2.r.id ∈ pIds veh.passengers := by
      have := (onboardScan_mem _ _ hs2).2
      rwa [pIds]
    have hkeq : s.r.id = s2.r.id := by
      have := he.trans he2.symm
      exact congrArg Prod.fst this
    have : q.id ∈ pIds veh.passengers := by
      rw [← hsid, hkeq]
      exact hid2
    exact hdisj q.id (List.mem_map.mpr ⟨q, hq, rfl⟩) this

/-- Claim C2 (amended): under the `FULL` reordering policy and the
`CTSP_VTT` objective, the untimed feasibility search decides
feasibility exactly — provided travel and dwell times are nonnegative
and satisfy the triangle inequality, the starting clock
`t + veh.offset` is nonnegative, the request ids are distinct and
disjoint from the passengers', and no dropoff shares a node with any
other stop (pickups may share nodes).  It returns `(-1, [])` precisely
when no valid plan exists, and otherwise a valid plan whose completion
time is minimal among all valid plans, with the cost equal to
completion time minus the current time.  Each restriction is forced by
a concrete failure: see the counterexample. -/
theorem search_exactness (cfg : Config) (veh : Vehicle) (R : List Request) (net : Network)
    (t : Int)
    (hcfg : cfg.CTSP = "FULL") (hobj : cfg.CTSP_OBJECTIVE = "CTSP_VTT")
    (Hn : NetNonneg net cfg) (Htri : TriangleNet net)
    (hids : (pIds R).Nodup)
    (hdisj : ∀ i ∈ pIds R, i ∉ pIds veh.passengers)
    (hdn : NodeSafe ((R.flatMap fun r => [puStop r, doStop r]) ++
      onboardStops veh.passengers veh.order_record))
    (hnow : 0 ≤ t + veh.offset) :
    ∃ c ord, travel cfg veh R net t trigSTANDARD = some (c, ord) ∧
      ((c = -1 ∧ ord = [] ∧ ∀ σ, ¬ ValidPlan net cfg veh R t σ) ∨
       (ValidPlan net cfg veh R t ord ∧
        c + t = seqEnd net cfg veh.node (t + veh.offset) Action.no_action ord ∧
        ∀ σ, ValidPlan net cfg veh R t σ →
          seqEnd net cfg veh.node (t + veh.offset) Action.no_action ord ≤
          seqEnd net cfg veh.node (t + veh.offset) Action.no_action σ)) := by
  have hobs_ids : ∀ s ∈ onboardStops veh.passengers veh.order_record, s.r.id ∉ pIds R := by
    intro s hs hmem
    exact hdisj s.r.id hmem (onboardScan_mem _ _ hs).2
  have hnodupS := travel_stops_nodup veh R hids hdisj
  have hbridge : ∀ σ, ValidPlan net cfg veh R t σ →
      ExecOk net cfg veh.node ((veh.capacity : Int) - (veh.passengers.length : Int))
        (t + veh.offset) Action.no_action (buildAvail cfg veh R) σ
        (seqEnd net cfg veh.node (t + veh.offset) Action.no_action σ) := by
    intro σ hvp
    refine exec_build σ _ _ _ _ _ hvp.2.2 ?_ ?_ (fullForest_buildAvail veh R hcfg)
      (childAfter_buildAvail hcfg hvp)
    · rw [flatL_buildAvail]
      exact hvp.1
    · exact (hvp.1.nodup_iff).mpr hnodupS
  have hcomp0 : (0 : Int) ≤ t + veh.offset := hnow
  have hfuel : (flatL (buildAvail cfg veh R)).length < metaCount veh R + 1 := by
    rw [flatL_buildAvail, metaCount]
    simp only [List.length_append, flatMap_pudo_length]
    omega
  have hdn' : NodeSafe (flatL (buildAvail cfg veh R)) := by
    rw [flatL_buildAvail]
    exact hdn
  rcases hres : recursive_search net cfg (metaCount veh R + 1) veh.node
      ((veh.capacity : Int) - (veh.passengers.length : Int)) (buildAvail cfg veh R)
      (t + veh.offset) (-1) Action.no_action with ⟨bt1, tl1⟩
  have hfp : ¬ (cfg.CTSP = "FIX_PREFIX" ∧ (metaCount veh R : Int) > cfg.LP_LIMITVALUE) := by
    rintro ⟨h1, _⟩
    rw [hcfg] at h1
    exact absurd h1 (by decide)
  have htravel : travel cfg veh R net t trigSTANDARD =
      some (format_path cfg (bt1, tl1) t) := by
    rw [travel, trigSTANDARD]
    rw [if_neg (by decide), if_neg (by decide)]
    rw [new_travel, if_neg hfp, if_pos (Or.inl hobj), hres]
  have hcomplete : ∀ σ, ValidPlan net cfg veh R t σ →
      bt1 ≠ -1 ∧ bt1 ≤ seqEnd net cfg veh.node (t + veh.offset) Action.no_action σ := by
    intro σ hvp
    have h := recursive_search_complete Hn Htri (metaCount veh R + 1) veh.node
      ((veh.capacity : Int) - (veh.passengers.length : Int)) (buildAvail cfg veh R)
      (t + veh.offset) (-1) Action.no_action σ
      (seqEnd net cfg veh.node (t + veh.offset) Action.no_action σ)
      hfuel hcomp0 hdn' (hbridge σ hvp)
    rw [hres] at h
    exact h
  have hsound := recursive_search_sound net cfg (metaCount veh R + 1) veh.node
    ((veh.capacity : Int) - (veh.passengers.length : Int)) (buildAvail cfg veh R)
    (t + veh.offset) (-1) Action.no_action
  rw [hres] at hsound
  rcases hsound with he | ⟨σ0, hex0, htl⟩
  · injection he with h1 h2
    have hfmt : format_path cfg (bt1, tl1) t = (-1, []) := by
      rw [h1, h2, format_path]
      rw [if_neg (by rintro ⟨_, hcon⟩; omega)]
      rfl
    refine ⟨-1, [], by rw [htravel, hfmt], Or.inl ⟨rfl, rfl, ?_⟩⟩
    intro σ hvp
    exact (hcomplete σ hvp).1 h1
  · have hend : seqEnd net cfg veh.node (t + veh.offset) Action.no_action σ0 = bt1 :=
      exec_end hex0
    have hge : t + veh.offset ≤ bt1 := exec_ge_now Hn hex0
    have hfmt : format_path cfg (bt1, tl1) t = (bt1 - t, σ0) := by
      rw [format_path]
      rw [if_pos ⟨hobj, by show (0 : Int) ≤ bt1; omega⟩]
      have htl2 : tl1 = σ0.reverse := htl
      rw [htl2]
      simp [List.reverse_reverse]
    refine ⟨bt1 - t, σ0, by rw [htravel, hfmt], Or.inr ⟨?_, by rw [hend]; ring, ?_⟩⟩
    · refine ⟨?_, ?_, exec_check hex0⟩
      · have := exec_stops hex0
        rwa [flatL_buildAvail] at this
      · intro r hr
        have hx : puStop r ∈ flatL (buildAvail cfg veh R) := by
          rw [flatL_buildAvail]
          exact List.mem_append.mpr (Or.inl (List.mem_flatMap.mpr ⟨r, hr, by simp⟩))
        have hy : doStop r ∈ flatL (buildAvail cfg veh R) := by
          rw [flatL_buildAvail]
          exact List.mem_append.mpr (Or.inl (List.mem_flatMap.mpr ⟨r, hr, by simp⟩))
        have hne : doStop r ≠ puStop r := by
          intro hcon
          exact absurd (congrArg NodeStop.is_pickup hcon) (by simp [puStop, doStop])
        exact exec_precedes hex0 hx hy (guard_doStop cfg veh hr hobs_ids) hne
    · intro σ hvp
      rw [hend]
      exact (hcomplete σ hvp).2

/-- A `FIX_PREFIX` configuration with `LP_LIMITVALUE = 0`: the size
gate fires for any nonempty request set. -/
def cfgX2 : Config :=
  { CTSP := "FIX_PREFIX", CTSP_OBJECTIVE := "CTSP_VTT", DWELL_ALIGHT := 0, DWELL_PICKUP := 0,
    CARSIZE := 4, LP_LIMITVALUE := 0, MAX_NEW := 8, RTV_TIMELIMIT := 0, ALGORITHM := "ILP_FULL" }

/-- The `CTSP_DELAY` variant of the witness configuration. -/
def cfgWD : Config :=
  { CTSP := "FULL", CTSP_OBJECTIVE := "CTSP_DELAY", DWELL_ALIGHT := 0, DWELL_PICKUP := 0,
    CARSIZE := 4, LP_LIMITVALUE := 8, MAX_NEW := 8, RTV_TIMELIMIT := 0, ALGORITHM := "ILP_FULL" }

/-- Negative-travel-time scenario: two onboard dropoffs, a zero-cost
leg to the first and a negative return leg from the second. -/
def pN1 : Request :=
  { id := 11, origin := 0, destination := 1, entry_time := 0, ideal_traveltime := 0,
    latest_boarding := 1000, latest_alighting := 1000, assigned := true }

def pN2 : Request :=
  { id := 12, origin := 0, destination := 2, entry_time := 0, ideal_traveltime := 0,
    latest_boarding := 1000, latest_alighting := 1000, assigned := true }

def dN1 : NodeStop := ⟨pN1, false, 1⟩

def dN2 : NodeStop := ⟨pN2, false, 2⟩

def vehNeg : Vehicle :=
  { id := 0, node := 0, offset := 0, capacity := 4, passengers := [pN1, pN2],
    pending_requests := [], order_record := [dN1, dN2] }

def netNeg : Network :=
  { tm := fun a b => if a = 2 ∧ b = 1 then -10 else if a = 0 ∧ b = 1 then 0
      else if a = b then 0 else 10,
    dwell_pickup := 0, dwell_alight := 0 }

/-- Triangle-violation scenario: a zero-cost chain `0→1→2→3` but a
direct leg `1→3` of `100`, with the deadline of the node-3 dropoff
between the two. -/
def pT1 : Request :=
  { id := 21, origin := 0, destination := 1, entry_time := 0, ideal_traveltime := 0,
    latest_boarding := 1000, latest_alighting := 1000, assigned := true }

def pT2 : Request :=
  { id := 22, origin := 0, destination := 2, entry_time := 0, ideal_traveltime := 0,
    latest_boarding := 1000, latest_alighting := 60, assigned := true }

def pT3 : Request :=
  { id := 23, origin := 0, destination := 3, entry_time := 0, ideal_traveltime := 0,
    latest_boarding := 1000, latest_alighting := 50, assigned := true }

def dT1 : NodeStop := ⟨pT1, false, 1⟩

def dT2 : NodeStop := ⟨pT2, false, 2⟩

def dT3 : NodeStop := ⟨pT3, false, 3⟩

def vehTri : Vehicle :=
  { id := 0, node := 0, offset := 0, capacity := 4, passengers := [pT1, pT2, pT3],
    pending_requests := [], order_record := [dT1, dT2, dT3] }

def netTri : Network :=
  { tm := fun a b => if a = b then 0 else if a = 0 ∧ b = 1 then 0
      else if a = 1 ∧ b = 2 then 0 else if a = 2 ∧ b = 3 then 0 else 100,
    dwell_pickup := 0, dwell_alight := 0 }

/-- Same-node scenario: two onboard dropoffs at node 1 with a positive
same-node travel time; only serving the tight-deadline dropoff first
is feasible, but the skip discards it. -/
def pS1 : Request :=
  { id := 31, origin := 0, destination := 1, entry_time := 0, ideal_traveltime := 0,
    latest_boarding := 1000, latest_alighting := 1000, assigned := true }

def pS2 : Request :=
  { id := 32, origin := 0, destination := 1, entry_time := 0, ideal_traveltime := 0,
    latest_boarding := 1000, latest_alighting := 10, assigned := true }

def dS1 : NodeStop := ⟨pS1, false, 1⟩

def dS2 : NodeStop := ⟨pS2, false, 1⟩

def vehSame : Vehicle :=
  { id := 0, node := 0, offset := 0, capacity := 4, passengers := [pS1, pS2],
    pending_requests := [], order_record := [dS1, dS2] }

def netSame : Network :=
  { tm := fun a b => if a = 1 ∧ b = 1 then 5 else if a = b then 0 else 10,
    dwell_pickup := 0, dwell_alight := 0 }

/-- Claim C2 counterexample: the untimed search does not decide
feasibility exactly in general; each conjunct exhibits one concrete
failure and forces one hypothesis of the amended statement.
(i) Under `FIX_PREFIX` with `LP_LIMITVALUE = 0` the size gate of
`new_travel` returns `(-1, [])` for a single perfectly feasible
request.  (ii) Under `FIX_ONBOARD` the prefix lock returns `(-1, [])`
although serving the onboard dropoffs in reversed order meets every
gate.  (iii) Under `CTSP_DELAY` the returned cost is the raw
completion time `60`, not the delay objective (`0` on the returned
order), so the cost clause holds only under `CTSP_VTT`.  (iv) With one
negative travel time the bound prune keeps a cost-`10` order although
a valid plan completes at time `0` — minimality fails.  (v) With
nonnegative times that violate the triangle inequality the
reachability prune returns `(-1, [])` although a valid plan meets
every deadline.  (vi) With two dropoffs at one node and a positive
same-node travel time — nonnegative and triangle-compatible — the
duplicate-dropoff skip discards the only feasible order and returns
`(-1, [])`. -/
theorem search_exactness_counterexample :
    (travel cfgX2 vehW [reqW] netW 0 trigSTANDARD = some (-1, []) ∧
      ValidPlan netW cfgX2 vehW [reqW] 0 [⟨reqW, true, 0⟩, ⟨reqW, false, 2⟩]) ∧
    (travel cfgC8 vehC8 [] netC8 0 trigSTANDARD = some (-1, []) ∧
      ValidPlan netC8 cfgC8 vehC8 [] 0 [d2C8, d1C8]) ∧
    (travel cfgWD vehW [reqW] netW 0 trigSTANDARD =
        some (60, [⟨reqW, true, 0⟩, ⟨reqW, false, 2⟩]) ∧
      delay_spec netW cfgWD vehW.node (0 + vehW.offset) Action.no_action
        [⟨reqW, true, 0⟩, ⟨reqW, false, 2⟩] = 0) ∧
    (travel cfgW vehNeg [] netNeg 0 trigSTANDARD = some (10, [dN1, dN2]) ∧
      ValidPlan netNeg cfgW vehNeg [] 0 [dN2, dN1] ∧
      seqEnd netNeg cfgW vehNeg.node (0 + vehNeg.offset) Action.no_action [dN2, dN1] = 0 ∧
      ¬ NetNonneg netNeg cfgW) ∧
    (travel cfgW vehTri [] netTri 0 trigSTANDARD = some (-1, []) ∧
      ValidPlan netTri cfgW vehTri [] 0 [dT1, dT2, dT3] ∧
      NetNonneg netTri cfgW ∧ ¬ TriangleNet netTri) ∧
    (travel cfgW vehSame [] netSame 0 trigSTANDARD = some (-1, []) ∧
      ValidPlan netSame cfgW vehSame [] 0 [dS2, dS1] ∧
      NetNonneg netSame cfgW ∧ TriangleNet netSame ∧
      ¬ NodeSafe (onboardStops vehSame.passengers vehSame.order_record)) := by
  have hvac : ∀ r ∈ ([] : List Request), ∃ σa σb,
      ([dN2, dN1] : List NodeStop) = σa ++ puStop r :: σb ∧ doStop r ∈ σb :=
    fun r hr => absurd hr (List.not_mem_nil r)
  have hvacT : ∀ r ∈ ([] : List Request), ∃ σa σb,
      ([dT1, dT2, dT3] : List NodeStop) = σa ++ puStop r :: σb ∧ doStop r ∈ σb :=
    fun r hr => absurd hr (List.not_mem_nil r)
  have hvacS : ∀ r ∈ ([] : List Request), ∃ σa σb,
      ([dS2, dS1] : List NodeStop) = σa ++ puStop r :: σb ∧ doStop r ∈ σb :=
    fun r hr => absurd hr (List.not_mem_nil r)
  have hvacC : ∀ r ∈ ([] : List Request), ∃ σa σb,
      ([d2C8, d1C8] : List NodeStop) = σa ++ puStop r :: σb ∧ doStop r ∈ σb :=
    fun r hr => absurd hr (List.not_mem_nil r)
  have hprec : ∀ r ∈ [reqW], ∃ σa σb,
      ([⟨reqW, true, 0⟩, ⟨reqW, false, 2⟩] : List NodeStop) = σa ++ puStop r :: σb ∧
        doStop r ∈ σb := by
    intro r hr
    have hreq : r = reqW := by simpa using hr
    subst hreq
    exact ⟨[], [⟨reqW, false, 2⟩], rfl, by decide⟩
  refine ⟨⟨by decide, by decide, hprec, by decide⟩,
    ⟨by decide, by decide, hvacC, by decide⟩,
    ⟨by decide, by decide⟩,
    ⟨by decide, ⟨by decide, hvac, by decide⟩, by decide,
      fun h => absurd (h.1 2 1) (by decide)⟩,
    ⟨by decide, ⟨by decide, hvacT, by decide⟩,
      ⟨fun a b => by dsimp [netTri]; split_ifs <;> omega, by norm_num [netTri],
        by norm_num [netTri], by norm_num [cfgW], by norm_num [cfgW]⟩,
      fun h => absurd (h 1 2 3) (by decide)⟩,
    ⟨by decide, ⟨by decide, hvacS, by decide⟩,
      ⟨fun a b => by dsimp [netSame]; split_ifs <;> omega, by norm_num [netSame],
        by norm_num [netSame], by norm_num [cfgW], by norm_num [cfgW]⟩,
      by intro a b c; simp only [Network.get_time, netSame]; split_ifs <;> omega,
      by decide⟩⟩

lemma netW_triangle : TriangleNet netW := by
  intro a b c
  simp only [TriangleNet, Network.get_time, netW]
  split_ifs <;> omega

theorem search_exactness_witness :
    ∃ c ord, travel cfgW vehW [reqW] netW 0 trigSTANDARD = some (c, ord) ∧
      ((c = -1 ∧ ord = [] ∧ ∀ σ, ¬ ValidPlan netW cfgW vehW [reqW] 0 σ) ∨
       (ValidPlan netW cfgW vehW [reqW] 0 ord ∧
        c + 0 = seqEnd netW cfgW vehW.node (0 + vehW.offset) Action.no_action ord ∧
        ∀ σ, ValidPlan netW cfgW vehW [reqW] 0 σ →
          seqEnd netW cfgW vehW.node (0 + vehW.offset) Action.no_action ord ≤
          seqEnd netW cfgW vehW.node (0 + vehW.offset) Action.no_action σ)) :=
  search_exactness cfgW vehW [reqW] netW 0 rfl rfl
    ⟨fun a b => by dsimp [netW]; split <;> omega, by norm_num [netW], by norm_num [netW],
      by norm_num [cfgW], by norm_num [cfgW]⟩
    netW_triangle (by decide) (by decide) (by decide) (by decide)
